import Mathlib

/-!
# Verification of the Velma Cluedo detective core

Shallow embedding of `velma/game.py`, `velma/core.py` and `velma/parcore.py`.

Conventions of the embedding:
* Card identifiers are naturals `0..20` exactly as in `game.py`
  (characters `0..5`, rooms `6..14`, weapons `15..20`, `NULLCARD = 21`).
* Python `set`s of cards are represented by `List ℕ` used up to membership
  (insertion is `insertCard`, which keeps lists duplicate-free when the input
  is duplicate-free); `dict`/`numpy` matrices are represented by functions.
* Python floats are idealised as real numbers (`ℝ`), `numpy.log` as
  `Real.log`; the `nan`-scrubbing steps `ents[np.isnan(ents)] = 0.` coincide
  with the Lean conventions `x / 0 = 0` and `Real.negMulLog 0 = 0`, so the
  embedded formulas agree with the scrubbed numpy results on the domains used.
* `numpy.inf` results are encoded with `Option` (`none` = infinity).
* Exceptions are modelled with `Except`, the error value carrying the state
  of the object at the moment the exception escapes (Python mutations made
  before the raise persist on the object).
-/

namespace Velma

/-! ## Game constants (`velma/game.py`) -/

def NCHARS : ℕ := 6
def NROOMS : ℕ := 9
def NWEAPS : ℕ := 6
def NCARDS : ℕ := NCHARS + NROOMS + NWEAPS
def NULLCARD : ℕ := NCARDS

/-- `game.CHARS = tuple(range(NCHARS))`. -/
def CHARS : List ℕ := List.range NCHARS
/-- `game.ROOMS = tuple(range(NCHARS, NROOMS+NCHARS))`. -/
def ROOMS : List ℕ := (List.range NROOMS).map (· + NCHARS)
/-- `game.WEAPS = tuple(range(NROOMS+NCHARS, NCARDS))`. -/
def WEAPS : List ℕ := (List.range NWEAPS).map (· + (NCHARS + NROOMS))
/-- `game.ALLOWEDCARDS` (as a list used up to membership). -/
def ALLOWEDCARDS : List ℕ := List.range NCARDS

/-- `game.CHARINDEX[card]`: index of a character card (card ids `0..5` map to
indices `0..5`).  Callers only use it on members of `CHARS`. -/
def charIndex (card : ℕ) : ℕ := card
/-- `game.ROOMINDEX[card]` for `card ∈ ROOMS`. -/
def roomIndex (card : ℕ) : ℕ := card - NCHARS
/-- `game.WEAPINDEX[card]` for `card ∈ WEAPS`. -/
def weapIndex (card : ℕ) : ℕ := card - (NCHARS + NROOMS)

/-! ## `game.dicerollstomove` (claim C9)

The Python function consults the fixed lookup table `_DICEROLLSTOMOVE` for
distances `0..10`, uses the linear approximation `(distance+3.5)/7` above 10,
and returns `numpy.inf` (here `none`) for negative distances.  The float
literals of the table are embedded as the exact decimal rationals written in
the source. -/

def DICEROLLSTOMOVETBL : List ℚ :=
  [0, 1, 1, 37/36, 1.08333333333333, 1.16512345679012, 1.28163580246913,
    1.42817644032921, 1.60988940329218, 1.77443415637860, 1.93233453360767]

def dicerollstomove (distance : ℤ) : Option ℚ :=
  if distance > 10 then some (((distance : ℚ) + 3.5) / 7)
  else if distance ≥ 0 then some (DICEROLLSTOMOVETBL.getD distance.toNat 0)
  else none

/-! ## Set-as-list helpers

Python `set` values are embedded as duplicate-free `List ℕ` used up to
membership; the operations below mirror `set.add`, `&`, `-`. -/

/-- `s.add c` on a Python set. -/
def insertCard (s : List ℕ) (c : ℕ) : List ℕ := if c ∈ s then s else s ++ [c]

/-- Set difference `s - t`. -/
def diffCards (s t : List ℕ) : List ℕ := s.filter (fun c => c ∉ t)

/-- Set intersection `s & t`. -/
def interCards (s t : List ℕ) : List ℕ := s.filter (fun c => c ∈ t)

/-- Pointwise update of a function-embedded mutable array/dict. -/
def fupd {β : Type} (f : ℕ → β) (i : ℕ) (b : β) : ℕ → β :=
  fun j => if j = i then b else f j

/-- Pointwise update of a function-embedded mutable matrix. -/
def fupd2 {β : Type} (f : ℕ → ℕ → β) (i j : ℕ) (b : β) : ℕ → ℕ → β :=
  fun i' j' => if i' = i ∧ j' = j then b else f i' j'

/-! ## Event records (`core.py` namedtuples) -/

structure EventMove where
  turn : ℕ
  actor : ℕ
  nodeStart : ℕ
  nodeStop : ℕ
deriving DecidableEq

structure EventSuggestion where
  turn : ℕ
  actor : ℕ
  character : ℕ
  room : ℕ
  weapon : ℕ
deriving DecidableEq

structure EventPass where
  turn : ℕ
  actor : ℕ
  character : ℕ
  room : ℕ
  weapon : ℕ
deriving DecidableEq

structure EventUnseenAnswer where
  turn : ℕ
  actor : ℕ
  consumer : ℕ
  character : ℕ
  room : ℕ
  weapon : ℕ
deriving DecidableEq

structure EventSeenAnswer where
  turn : ℕ
  actor : ℕ
  consumer : ℕ
  card : ℕ
deriving DecidableEq

/-- Record shape the source *intends* for `logIncorrectAccusations` entries
(the constructor call is `AccusationRecord(self.ixTurn, character, room,
weapon, player)`; the class `AccusationRecord` is never defined anywhere in
the source, cf. claim C2). -/
structure AccRecord where
  turn : ℕ
  character : ℕ
  room : ℕ
  weapon : ℕ
  actor : ℕ
deriving DecidableEq

/-! ## Hypotheses

A Python hypothesis is a list of `nPlayers` card sets (one hand per player,
index 0 = the detective) followed by the murder-scenario index triple
`(ixChar, ixRoom, ixWeap)` as its last element. -/

structure Hyp where
  hands : List (List ℕ)
  env : ℕ × ℕ × ℕ
deriving DecidableEq

/-- The three cards named by a hypothesis' envelope index triple. -/
def envCards (h : Hyp) : List ℕ :=
  [h.env.1, h.env.2.1 + NCHARS, h.env.2.2 + (NCHARS + NROOMS)]

/-- Envelope index triple lies inside the `NCHARS × NROOMS × NWEAPS` box. -/
def envInBox (h : Hyp) : Bool :=
  decide (h.env.1 < NCHARS ∧ h.env.2.1 < NROOMS ∧ h.env.2.2 < NWEAPS)

/-- The scenario count tensor derived from a hypothesis list — the value the
incrementally maintained `hypCountByScenario` bookkeeping (`... += 1` on
append, `... -= 1` on removal, full recount on an exact rebuild) keeps in
step with. -/
def scenarioCounts (H : List Hyp) : ℕ → ℕ → ℕ → ℤ :=
  fun i j k => (H.countP (fun h => h.env == (i, j, k)) : ℤ)

/-! ## Detective state (`class Detective` mutable members) -/

structure DState where
  nPlayers : ℕ
  ixDealer : ℕ
  nCardsHeld : List ℕ
  playerCharIxs : List ℕ
  myCards : List ℕ
  myCardSet : List ℕ
  myCardsShownTo : ℕ → ℕ → Bool
  myCardsShownCounts : ℕ → ℕ
  charLocations : ℕ → ℕ
  forbidden : ℕ → ℕ → Bool
  forbiddenSets : ℕ → List ℕ
  hypotheses : List Hyp
  areHypothesesEnumerable : Bool
  hasEnteredRoomYet : Bool
  canSuggestInCurrentRoom : Bool
  ixTurn : ℕ
  ixHotSeat : ℕ
  playersOusted : ℕ → Bool
  logMoves : List EventMove
  logSuggestions : List EventSuggestion
  logPasses : List EventPass
  logUnseenAnswers : List EventUnseenAnswer
  logSeenAnswers : List EventSeenAnswer
  logIncorrectAccusations : List AccRecord
  hypCountByCharacter : ℕ → ℤ
  hypCountByRoom : ℕ → ℤ
  hypCountByWeapon : ℕ → ℤ
  hypCountByScenario : ℕ → ℕ → ℕ → ℤ
  pScenario : ℕ → ℕ → ℕ → ℝ
  scenarioEntropy : ℝ
  isGameOver : Bool
  isInitialised : Bool
  DBGSCENARIO : Option (List (List ℕ))

/-! ## `Detective.statsfromcounts` and `Detective.updatestats`

Count tensors are summed over the scenario box
`NCHARS × NROOMS × NWEAPS` exactly as `np.sum` does. -/

/-- `np.sum` of a (ℕ-valued) scenario count tensor. -/
def tot3 (f : ℕ → ℕ → ℕ → ℕ) : ℕ :=
  ∑ i ∈ Finset.range NCHARS, ∑ j ∈ Finset.range NROOMS,
    ∑ k ∈ Finset.range NWEAPS, f i j k

/-- `np.sum` of a (ℤ-valued) scenario count tensor. -/
def tot3Z (f : ℕ → ℕ → ℕ → ℤ) : ℤ :=
  ∑ i ∈ Finset.range NCHARS, ∑ j ∈ Finset.range NROOMS,
    ∑ k ∈ Finset.range NWEAPS, f i j k

/-- Entropy of a normalised ℕ-valued count tensor:
`np.sum` of `-p*np.log(p)` with the `nan → 0` scrub, for `p = counts/sum`.
(The Lean conventions `x/0 = 0`, `negMulLog 0 = 0` reproduce the scrubbed
numpy value also when the total is zero.) -/
noncomputable def entOf (f : ℕ → ℕ → ℕ → ℕ) : ℝ :=
  ∑ i ∈ Finset.range NCHARS, ∑ j ∈ Finset.range NROOMS,
    ∑ k ∈ Finset.range NWEAPS,
      Real.negMulLog ((f i j k : ℝ) / (tot3 f : ℝ))

/-- `Detective.statsfromcounts`: probability tensor (`'p'` result key). -/
noncomputable def statsfromcountsP (counts : ℕ → ℕ → ℕ → ℤ) : ℕ → ℕ → ℕ → ℝ :=
  if (0 : ℝ) < (tot3Z counts : ℝ) then
    fun i j k => (counts i j k : ℝ) / (tot3Z counts : ℝ)
  else fun _ _ _ => 0

/-- `Detective.statsfromcounts`: entropy (`'entropy'` result key; the
`nan → 0` scrub of `0·log 0` is built into `negMulLog`). -/
noncomputable def statsfromcountsEntropy (counts : ℕ → ℕ → ℕ → ℤ) : ℝ :=
  if (0 : ℝ) < (tot3Z counts : ℝ) then
    ∑ i ∈ Finset.range NCHARS, ∑ j ∈ Finset.range NROOMS,
      ∑ k ∈ Finset.range NWEAPS,
        Real.negMulLog ((counts i j k : ℝ) / (tot3Z counts : ℝ))
  else 0

/-- `Detective.updatestats`: refresh `pScenario` and `scenarioEntropy` from
`hypCountByScenario`. -/
noncomputable def updatestats (s : DState) : DState :=
  { s with
    pScenario := statsfromcountsP s.hypCountByScenario
    scenarioEntropy := statsfromcountsEntropy s.hypCountByScenario }

/-! ## `Detective.suggestionexpposteriors` (pure core)

Phase 1 sorts each hypothesis by the first non-detective player (in seating
order `1..nPlayers-1`) holding any of the three suggested cards, and by the
bitmask (1 = character, 2 = room, 4 = weapon) of suggested cards held by that
player; hypotheses nobody can answer land in the no-answer bucket. -/

/-- `ixAnswer`: bitmask of suggested cards in `hand`. -/
def triadMask (c r w : ℕ) (hand : List ℕ) : ℕ :=
  (if c ∈ hand then 1 else 0) + (if r ∈ hand then 2 else 0) +
    (if w ∈ hand then 4 else 0)

/-- The `for ixPlayer in range(1, nPlayers): ... break` scan in phase 1. -/
def firstRespAux (c r w : ℕ) (h : Hyp) : List ℕ → Option (ℕ × ℕ)
  | [] => none
  | p :: ps =>
    if 0 < triadMask c r w (h.hands.getD p []) then
      some (p, triadMask c r w (h.hands.getD p []))
    else firstRespAux c r w h ps

/-- First player (among `1..n-1`) able to answer, with the card bitmask. -/
def firstResponder (n c r w : ℕ) (h : Hyp) : Option (ℕ × ℕ) :=
  firstRespAux c r w h (List.range' 1 (n - 1))

/-- `hypCountsSorted[p-1, m-1, i, j, k]` (indexed here by actual player id
`p` and actual bitmask `m`). -/
def sortedCnt (H : List Hyp) (n c r w p m i j k : ℕ) : ℕ :=
  H.countP (fun h =>
    firstResponder n c r w h == some (p, m) && h.env == (i, j, k))

/-- `hypCountsNoAnswer[i, j, k]`. -/
def noAnswerCnt (H : List Hyp) (n c r w i j k : ℕ) : ℕ :=
  H.countP (fun h => firstResponder n c r w h == none && h.env == (i, j, k))

/-- Bitmask bins kept after the answer `r` (`0` = character, `1` = room,
`2` = weapon) is shown: the bins whose mask contains bit `r` — the fancy-index
sums `hypCountsSorted[:,(0,1,3)] + [:,(2,2,4)] + [:,(4,5,5)] + [:,(6,6,6)]`
of phase 2. -/
def binsFor (r : ℕ) : Finset ℕ := (Finset.Ico 1 8).filter (fun m => m.testBit r)

/-- `hypCountsAfterAnswer[p-1, r, i, j, k]`. -/
def afterAnswerCnt (H : List Hyp) (n c r w p r' i j k : ℕ) : ℕ :=
  ∑ m ∈ binsFor r', sortedCnt H n c r w p m i j k

/-- `entAfterAnswer[p-1, r]`: scenario entropy left after player `p` shows
answer `r` (division by a zero bucket total and the subsequent `nan → 0`
scrub both collapse to `0` as in numpy). -/
noncomputable def entAfterAnswer (H : List Hyp) (n c r w p r' : ℕ) : ℝ :=
  entOf (afterAnswerCnt H n c r w p r')

/-- `entNoAnswer` (the `hypCountSumNoAnswer > 0` guard agrees with `entOf`
because all summands vanish when the total is zero). -/
noncomputable def entNoAnswer (H : List Hyp) (n c r w : ℕ) : ℝ :=
  entOf (noAnswerCnt H n c r w)

/-! Phase 3: each answering player's preference order over the three
revealable responses is `np.argsort(entAfterAnswer)[:, ::-1]` — descending
entropy, ties broken towards the larger response index (a stable ascending
argsort, reversed). -/

/-- Response `i` precedes response `j` in the reversed stable argsort. -/
def argBeats (e : ℕ → ℝ) (i j : ℕ) : Prop := e j < e i ∨ (e i = e j ∧ j < i)

open Classical in
/-- `playerDecisions[p-1, :]`: preference order (favourite first). -/
noncomputable def prefOrder (e : ℕ → ℝ) : List ℕ :=
  if argBeats e 0 1 then
    if argBeats e 0 2 then (if argBeats e 1 2 then [0, 1, 2] else [0, 2, 1])
    else [2, 0, 1]
  else
    if argBeats e 1 2 then (if argBeats e 0 2 then [1, 0, 2] else [1, 2, 0])
    else [2, 1, 0]

/-- Response actually given for holding-bitmask `m` under preference order
`pref`: the first preferred response among the held cards.  This reproduces
the phase-3 bin allocation: bin 7 goes to the favourite; a two-card bin goes
to the favourite if it contains it and otherwise to the second preference;
one-card bins answer with their only card. -/
def assignedResp (m : ℕ) (pref : List ℕ) : ℕ :=
  (pref.filter (fun r => m.testBit r)).headD 0

open Classical in
/-- `receivedHypCounts[p-1, r, i, j, k]`: counts of hypotheses in which
player `p` actually shows response `r`. -/
noncomputable def receivedCnt (H : List Hyp) (n c r w p r' i j k : ℕ) : ℕ :=
  ∑ m ∈ (Finset.Ico 1 8).filter
      (fun m => assignedResp m (prefOrder (entAfterAnswer H n c r w p)) = r'),
    sortedCnt H n c r w p m i j k

/-- `totalReceivedCounts[p-1, r]`. -/
noncomputable def totalReceivedCnt (H : List Hyp) (n c r w p r' : ℕ) : ℕ :=
  tot3 (receivedCnt H n c r w p r')

/-- `'expEntropy'` result of `Detective.suggestionexpposteriors`, as a pure
function of the hypothesis list `H` and `nPlayers = n`. -/
noncomputable def sugExpEntropy (H : List Hyp) (n c r w : ℕ) : ℝ :=
  (entNoAnswer H n c r w * (tot3 (noAnswerCnt H n c r w) : ℝ) +
    ∑ p ∈ Finset.Ico 1 n, ∑ r' ∈ Finset.range 3,
      entAfterAnswer H n c r w p r' * (totalReceivedCnt H n c r w p r' : ℝ)) /
    (H.length : ℝ)

/-- `hypCountsByRoomAfterAnswer[p-1, r, j]`. -/
def roomAfterAnswerCnt (H : List Hyp) (n c r w p r' j : ℕ) : ℕ :=
  ∑ i ∈ Finset.range NCHARS, ∑ k ∈ Finset.range NWEAPS,
    afterAnswerCnt H n c r w p r' i j k

/-- `hypCountsByRoomNoAnswer[j]`. -/
def roomNoAnswerCnt (H : List Hyp) (n c r w j : ℕ) : ℕ :=
  ∑ i ∈ Finset.range NCHARS, ∑ k ∈ Finset.range NWEAPS,
    noAnswerCnt H n c r w i j k

/-- Unnormalised `expRoomDist[j]`. -/
noncomputable def sugExpRoomNum (H : List Hyp) (n c r w j : ℕ) : ℝ :=
  (roomNoAnswerCnt H n c r w j : ℝ) * (tot3 (noAnswerCnt H n c r w) : ℝ) +
    ∑ p ∈ Finset.Ico 1 n, ∑ r' ∈ Finset.range 3,
      (roomAfterAnswerCnt H n c r w p r' j : ℝ) *
        (totalReceivedCnt H n c r w p r' : ℝ)

/-- `'expRoomDist'` result of `Detective.suggestionexpposteriors`. -/
noncomputable def sugExpRoomDist (H : List Hyp) (n c r w j : ℕ) : ℝ :=
  sugExpRoomNum H n c r w j /
    ∑ j' ∈ Finset.range NROOMS, sugExpRoomNum H n c r w j'

/-- The method `Detective.suggestionexpposteriors(character, room, weapon)`:
returns the expected-entropy/room-distribution pair.  The method body
assigns to no attribute of `self` (all numpy fancy-indexing results are
copies), so its embedding threads the state through unchanged — the returned
state is the receiver itself. -/
noncomputable def Detective_suggestionexpposteriors (s : DState) (c r w : ℕ) :
    (ℝ × (ℕ → ℝ)) × DState :=
  ((sugExpEntropy s.hypotheses s.nPlayers c r w,
    sugExpRoomDist s.hypotheses s.nPlayers c r w), s)

/-- `parcore.suggestionexpposteriors(hypotheses, character, room, weapon)`.
Its body is identical to the sequential `Detective.suggestionexpposteriors`
except for its first line, which computes the player count from the length
of the *hypothesis list*: `nPlayers = len(hypotheses) - 1`. -/
noncomputable def parcore_sugExpEntropy (H : List Hyp) (c r w : ℕ) : ℝ :=
  sugExpEntropy H (H.length - 1) c r w

/-- `parcore.suggestionexpposteriors`: the `'expRoomDist'` component. -/
noncomputable def parcore_sugExpRoomDist (H : List Hyp) (c r w j : ℕ) : ℝ :=
  sugExpRoomDist H (H.length - 1) c r w j

/-- Count tensor attached to one outcome bucket of `suggestionexpposteriors`:
`none` is the no-answer bucket, `some (p, r')` the bucket where player `p`
shows the card of type `r'`. -/
def bucketCnt (H : List Hyp) (n c r w : ℕ) :
    Option (ℕ × ℕ) → ℕ → ℕ → ℕ → ℕ
  | none => noAnswerCnt H n c r w
  | some pr => fun i j k => sortedCnt H n c r w pr.1 (2 ^ pr.2) i j k

/-! ## Python exceptions -/

inductive PyErr
  | nameError
  | indexError
  | typeError
  | valueError
  | keyError
  | attributeError
deriving DecidableEq

/-! ## Remaining board constants from `game.py` -/

def ROOMNODES : List ℕ := [3, 1, 79, 161, 153, 177, 104, 50, 5]
def CHARSTARTNODES : List ℕ := [51, 38, 197, 171, 2, 196]
def CHARIXSTARTORDER : List ℕ := [4, 0, 5, 2, 3, 1]
/-- `game.ROOMCARDNODES[room]` for a room card id. -/
def ROOMCARDNODES (room : ℕ) : ℕ := ROOMNODES.getD (room - NCHARS) 0
/-- `card in game.ROOMNODEIXS` (is the node a room node). -/
def isRoomNode (node : ℕ) : Bool := node ∈ ROOMNODES

def THRESHAPPROXHYPCOUNT : ℤ := 500000
def HYPSAMPLECOUNT : ℕ := 100000

/-- `scipy.special.comb(n, k, exact=True)` on possibly negative inputs. -/
def nCrZ (n k : ℤ) : ℤ :=
  if 0 ≤ n ∧ 0 ≤ k then (Nat.choose n.toNat k.toNat : ℤ) else 0

/-- Add a card to the hand `p` of a working hypothesis hand list. -/
def handsAdd (hands : List (List ℕ)) (p c : ℕ) : List (List ℕ) :=
  hands.set p (insertCard (hands.getD p []) c)

/-- First element of `l` maximising `f` (as `np.argmax` over values of a
list of candidate indices). -/
def argmaxBy (f : ℕ → ℕ) : List ℕ → ℕ
  | [] => 0
  | x :: xs => xs.foldl (fun best y => if f best < f y then y else best) x

/-- Set equality of card lists used up to membership. -/
def setEqCards (a b : List ℕ) : Bool :=
  a.all (fun c => c ∈ b) && b.all (fun c => c ∈ a)

/-! ## Shared state-mutation helpers for the event functions -/

/-- `self.forbidden[actor, card] = True; self.forbiddenSets[actor].add(card)`. -/
def forbidCard (s : DState) (actor card : ℕ) : DState :=
  { s with
    forbidden := fupd2 s.forbidden actor card true
    forbiddenSets :=
      fupd s.forbiddenSets actor (insertCard (s.forbiddenSets actor) card) }

/-- `all(self.forbidden[0:self.nPlayers, card])`. -/
def allPlayersForbid (s : DState) (card : ℕ) : Bool :=
  (List.range s.nPlayers).all (fun p => s.forbidden p card)

/-- One of the three forbidden-update blocks of `event_pass`: mark the card
forbidden for the passing player, and when every player now forbids it, mark
every *other* card of its family forbidden for the envelope row. -/
def passForbidOne (s : DState) (actor card : ℕ) (family : List ℕ) : DState :=
  let s1 := forbidCard s actor card
  if allPlayersForbid s1 card then
    (family.filter (fun c => c ≠ card)).foldl
      (fun t c => forbidCard t t.nPlayers c) s1
  else s1

/-- Net effect on the four count tensors of the `removehypfromcounts` calls
made for each removed hypothesis. -/
def removeCounts (removed : List Hyp) (s : DState) : DState :=
  { s with
    hypCountByScenario := fun i j k => s.hypCountByScenario i j k -
      (removed.countP (fun h => h.env == (i, j, k)) : ℤ)
    hypCountByCharacter := fun i => s.hypCountByCharacter i -
      (removed.countP (fun h => h.env.1 == i) : ℤ)
    hypCountByRoom := fun j => s.hypCountByRoom j -
      (removed.countP (fun h => h.env.2.1 == j) : ℤ)
    hypCountByWeapon := fun k => s.hypCountByWeapon k -
      (removed.countP (fun h => h.env.2.2 == k) : ℤ) }

/-- Net effect on the four count tensors of the `... += 1` updates made for
each appended hypothesis during a stochastic top-up. -/
def addCounts (added : List Hyp) (s : DState) : DState :=
  { s with
    hypCountByScenario := fun i j k => s.hypCountByScenario i j k +
      (added.countP (fun h => h.env == (i, j, k)) : ℤ)
    hypCountByCharacter := fun i => s.hypCountByCharacter i +
      (added.countP (fun h => h.env.1 == i) : ℤ)
    hypCountByRoom := fun j => s.hypCountByRoom j +
      (added.countP (fun h => h.env.2.1 == j) : ℤ)
    hypCountByWeapon := fun k => s.hypCountByWeapon k +
      (added.countP (fun h => h.env.2.2 == k) : ℤ) }

/-! ## Hypothesis rebuilding (`Detective.rebuildhypotheses`)

The stochastic generation of new hypotheses draws on `random`; the embedded
event functions therefore take the list `gen` of hypotheses produced by the
sampler as an explicit parameter (it is consulted only on the stochastic
top-up branch). -/

/-- `np.sum(self.forbidden[:, card])` (over all `nPlayers + 1` rows). -/
def forbidColCnt (s : DState) (card : ℕ) : ℕ :=
  (List.range (s.nPlayers + 1)).countP (fun p => s.forbidden p card)

/-- `np.sum(self.forbidden[p, :])` (over all `NCARDS` columns). -/
def forbidRowCnt (s : DState) (p : ℕ) : ℕ :=
  (List.range NCARDS).countP (fun c => s.forbidden p c)

/-- `next(ix for ix in range(nPlayers+1) if not forbidden[ix, card])`. -/
def holderOf (s : DState) (card : ℕ) : ℕ :=
  ((List.range (s.nPlayers + 1)).filter (fun p => ¬ s.forbidden p card)).headD 0

/-- Cards narrowed down to one possible location. -/
def knownCards (s : DState) : List ℕ :=
  ALLOWEDCARDS.filter (fun c => forbidColCnt s c = s.nPlayers)

/-- `nHypsApprox`: the feasible-deal estimate of `rebuildhypotheses`
(`dealSpaces`/`cardsLeft` accounting followed by the product of binomials
over the players in deal order). -/
def estimateHyps (s : DState) : ℤ :=
  let spaces : List ℤ := (knownCards s).foldl
    (fun sp c =>
      if holderOf s c < s.nPlayers then
        sp.set (holderOf s c) (sp.getD (holderOf s c) 0 - 1)
      else sp)
    (s.nCardsHeld.map (fun x => (x : ℤ)))
  let cardsLeft0 : ℤ := (NCARDS : ℤ) - 3 -
    ((knownCards s).countP (fun c => holderOf s c < s.nPlayers) : ℤ)
  let base : ℤ :=
    ((NCHARS : ℤ) - (CHARS.countP (fun c => s.forbidden s.nPlayers c) : ℤ)) *
    ((NROOMS : ℤ) - (ROOMS.countP (fun c => s.forbidden s.nPlayers c) : ℤ)) *
    ((NWEAPS : ℤ) - (WEAPS.countP (fun c => s.forbidden s.nPlayers c) : ℤ))
  let order := (List.range s.nPlayers).map (fun i =>
    (s.ixDealer + i) % s.nPlayers)
  (order.foldl
    (fun (acc : ℤ × ℤ) p =>
      (acc.1 * nCrZ (min acc.2 ((NCARDS : ℤ) - (forbidRowCnt s p : ℤ)))
        (spaces.getD p 0),
       acc.2 - spaces.getD p 0))
    (base, cardsLeft0)).1

/-- Working hypothesis of the exact enumeration: player hands, the
`[-1,-1,-1]` murder-index placeholder (`none` = still `-1`) and the card set
dealt so far. -/
structure WHyp where
  hands : List (List ℕ)
  envC : Option ℕ
  envR : Option ℕ
  envW : Option ℕ
  dealt : List ℕ
deriving DecidableEq

/-- One card of the stage-1 known-location loop of the exact rebuild. -/
def stage1step (s : DState) (w : WHyp) (c : ℕ) : WHyp :=
  if forbidColCnt s c = s.nPlayers then
    let holder := holderOf s c
    if holder < s.nPlayers then
      { w with hands := handsAdd w.hands holder c
               dealt := insertCard w.dealt c }
    else
      if c < NCHARS then
        { w with envC := some (charIndex c), dealt := insertCard w.dealt c }
      else if c < NCHARS + NROOMS then
        { w with envR := some (roomIndex c), dealt := insertCard w.dealt c }
      else
        { w with envW := some (weapIndex c), dealt := insertCard w.dealt c }
  else w

/-- Stage 1 of the exact rebuild: deal every card whose location is known
exactly (one allowed row) to that player's hand or to the murder slot of its
family. -/
def stage1 (s : DState) : WHyp :=
  ALLOWEDCARDS.foldl (stage1step s)
    ⟨List.replicate s.nPlayers [], none, none, none, []⟩

/-- Candidate cards for one murder slot in stage 3 of the exact rebuild:
the preset card when the slot is already decided, else every family card
still free and not ruled out for the envelope row. -/
def slotChoices (s : DState) (w : WHyp) (fam : List ℕ) : Option ℕ → List ℕ
  | some i => [fam.getD i 0]
  | none => fam.filter (fun c =>
      c ∉ w.dealt ∧ c ∉ s.forbiddenSets s.nPlayers)

/-- Stage 3 of the exact rebuild: choose a murder scenario for every
hypothesis from the cards still free (or the preset slot). -/
def stage3 (s : DState) : List WHyp → List WHyp :=
  fun ws => ws.flatMap (fun w =>
    (slotChoices s w CHARS w.envC).flatMap (fun mc =>
      (slotChoices s w ROOMS w.envR).flatMap (fun mr =>
        (slotChoices s w WEAPS w.envW).map
          (fun mw =>
            { w with
              envC := some (charIndex mc)
              envR := some (roomIndex mr)
              envW := some (weapIndex mw)
              dealt := insertCard (insertCard (insertCard w.dealt mc) mr)
                mw }))))

/-- `dealt == game.ALLOWEDCARDS` (dealt is kept ⊆ `ALLOWEDCARDS`). -/
def dealtFull (w : WHyp) : Bool := ALLOWEDCARDS.all (fun c => c ∈ w.dealt)

/-- One pass of the stage-4 `while` loop body over the hypothesis list
(`set.pop()` modelled as the smallest undealt card — the choice only affects
enumeration order). -/
def stage4round (s : DState) (ws : List WHyp) : List WHyp :=
  ws.flatMap (fun w =>
    if dealtFull w then [w]
    else
      let card := (ALLOWEDCARDS.filter (fun c => c ∉ w.dealt)).headD 0
      ((List.range' 1 (s.nPlayers - 1)).filter (fun p =>
          (w.hands.getD p []).length < s.nCardsHeld.getD p 0 ∧
          card ∉ s.forbiddenSets p)).map
        (fun p => { w with hands := handsAdd w.hands p card
                           dealt := insertCard w.dealt card }))

/-- Stage 4 of the exact rebuild.  The source loops `while hypsComplete <
len(hypotheses)`; every round deals one more card in each incomplete
hypothesis, so `NCARDS + 1` rounds always suffice — the fuel only mirrors
that termination argument. -/
def stage4 (s : DState) : ℕ → List WHyp → List WHyp
  | 0, ws => ws
  | f + 1, ws =>
    if ws.all dealtFull then ws else stage4 s f (stage4round s ws)

/-- The exact-rebuild branch of `rebuildhypotheses` in the only case where
its stage 2 can run to completion — an empty unseen-answer log, over which
the stage-2 loop does nothing (see `rebuildF` for the non-empty case):
enumerate all deals, recompute the count tensors from scratch and switch to
enumerated mode.  (The trailing incorrect-accusation trim loop is not
embedded: its guard list `logIncorrectAccusations` is empty in every
reachable state, because the only function appending to it,
`event_accusationwrong`, always raises `NameError` first — claim C2.) -/
def exactRebuild (s : DState) : DState :=
  let ws := stage4 s (NCARDS + 1) (stage3 s [stage1 s])
  let H : List Hyp := ws.map (fun w =>
    ⟨w.hands, (w.envC.getD 0, w.envR.getD 0, w.envW.getD 0)⟩)
  { s with
    hypotheses := H
    areHypothesesEnumerable := true
    hypCountByScenario := scenarioCounts H
    hypCountByCharacter := fun i => (H.countP (fun h => h.env.1 == i) : ℤ)
    hypCountByRoom := fun j => (H.countP (fun h => h.env.2.1 == j) : ℤ)
    hypCountByWeapon := fun k => (H.countP (fun h => h.env.2.2 == k) : ℤ) }

/-- The stochastic branch of `rebuildhypotheses`: append the sampled
hypotheses and update the count tensors incrementally. -/
def topUp (gen : List Hyp) (s : DState) : DState :=
  addCounts gen { s with hypotheses := s.hypotheses ++ gen }

/-- `Detective.rebuildhypotheses` (with the sampler's output as `gen`; the
trailing `updatestats` of the stochastic/exact branches is performed by the
callers, which invoke `updatestats` right after in every event handler —
`rebuildhypotheses` calling it internally as well only repeats the identical
idempotent assignment).

Stage 2 of the exact branch reads `constraint.shower` on every entry of
`logUnseenAnswers`, but the `EventUnseenAnswer` namedtuple has no field
named `shower` (its fields are `turn actor consumer character room
weapon`), so the exact rebuild raises `AttributeError` whenever the
unseen-answer log is non-empty.  (The escaping exception leaves the
object holding the stage-1 seed working list — a raw
`[set(), ..., [-1, -1, -1]]` value not representable as a `Hyp`; no theorem
below inspects that torn state, so the error payload carries the pre-call
state.) -/
def rebuildF (gen : List Hyp) (s : DState) : Except (PyErr × DState) DState :=
  if s.areHypothesesEnumerable then .ok s
  else if estimateHyps s < THRESHAPPROXHYPCOUNT then
    (if s.logUnseenAnswers = [] then .ok (exactRebuild s)
     else .error (.attributeError, s))
  else .ok (topUp gen s)

/-! ## Event functions -/

/-- The common `self.rebuildhypotheses(); self.updatestats()` tail of every
pool-mutating event function. -/
noncomputable def finishEvent (gen : List Hyp) (s : DState) :
    Except (PyErr × DState) DState :=
  (rebuildF gen s).map updatestats

/-- Forbidden-matrix/set updates and pool filtering of `event_pass` (the
part acting on the resolved event record). -/
def event_pass_apply (s : DState) (e : EventPass) : DState :=
  let s3 := passForbidOne (passForbidOne (passForbidOne s
    e.actor e.character CHARS) e.actor e.room ROOMS) e.actor e.weapon WEAPS
  let kept := s3.hypotheses.filter (fun h =>
    (interCards (h.hands.getD e.actor []) [e.character, e.room, e.weapon]).isEmpty)
  let removed := s3.hypotheses.filter (fun h =>
    !(interCards (h.hands.getD e.actor []) [e.character, e.room, e.weapon]).isEmpty)
  removeCounts removed { s3 with hypotheses := kept }

/-- `Detective.event_pass` with explicit arguments (records the event). -/
noncomputable def event_pass_explicit (gen : List Hyp) (s : DState)
    (character room weapon p : ℕ) : Except (PyErr × DState) DState :=
  let e : EventPass := ⟨s.ixTurn, p, character, room, weapon⟩
  finishEvent gen (event_pass_apply
    { s with logPasses := s.logPasses ++ [e] } e)

/-- `Detective.event_pass`. -/
noncomputable def event_pass (gen : List Hyp) (s : DState)
    (character room weapon player : Option ℕ) :
    Except (PyErr × DState) DState :=
  match character, room, weapon with
  | some c, some r, some w => event_pass_explicit gen s c r w (player.getD 0)
  | _, _, _ =>
    match s.logPasses.getLast? with
    | none => .error (.indexError, s)
    | some e => finishEvent gen (event_pass_apply s e)

/-- Forbidden-matrix/set updates and pool filtering of
`event_seenresponse`. -/
def event_seen_apply (s : DState) (e : EventSeenAnswer) : DState :=
  let s1 := (List.range (s.nPlayers + 1)).foldl
    (fun t p =>
      if p ≠ e.actor then forbidCard t p e.card
      else
        { t with
          forbidden := fupd2 t.forbidden p e.card false
          forbiddenSets := fupd t.forbiddenSets p
            ((t.forbiddenSets p).filter (fun x => x ≠ e.card)) })
    s
  let kept := s1.hypotheses.filter (fun h => e.card ∈ h.hands.getD e.actor [])
  let removed := s1.hypotheses.filter (fun h =>
    e.card ∉ h.hands.getD e.actor [])
  removeCounts removed { s1 with hypotheses := kept }

/-- `Detective.event_seenresponse` with an explicit card. -/
noncomputable def event_seen_explicit (gen : List Hyp) (s : DState)
    (card sh vw : ℕ) : Except (PyErr × DState) DState :=
  let e : EventSeenAnswer := ⟨s.ixTurn, sh, vw, card⟩
  finishEvent gen (event_seen_apply
    { s with logSeenAnswers := s.logSeenAnswers ++ [e] } e)

/-- `Detective.event_seenresponse`. -/
noncomputable def event_seenresponse (gen : List Hyp) (s : DState)
    (card shower viewer : Option ℕ) : Except (PyErr × DState) DState :=
  match card with
  | some c =>
    if shower.isNone && viewer.isNone then
      match s.logSeenAnswers.getLast? with
      | none => .error (.indexError, s)
      | some e => finishEvent gen (event_seen_apply s e)
    else event_seen_explicit gen s c (shower.getD 0) (viewer.getD 0)
  | none =>
    match s.logSeenAnswers.getLast? with
    | none => .error (.indexError, s)
    | some e => finishEvent gen (event_seen_apply s e)

/-- Pool filtering of `event_unseenresponse` (keep the hypotheses in which
the answering player holds at least one of the three suggested cards). -/
def event_unseen_apply (s : DState) (actor c r w : ℕ) : DState :=
  let kept := s.hypotheses.filter (fun h =>
    !(interCards (h.hands.getD actor []) [c, r, w]).isEmpty)
  let removed := s.hypotheses.filter (fun h =>
    (interCards (h.hands.getD actor []) [c, r, w]).isEmpty)
  removeCounts removed { s with hypotheses := kept }

/-- `Detective.event_unseenresponse`.  NOTE the replay branch of the source
(line 1011) reads `self.logPasses[-1]` — the *pass* log — rather than
`self.logUnseenAnswers[-1]`, and then applies the unseen-response pool
mutation with that pass event's actor and triple (claim C3). -/
noncomputable def event_unseenresponse (gen : List Hyp) (s : DState)
    (character room weapon shower viewer : Option ℕ) :
    Except (PyErr × DState) DState :=
  match character, room, weapon with
  | some c, some r, some w =>
    if shower.isNone && viewer.isNone then
      match s.logPasses.getLast? with
      | none => .error (.indexError, s)
      | some pe => finishEvent gen
          (event_unseen_apply s pe.actor pe.character pe.room pe.weapon)
    else
      let e : EventUnseenAnswer :=
        ⟨s.ixTurn, shower.getD 0, viewer.getD 0, c, r, w⟩
      finishEvent gen (event_unseen_apply
        { s with logUnseenAnswers := s.logUnseenAnswers ++ [e] }
        e.actor e.character e.room e.weapon)
  | _, _, _ =>
    match s.logPasses.getLast? with
    | none => .error (.indexError, s)
    | some pe => finishEvent gen
        (event_unseen_apply s pe.actor pe.character pe.room pe.weapon)

/-- `Detective.event_accusationwrong`.  With explicit arguments the very
first statement of the recording branch evaluates the name
`AccusationRecord`, which is defined nowhere in the source — `NameError`
before any mutation.  The replay branch indexes an always-empty log
(`IndexError`), and would otherwise oust players and then die on
`game.CHARINDEX[None]` (`KeyError`). -/
def event_accusationwrong (s : DState)
    (character room weapon player : Option ℕ) :
    Except (PyErr × DState) DState :=
  match character, room, weapon with
  | some _, some _, some _ => .error (.nameError, s)
  | _, _, _ =>
    match s.logIncorrectAccusations.getLast? with
    | none => .error (.indexError, s)
    | some _ =>
      .error (.keyError,
        { s with playersOusted :=
            match player with
            | none => fun _ => true
            | some p => fupd s.playersOusted p true })

/-- `Detective.event_accusationcorrect`. -/
def event_accusationcorrect (s : DState) : DState :=
  { s with isGameOver := true }

/-- State mutation of `event_move` on the resolved event record. -/
def moveApply (s : DState) (e : EventMove) (destNode : Option ℕ) : DState :=
  let s1 :=
    if e.actor = 0 then
      { s with
        canSuggestInCurrentRoom := true
        hasEnteredRoomYet :=
          if (destNode.map isRoomNode).getD false then true
          else s.hasEnteredRoomYet }
    else s
  { s1 with
    charLocations :=
      fupd s1.charLocations (s1.playerCharIxs.getD e.actor 0) e.nodeStop }

/-- `Detective.event_move`. -/
def event_move (s : DState) (destNode player : Option ℕ) :
    Except (PyErr × DState) DState :=
  match destNode with
  | none =>
    match s.logMoves.getLast? with
    | none => .error (.indexError, s)
    | some e => .ok (moveApply s e none)
  | some d =>
    let p := player.getD 0
    let e : EventMove :=
      ⟨s.ixTurn, p, s.charLocations (s.playerCharIxs.getD p 0), d⟩
    .ok (moveApply { s with logMoves := s.logMoves ++ [e] } e (some d))

/-- State mutation of `event_suggestion` on the resolved event record. -/
def suggestApply (s : DState) (e : EventSuggestion) : DState :=
  let ixChar := charIndex e.character
  let s1 :=
    if e.actor = 0 then { s with canSuggestInCurrentRoom := false }
    else if ixChar = s.playerCharIxs.getD 0 0 ∧
        s.charLocations (s.playerCharIxs.getD 0 0) ≠ e.actor then
      { s with canSuggestInCurrentRoom := true }
    else s
  { s1 with
    charLocations := fupd s1.charLocations ixChar (ROOMCARDNODES e.room) }

/-- `Detective.event_suggestion`. -/
def event_suggestion (s : DState)
    (character room weapon player : Option ℕ) :
    Except (PyErr × DState) DState :=
  match character, room, weapon with
  | some c, some r, some w =>
    let e : EventSuggestion := ⟨s.ixTurn, player.getD 0, c, r, w⟩
    .ok (suggestApply { s with logSuggestions := s.logSuggestions ++ [e] } e)
  | _, _, _ =>
    match s.logSuggestions.getLast? with
    | none => .error (.indexError, s)
    | some e => .ok (suggestApply s e)

/-- `Detective.answersuggestion`. -/
noncomputable def answersuggestion (gen : List Hyp) (s : DState)
    (character room weapon suggester : ℕ) :
    Except (PyErr × DState) (ℕ × DState) :=
  let showables := interCards s.myCardSet [character, room, weapon]
  let ixShowables := showables.map (fun c => s.myCards.indexOf c)
  let ixShownShowables := ixShowables.filter (fun ix =>
    s.myCardsShownTo (suggester - 1) ix)
  if ixShowables.isEmpty then
    (event_pass_explicit gen s character room weapon 0).map
      (fun t => (NULLCARD, t))
  else
    if ixShownShowables.isEmpty then
      let ixCard := argmaxBy s.myCardsShownCounts ixShowables
      let s1 :=
        { s with
          myCardsShownTo := fupd2 s.myCardsShownTo (suggester - 1) ixCard true
          myCardsShownCounts := fupd s.myCardsShownCounts ixCard
            (s.myCardsShownCounts ixCard + 1) }
      (event_seen_explicit gen s1 (s1.myCards.getD ixCard 0) 0 suggester).map
        (fun t => (s1.myCards.getD ixCard 0, t))
    else
      let ixCard := argmaxBy s.myCardsShownCounts ixShownShowables
      let s1 :=
        { s with
          myCardsShownCounts := fupd s.myCardsShownCounts ixCard
            (s.myCardsShownCounts ixCard + 1) }
      (event_seen_explicit gen s1 (s1.myCards.getD ixCard 0) 0 suggester).map
        (fun t => (s1.myCards.getD ixCard 0, t))

/-! ## `Detective.initialise` -/

/-- Keyword arguments of `initialise` (`None` = argument omitted). -/
structure InitArgs where
  nPlayers : Option ℕ
  playerCharCards : Option (List ℕ)
  ixDealer : Option ℕ
  playerCardHeldCounts : Option (List ℕ)
  myCards : Option (List ℕ)
  DBGSCENARIO : Option (List (List ℕ))
deriving DecidableEq

/-- The `(Re)Initialise internal variables` / `initialise internal state`
tail of `initialise`, applied after the argument-parsing branch has set
`nPlayers`, `nCardsHeld`, `myCards`, `myCardSet`, `playerCharIxs`,
`ixDealer` and `DBGSCENARIO`. -/
def initTail (sb : DState) : DState :=
  { sb with
    charLocations := fun i => CHARSTARTNODES.getD i 0
    hypotheses := []
    areHypothesesEnumerable := false
    hasEnteredRoomYet := false
    canSuggestInCurrentRoom := true
    ixTurn := 0
    logMoves := []
    logSuggestions := []
    logPasses := []
    logUnseenAnswers := []
    logSeenAnswers := []
    logIncorrectAccusations := []
    hypCountByCharacter := fun _ => 0
    hypCountByRoom := fun _ => 0
    hypCountByWeapon := fun _ => 0
    hypCountByScenario := fun _ _ _ => 0
    isGameOver := false
    playersOusted := fun _ => false
    myCardsShownTo := fun _ _ => false
    myCardsShownCounts := fun _ => 0
    ixHotSeat :=
      match (CHARIXSTARTORDER.filter
          (fun ix => ix ∈ sb.playerCharIxs)).head? with
      | some ix => sb.playerCharIxs.indexOf ix
      | none => sb.ixHotSeat
    forbidden := fun p c =>
      if p = 0 then decide (c ∈ ALLOWEDCARDS ∧ c ∉ sb.myCardSet)
      else if 1 ≤ p ∧ p ≤ sb.nPlayers then decide (c ∈ sb.myCardSet)
      else false
    forbiddenSets := fun p =>
      if p = 0 then ALLOWEDCARDS.filter (fun c => c ∉ sb.myCardSet)
      else if 1 ≤ p ∧ p ≤ sb.nPlayers then sb.myCardSet
      else [] }

/-- Build the hypothesis pool and mark initialisation complete (the final
two steps of a successful `initialise`; the rebuild ends with the internal
`updatestats` of its non-enumerable branches). -/
noncomputable def initFinish (gen : List Hyp) (sb : DState) :
    Except (PyErr × DState) DState :=
  match rebuildF gen (initTail sb) with
  | .error pr => .error pr
  | .ok t => .ok { updatestats t with isInitialised := true }

/-- Argument parsing/validation of `initialise`: every `self.…` assignment
of the source happens in program order, so states carried by the raised
errors retain the partially applied setup (claim C5).  Returns the state
ready for `initTail`. -/
def initParse (ui : ℕ × ℕ × List ℕ × List ℕ × List ℕ) (s : DState)
    (a : InitArgs) : Except (PyErr × DState) DState :=
  match a.DBGSCENARIO with
  | some dbg =>
    let s0 := { s with DBGSCENARIO := some (dbg.map List.dedup) }
    if ¬ setEqCards (dbg.foldr (· ++ ·) []) ALLOWEDCARDS then
      .error (.valueError, s0)
    else if ((dbg.getLast?.getD []).dedup).length ≠ 3 then
      .error (.typeError, s0)
    else if ¬ ((dbg.getLast?.getD []).countP (fun c => c ∈ CHARS) = 1 ∧
        (dbg.getLast?.getD []).countP (fun c => c ∈ ROOMS) = 1 ∧
        (dbg.getLast?.getD []).countP (fun c => c ∈ WEAPS) = 1) then
      .error (.valueError, s0)
    else
      let s1 := { s0 with nPlayers := dbg.length - 1 }
      if s1.nPlayers < 2 ∨ 6 < s1.nPlayers then .error (.valueError, s1)
      else
        let s2 := { s1 with
          nCardsHeld := dbg.dropLast.map List.length
          myCards := dbg.headD []
          myCardSet := (dbg.headD []).dedup }
        match a.playerCharCards with
        | none => .error (.typeError, s2)
        | some pcc =>
          if ¬ pcc.all (fun c => c ∈ CHARS) then .error (.keyError, s2)
          else
            let s3 := { s2 with playerCharIxs := pcc.map charIndex }
            if pcc.length ≠ s3.nPlayers then .error (.typeError, s3)
            else
              match a.ixDealer with
              | none => .error (.typeError, s3)
              | some d =>
                let s4 := { s3 with ixDealer := d }
                if s4.nPlayers ≤ d then .error (.valueError, s4)
                else .ok s4
  | none =>
    match a.nPlayers, a.playerCharCards with
    | some n, some pcc =>
      let s1 := { s with DBGSCENARIO := none, nPlayers := n }
      if n < 2 ∨ 6 < n then .error (.valueError, s1)
      else
        match a.playerCardHeldCounts with
        | none => .error (.typeError, s1)
        | some counts =>
          let s2 := { s1 with nCardsHeld := counts }
          if counts.length ≠ n then .error (.typeError, s2)
          else if counts.any (fun x => x = 0) then .error (.valueError, s2)
          else
            match a.myCards with
            | none => .error (.typeError, s2)
            | some mcs =>
              let s3 := { s2 with myCards := mcs, myCardSet := mcs.dedup }
              if mcs.dedup.length ≠ counts.getD 0 0 then
                .error (.typeError, s3)
              else if ¬ mcs.dedup.all (fun c => c ∈ ALLOWEDCARDS) then
                .error (.valueError, s3)
              else if ¬ pcc.all (fun c => c ∈ CHARS) then
                .error (.keyError, s3)
              else
                let s4 := { s3 with playerCharIxs := pcc.map charIndex }
                if pcc.length ≠ n then .error (.typeError, s4)
                else
                  match a.ixDealer with
                  | none => .error (.typeError, s4)
                  | some d =>
                    let s5 := { s4 with ixDealer := d }
                    if n ≤ d then .error (.valueError, s5)
                    else .ok s5
    | _, _ =>
      let s1 := { s with
        DBGSCENARIO := none
        nPlayers := ui.1
        ixDealer := ui.2.1 }
      if ¬ ui.2.2.1.all (fun c => c ∈ CHARS) then .error (.keyError, s1)
      else
        .ok { s1 with
          playerCharIxs := ui.2.2.1.map charIndex
          nCardsHeld := ui.2.2.2.1
          myCards := ui.2.2.2.2
          myCardSet := ui.2.2.2.2.dedup }

/-- `Detective.initialise` (with the stochastic sampler's output `gen` and
the default-UI game-setup answer `ui` as oracle parameters). -/
noncomputable def initialise (gen : List Hyp)
    (ui : ℕ × ℕ × List ℕ × List ℕ × List ℕ) (s : DState) (a : InitArgs) :
    Except (PyErr × DState) DState :=
  match initParse ui s a with
  | .error pr => .error pr
  | .ok sb => initFinish gen sb

/-! ## `Detective.genfeasiblehypothesis` and reachability (claim C1) -/

/-- Number of places (player hands and envelope together) holding card `c`
in hypothesis `h` — hands count by membership, as Python sets do. -/
def occCount (h : Hyp) (c : ℕ) : ℕ :=
  h.hands.countP (fun hd => c ∈ hd) + (if c ∈ envCards h then 1 else 0)

/-- The partition property claimed for every pool hypothesis: the `n` hands
and the envelope are pairwise disjoint, together they hold exactly the full
card set, and the envelope holds one suspect, one room and one weapon. -/
def HypPartition (n : ℕ) (h : Hyp) : Prop :=
  h.hands.length = n ∧ envInBox h = true ∧
    ∀ c : ℕ, occCount h c = if c ∈ ALLOWEDCARDS then 1 else 0

/-- Source of randomness for `random.sample` (`choose`, fed a call tag and
the candidate list) and `random.shuffle`. -/
structure RandOracle where
  choose : ℕ → List ℕ → ℕ
  shuffle : List ℕ → List ℕ
  hchoose : ∀ t l, l ≠ [] → choose t l ∈ l
  hshuffle : ∀ l, (shuffle l).Perm l

/-- Step 2 of `genfeasiblehypothesis`: deal one seen-answer constraint's
card to its known holder (if not already present). -/
def genStep2 (acc : List (List ℕ) × List ℕ) (e : EventSeenAnswer) :
    List (List ℕ) × List ℕ :=
  if e.card ∈ acc.1.getD e.actor [] then acc
  else (handsAdd acc.1 e.actor e.card, insertCard acc.2 e.card)

/-- Step 3 of `genfeasiblehypothesis`: satisfy one indexed unseen-answer
constraint by a random allowed card, aborting when impossible. -/
def genStep3 (o : RandOracle) (s : DState)
    (acc : Option (List (List ℕ) × List ℕ)) (ie : ℕ × EventUnseenAnswer) :
    Option (List (List ℕ) × List ℕ) :=
  match acc with
  | none => none
  | some (hands, dealt) =>
    let e := ie.2
    if ¬ (interCards [e.character, e.room, e.weapon]
        (hands.getD e.actor [])).isEmpty then some (hands, dealt)
    else if (hands.getD e.actor []).length <
        s.nCardsHeld.getD e.actor 0 then
      let allowed := ([e.character, e.room, e.weapon].dedup).filter
        (fun c => c ∉ dealt ∧ c ∉ s.forbiddenSets e.actor)
      if allowed.isEmpty then none
      else
        let c := o.choose ie.1 allowed
        some (handsAdd hands e.actor c, insertCard dealt c)
    else none

/-- Step 5 of `genfeasiblehypothesis`: deal one remaining deck card to the
first player able to receive it, aborting when nobody can. -/
def genStep5 (s : DState) (acc : Option (List (List ℕ) × List ℕ))
    (c : ℕ) : Option (List (List ℕ) × List ℕ) :=
  match acc with
  | none => none
  | some (hands, dealt) =>
    match ((List.range s.nPlayers).filter (fun p =>
        ¬ s.forbidden p c ∧
        (hands.getD p []).length < s.nCardsHeld.getD p 0)).head? with
    | none => none
    | some p => some (handsAdd hands p c, insertCard dealt c)

/-- One iteration of the `while hypValid == False` loop of
`genfeasiblehypothesis` (`none` = the iteration aborted and the loop
retries). -/
def genOneAttempt (o : RandOracle) (s : DState) : Option Hyp :=
  let hands0 := s.myCardSet :: List.replicate (s.nPlayers - 1) []
  let step2 := s.logSeenAnswers.foldl genStep2 (hands0, s.myCardSet)
  let step3 := s.logUnseenAnswers.enum.foldl (genStep3 o s) (some step2)
  match step3 with
  | none => none
  | some (hands3, dealt3) =>
    let charChoices := CHARS.filter (fun c =>
      c ∉ dealt3 ∧ c ∉ s.forbiddenSets s.nPlayers)
    if charChoices.isEmpty then none else
    let mc := o.choose 1000 charChoices
    let dealtC := insertCard dealt3 mc
    let roomChoices := ROOMS.filter (fun c =>
      c ∉ dealtC ∧ c ∉ s.forbiddenSets s.nPlayers)
    if roomChoices.isEmpty then none else
    let mr := o.choose 1001 roomChoices
    let dealtR := insertCard dealtC mr
    let weapChoices := WEAPS.filter (fun c =>
      c ∉ dealtR ∧ c ∉ s.forbiddenSets s.nPlayers)
    if weapChoices.isEmpty then none else
    let mw := o.choose 1002 weapChoices
    let dealtW := insertCard dealtR mw
    let deck := o.shuffle (ALLOWEDCARDS.filter (fun c => c ∉ dealtW))
    match deck.foldl (genStep5 s) (some (hands3, dealtW)) with
    | none => none
    | some (hands5, _) =>
      if s.logIncorrectAccusations.any (fun wa =>
          wa.character = mc ∧ wa.room = mr ∧ wa.weapon = mw) then none
      else some ⟨hands5, (charIndex mc, roomIndex mr, weapIndex mw)⟩

/-- Every hypothesis of a stochastic top-up batch arises from some run of
the sampler at the state passed to `rebuildhypotheses`. -/
def GenOk (gen : List Hyp) (t : DState) : Prop :=
  ∀ h ∈ gen, ∃ o : RandOracle, genOneAttempt o t = some h

/-- The recorded game setup describes the actual deal `G` (the detective's
own hand and the announced hand sizes are those of the real game). -/
def GroundMatch (G : Hyp) (s : DState) : Prop :=
  HypPartition s.nPlayers G ∧ 2 ≤ s.nPlayers ∧
    (∀ c, c ∈ s.myCardSet ↔ c ∈ G.hands.getD 0 []) ∧
    s.nCardsHeld.length = s.nPlayers ∧
    (∀ p, p < s.nPlayers → (G.hands.getD p []).Nodup ∧
      (G.hands.getD p []).length = s.nCardsHeld.getD p 0)

/-- The player rows of the forbidden matrix are sound for the actual deal:
a player never actually holds a card the detective has ruled out for them. -/
def ForbidSound (G : Hyp) (s : DState) : Prop :=
  ∀ p c, p < s.nPlayers → s.forbidden p c = true → c ∉ G.hands.getD p []

/-- All recorded answer events are legal records of the actual game `G`. -/
def LogsTrue (G : Hyp) (s : DState) : Prop :=
  (∀ e ∈ s.logSeenAnswers, e.actor < s.nPlayers ∧
    e.card ∈ G.hands.getD e.actor []) ∧
  (∀ e ∈ s.logUnseenAnswers, e.actor < s.nPlayers ∧
    e.character ∈ CHARS ∧ e.room ∈ ROOMS ∧ e.weapon ∈ WEAPS) ∧
  (∀ e ∈ s.logPasses, e.actor < s.nPlayers ∧
    ∀ x ∈ [e.character, e.room, e.weapon], x ∉ G.hands.getD e.actor [])

/-- Detective states reachable from a successful `initialise` in a game
whose true deal is `G`, through any sequence of successfully recorded
events (each recorded event being a legal record of the game `G`; calls
that raise produce no successor state).  `answersuggestion` records its
effects through `event_seenresponse`/`event_pass` and is covered by those
transitions. -/
inductive Reachable (G : Hyp) : DState → Prop
  | init (gen : List Hyp) (ui : ℕ × ℕ × List ℕ × List ℕ × List ℕ)
      (s0 sb s' : DState) (a : InitArgs) :
      initParse ui s0 a = .ok sb →
      GroundMatch G sb →
      GenOk gen (initTail sb) →
      initFinish gen sb = .ok s' →
      Reachable G s'
  | pass_explicit (gen : List Hyp) (s s' : DState) (c r w p : ℕ) :
      Reachable G s →
      c ∈ CHARS → r ∈ ROOMS → w ∈ WEAPS → p < s.nPlayers →
      (∀ x ∈ [c, r, w], x ∉ G.hands.getD p []) →
      GenOk gen (event_pass_apply
        { s with logPasses := s.logPasses ++ [⟨s.ixTurn, p, c, r, w⟩] }
        ⟨s.ixTurn, p, c, r, w⟩) →
      event_pass_explicit gen s c r w p = .ok s' →
      Reachable G s'
  | pass_replay (gen : List Hyp) (s s' : DState) (e : EventPass) :
      Reachable G s →
      s.logPasses.getLast? = some e →
      GenOk gen (event_pass_apply s e) →
      finishEvent gen (event_pass_apply s e) = .ok s' →
      Reachable G s'
  | seen_explicit (gen : List Hyp) (s s' : DState) (card sh vw : ℕ) :
      Reachable G s →
      sh < s.nPlayers → card ∈ G.hands.getD sh [] →
      GenOk gen (event_seen_apply
        { s with logSeenAnswers :=
            s.logSeenAnswers ++ [⟨s.ixTurn, sh, vw, card⟩] }
        ⟨s.ixTurn, sh, vw, card⟩) →
      event_seen_explicit gen s card sh vw = .ok s' →
      Reachable G s'
  | seen_replay (gen : List Hyp) (s s' : DState) (e : EventSeenAnswer) :
      Reachable G s →
      s.logSeenAnswers.getLast? = some e →
      GenOk gen (event_seen_apply s e) →
      finishEvent gen (event_seen_apply s e) = .ok s' →
      Reachable G s'
  | unseen_explicit (gen : List Hyp) (s s' : DState) (c r w sh vw : ℕ) :
      Reachable G s →
      sh < s.nPlayers → c ∈ CHARS → r ∈ ROOMS → w ∈ WEAPS →
      GenOk gen (event_unseen_apply
        { s with logUnseenAnswers :=
            s.logUnseenAnswers ++ [⟨s.ixTurn, sh, vw, c, r, w⟩] }
        sh c r w) →
      event_unseenresponse gen s (some c) (some r) (some w) (some sh)
        (some vw) = .ok s' →
      Reachable G s'
  | unseen_replay (gen : List Hyp) (s s' : DState) (e : EventPass) :
      Reachable G s →
      s.logPasses.getLast? = some e →
      GenOk gen (event_unseen_apply s e.actor e.character e.room e.weapon) →
      finishEvent gen (event_unseen_apply s e.actor e.character e.room
        e.weapon) = .ok s' →
      Reachable G s'
  | move (s s' : DState) (destNode player : Option ℕ) :
      Reachable G s →
      event_move s destNode player = .ok s' →
      Reachable G s'
  | suggestion (s s' : DState) (character room weapon player : Option ℕ) :
      Reachable G s →
      event_suggestion s character room weapon player = .ok s' →
      Reachable G s'
  | accusation_correct (s : DState) :
      Reachable G s →
      Reachable G (event_accusationcorrect s)

/-- A concrete three-player hypothesis pool (detective hand
`{2,3,4,5,13,15}`; two hypotheses where player 1 holds both the suggested
character 0 and room 6, ten where player 1 holds only room 6). -/
def CE4 : List Hyp :=
  [⟨[[15, 2, 3, 4, 5, 13], [0, 6, 8, 9, 10, 11], [12, 14, 17, 18, 19, 20]],
      (1, 1, 1)⟩,
   ⟨[[15, 2, 3, 4, 5, 13], [0, 6, 7, 9, 10, 11], [12, 14, 17, 18, 19, 20]],
      (1, 2, 1)⟩,
   ⟨[[15, 2, 3, 4, 5, 13], [6, 1, 8, 9, 10, 11], [12, 14, 17, 18, 19, 20]],
      (0, 1, 1)⟩,
   ⟨[[15, 2, 3, 4, 5, 13], [6, 1, 8, 9, 10, 12], [11, 14, 17, 18, 19, 20]],
      (0, 1, 1)⟩,
   ⟨[[15, 2, 3, 4, 5, 13], [6, 1, 8, 9, 10, 14], [11, 12, 17, 18, 19, 20]],
      (0, 1, 1)⟩,
   ⟨[[15, 2, 3, 4, 5, 13], [6, 1, 8, 9, 10, 17], [11, 12, 14, 18, 19, 20]],
      (0, 1, 1)⟩,
   ⟨[[15, 2, 3, 4, 5, 13], [6, 1, 8, 9, 10, 18], [11, 12, 14, 17, 19, 20]],
      (0, 1, 1)⟩,
   ⟨[[15, 2, 3, 4, 5, 13], [6, 1, 8, 9, 10, 19], [11, 12, 14, 17, 18, 20]],
      (0, 1, 1)⟩,
   ⟨[[15, 2, 3, 4, 5, 13], [6, 1, 8, 9, 10, 20], [11, 12, 14, 17, 18, 19]],
      (0, 1, 1)⟩,
   ⟨[[15, 2, 3, 4, 5, 13], [6, 1, 8, 9, 11, 12], [10, 14, 17, 18, 19, 20]],
      (0, 1, 1)⟩,
   ⟨[[15, 2, 3, 4, 5, 13], [6, 1, 8, 9, 11, 14], [10, 12, 17, 18, 19, 20]],
      (0, 1, 1)⟩,
   ⟨[[15, 2, 3, 4, 5, 13], [6, 1, 8, 9, 11, 17], [10, 12, 14, 18, 19, 20]],
      (0, 1, 1)⟩]

/-- A concrete three-player, two-hypothesis pool (detective hand
`{6,13,14,15,19,20}`) for comparing `core` and `parcore`. -/
def CE6 : List Hyp :=
  [⟨[[6, 15, 13, 14, 19, 20], [0, 8, 9, 10, 11, 12], [2, 3, 4, 5, 17, 18]],
      (1, 1, 1)⟩,
   ⟨[[6, 15, 13, 14, 19, 20], [1, 8, 9, 10, 11, 12], [2, 3, 4, 5, 17, 18]],
      (0, 1, 1)⟩]

/-! ## Accounting notions for the partition proofs (claim C1) -/

/-- Number of hands (by list position) containing card `c`. -/
def handsOcc (hands : List (List ℕ)) (c : ℕ) : ℕ :=
  hands.countP (fun hd => c ∈ hd)

/-- Working accounting invariant of the dealing algorithms: every card of
`dealt` sits in exactly one place (a hand or the envelope part `env`), and
nothing outside `dealt` sits anywhere. -/
def OccInvE (hands : List (List ℕ)) (env dealt : List ℕ) : Prop :=
  ∀ c, handsOcc hands c + (if c ∈ env then 1 else 0) =
    if c ∈ dealt then 1 else 0

/-- Cards named by the partially assigned murder slots of a working
hypothesis. -/
def wEnvCards (w : WHyp) : List ℕ :=
  (match w.envC with | some i => [i] | none => []) ++
  (match w.envR with | some j => [j + NCHARS] | none => []) ++
  (match w.envW with | some k => [k + (NCHARS + NROOMS)] | none => [])

/-- Stage-1 invariant of the exact-rebuild working hypothesis (for a game
with true deal `G` and `n` players): sound accounting, and any murder slot
already assigned is forced to the true scenario's component. -/
def WInv (G : Hyp) (n : ℕ) (w : WHyp) : Prop :=
  w.hands.length = n ∧
  OccInvE w.hands (wEnvCards w) w.dealt ∧
  (∀ x ∈ w.dealt, x ∈ ALLOWEDCARDS) ∧
  (∀ x ∈ wEnvCards w, x ∈ w.dealt) ∧
  (∀ i, w.envC = some i → i = G.env.1) ∧
  (∀ j, w.envR = some j → j = G.env.2.1) ∧
  (∀ k, w.envW = some k → k = G.env.2.2)

/-- Post-stage-3 invariant: sound accounting with all murder slots
assigned in range. -/
def WDone (n : ℕ) (w : WHyp) : Prop :=
  w.hands.length = n ∧
  OccInvE w.hands (wEnvCards w) w.dealt ∧
  (∀ x ∈ w.dealt, x ∈ ALLOWEDCARDS) ∧
  (∀ x ∈ wEnvCards w, x ∈ w.dealt) ∧
  (∃ i, w.envC = some i ∧ i < NCHARS) ∧
  (∃ j, w.envR = some j ∧ j < NROOMS) ∧
  (∃ k, w.envW = some k ∧ k < NWEAPS)

/-- Invariant carried through the card-dealing phases of the sampler
(`genfeasiblehypothesis`): sound accounting against the envelope part
`env`, player-count many hands, and only legal cards dealt. -/
def AccInv (n : ℕ) (env : List ℕ) (acc : List (List ℕ) × List ℕ) : Prop :=
  OccInvE acc.1 env acc.2 ∧ acc.1.length = n ∧
    ∀ x ∈ acc.2, x ∈ ALLOWEDCARDS

/-- The reachability invariant of the partition claim: the recorded setup
and logs truly describe the deal `G`, the forbidden matrix is sound for it,
and every pool hypothesis is a partition. -/
def Inv (G : Hyp) (s : DState) : Prop :=
  GroundMatch G s ∧ ForbidSound G s ∧ LogsTrue G s ∧
    ∀ h ∈ s.hypotheses, HypPartition s.nPlayers h

/-! ## Concrete states used by the claim instances -/

/-- A blank detective (all fields at their inert values). -/
def blankState : DState where
  nPlayers := 0
  ixDealer := 0
  nCardsHeld := []
  playerCharIxs := []
  myCards := []
  myCardSet := []
  myCardsShownTo := fun _ _ => false
  myCardsShownCounts := fun _ => 0
  charLocations := fun _ => 0
  forbidden := fun _ _ => false
  forbiddenSets := fun _ => []
  hypotheses := []
  areHypothesesEnumerable := false
  hasEnteredRoomYet := false
  canSuggestInCurrentRoom := true
  ixTurn := 0
  ixHotSeat := 0
  playersOusted := fun _ => false
  logMoves := []
  logSuggestions := []
  logPasses := []
  logUnseenAnswers := []
  logSeenAnswers := []
  logIncorrectAccusations := []
  hypCountByCharacter := fun _ => 0
  hypCountByRoom := fun _ => 0
  hypCountByWeapon := fun _ => 0
  hypCountByScenario := fun _ _ _ => 0
  pScenario := fun _ _ _ => 0
  scenarioEntropy := 0
  isGameOver := false
  isInitialised := false
  DBGSCENARIO := none

/-- Three-player enumerated-mode state with one recorded pass by player 1 on
`(2, 7, 16)` and two live hypotheses, used to exercise the
`event_unseenresponse` replay path. -/
def S3 : DState :=
  { blankState with
    nPlayers := 3
    areHypothesesEnumerable := true
    hypotheses := [⟨[[], [0], []], (0, 0, 0)⟩, ⟨[[], [0, 2], []], (1, 0, 0)⟩]
    logPasses := [⟨0, 1, 2, 7, 16⟩] }

/-- Two-player enumerated-mode state in which the detective holds exactly
card 0, used to exercise `answersuggestion`. -/
def W10 : DState :=
  { blankState with
    nPlayers := 2
    myCards := [0]
    myCardSet := [0]
    areHypothesesEnumerable := true }

/-- A `DBGSCENARIO` that parses but does not deal the full card set. -/
def A5 : InitArgs :=
  ⟨none, none, none, none, none, some [[0], [1], [2, 3, 4]]⟩

/-- A concrete two-player deal: detective hand, opponent hand, and the
envelope scenario (Scarlett, first room card 6, weapon card 19). -/
def WG : Hyp :=
  ⟨[[1, 2, 3, 4, 5, 15, 16, 17, 18], [7, 8, 9, 10, 11, 12, 13, 14, 20]],
    (0, 0, 4)⟩

/-- Setup arguments of a two-player game matching the deal `WG`. -/
def WA : InitArgs :=
  ⟨some 2, some [0, 1], some 0, some [9, 9],
    some [1, 2, 3, 4, 5, 15, 16, 17, 18], none⟩

/-- The state produced by `initialise`'s argument parsing on `WA`. -/
def Wsb : DState :=
  { blankState with
    DBGSCENARIO := none
    nPlayers := 2
    nCardsHeld := [9, 9]
    myCards := [1, 2, 3, 4, 5, 15, 16, 17, 18]
    myCardSet := [1, 2, 3, 4, 5, 15, 16, 17, 18].dedup
    playerCharIxs := [0, 1].map charIndex
    ixDealer := 0 }

/-- The state of a completed two-player `initialise` on `WA` (the feasible
deal estimate is below the exact-enumeration threshold, so the pool is
enumerated exactly). -/
noncomputable def WS : DState :=
  { updatestats (exactRebuild (initTail Wsb)) with isInitialised := true }

/-! # Theorems -/

/-- C9.  For every integer distance `d`, `dicerollstomove` returns: infinity
(encoded `none`) if `d < 0`; the `d`-th entry of the fixed 11-entry lookup
table if `0 ≤ d ≤ 10`; and `(d + 3.5)/7` if `d > 10`. -/
theorem dicerollstomove_spec (d : ℤ) :
    (d < 0 → dicerollstomove d = none) ∧
    (0 ≤ d → d ≤ 10 →
      dicerollstomove d = some (DICEROLLSTOMOVETBL.getD d.toNat 0) ∧
      DICEROLLSTOMOVETBL.length = 11) ∧
    (10 < d → dicerollstomove d = some (((d : ℚ) + 3.5) / 7)) := by
  refine ⟨fun h => ?_, fun h0 h10 => ⟨?_, rfl⟩, fun h => ?_⟩
  · simp only [dicerollstomove]
    rw [if_neg (by omega), if_neg (by omega)]
  · simp only [dicerollstomove]
    rw [if_neg (by omega), if_pos h0]
  · simp only [dicerollstomove]
    rw [if_pos h]

/-- Witness for C9: evaluation at the concrete distances `-3`, `4` and `20`. -/
theorem dicerollstomove_spec_w :
    dicerollstomove (-3) = none ∧
    dicerollstomove 4 = some 1.08333333333333 ∧
    dicerollstomove 20 = some ((20 + 3.5) / 7) := by
  refine ⟨(dicerollstomove_spec (-3)).1 (by norm_num), ?_, ?_⟩
  · have h := ((dicerollstomove_spec 4).2.1 (by norm_num) (by norm_num)).1
    rw [h]; rfl
  · have h := (dicerollstomove_spec 20).2.2 (by norm_num)
    rw [h]; norm_num

/-- C7.  A call of `suggestionexpposteriors` leaves the Detective's state
unchanged: the hypothesis list, the forbidden matrix and forbidden sets, all
count tensors, `pScenario` and `scenarioEntropy` are identical before and
after the call (the method assigns to no attribute of `self`). -/
theorem suggestionexpposteriors_frame (s : DState) (c r w : ℕ) :
    (Detective_suggestionexpposteriors s c r w).2.hypotheses = s.hypotheses ∧
    (Detective_suggestionexpposteriors s c r w).2.forbidden = s.forbidden ∧
    (Detective_suggestionexpposteriors s c r w).2.forbiddenSets =
      s.forbiddenSets ∧
    (Detective_suggestionexpposteriors s c r w).2.hypCountByScenario =
      s.hypCountByScenario ∧
    (Detective_suggestionexpposteriors s c r w).2.hypCountByCharacter =
      s.hypCountByCharacter ∧
    (Detective_suggestionexpposteriors s c r w).2.hypCountByRoom =
      s.hypCountByRoom ∧
    (Detective_suggestionexpposteriors s c r w).2.hypCountByWeapon =
      s.hypCountByWeapon ∧
    (Detective_suggestionexpposteriors s c r w).2.pScenario = s.pScenario ∧
    (Detective_suggestionexpposteriors s c r w).2.scenarioEntropy =
      s.scenarioEntropy ∧
    (Detective_suggestionexpposteriors s c r w).2 = s :=
  ⟨rfl, rfl, rfl, rfl, rfl, rfl, rfl, rfl, rfl, rfl⟩

/-! ## Counting lemmas for the scenario box -/

theorem tot3_add (f g : ℕ → ℕ → ℕ → ℕ) :
    tot3 (fun i j k => f i j k + g i j k) = tot3 f + tot3 g := by
  simp [tot3, Finset.sum_add_distrib]

theorem sum_range_indicator (n e : ℕ) :
    (∑ k ∈ Finset.range n, if e = k then (1 : ℕ) else 0) =
      if e < n then 1 else 0 := by
  rw [Finset.sum_ite_eq]; simp

theorem tot3_envIndicator (e : ℕ × ℕ × ℕ) :
    tot3 (fun i j k => if e = (i, j, k) then 1 else 0) =
      if e.1 < NCHARS ∧ e.2.1 < NROOMS ∧ e.2.2 < NWEAPS then 1 else 0 := by
  obtain ⟨e1, e2, e3⟩ := e
  have hsummand : ∀ i j k : ℕ,
      (if (e1, e2, e3) = (i, j, k) then (1 : ℕ) else 0) =
        (if e1 = i then 1 else 0) *
          ((if e2 = j then 1 else 0) * (if e3 = k then 1 else 0)) := by
    intro i j k
    by_cases h1 : e1 = i <;> by_cases h2 : e2 = j <;> by_cases h3 : e3 = k <;>
      simp [Prod.ext_iff, h1, h2, h3]
  simp only [tot3, hsummand, ← Finset.mul_sum, ← Finset.sum_mul,
    sum_range_indicator]
  by_cases h1 : e1 < NCHARS <;> by_cases h2 : e2 < NROOMS <;>
    by_cases h3 : e3 < NWEAPS <;> simp [h1, h2, h3]

/-- Summing a `countP` of `env = (i,j,k)` over the scenario box counts the
hypotheses (satisfying `P`) whose envelope lies in the box. -/
theorem tot3_countP (H : List Hyp) (P : Hyp → Bool) :
    tot3 (fun i j k => H.countP (fun h => P h && h.env == (i, j, k))) =
      H.countP (fun h => P h && envInBox h) := by
  induction H with
  | nil => simp [tot3]
  | cons x t ih =>
    rw [List.countP_cons]
    by_cases hp : P x
    · have hsplit : (fun i j k =>
            (x :: t).countP (fun h => P h && h.env == (i, j, k))) =
          fun i j k => t.countP (fun h => P h && h.env == (i, j, k)) +
            (if x.env = (i, j, k) then 1 else 0) := by
        funext i j k
        rw [List.countP_cons]
        by_cases he : x.env = (i, j, k) <;> simp [hp, he]
      rw [hsplit, tot3_add, ih, tot3_envIndicator]
      by_cases hb : envInBox x
      · have hb' : x.env.1 < NCHARS ∧ x.env.2.1 < NROOMS ∧
            x.env.2.2 < NWEAPS := by simpa [envInBox] using hb
        simp [hp, hb, hb']
      · have hb' : ¬(x.env.1 < NCHARS ∧ x.env.2.1 < NROOMS ∧
            x.env.2.2 < NWEAPS) := by simpa [envInBox] using hb
        simp [hp, hb, hb']
    · have hsplit : (fun i j k =>
            (x :: t).countP (fun h => P h && h.env == (i, j, k))) =
          fun i j k => t.countP (fun h => P h && h.env == (i, j, k)) := by
        funext i j k
        rw [List.countP_cons]; simp [hp]
      rw [hsplit, ih]; simp [hp]

/-- With pairwise distinct envelopes, at most one hypothesis has any given
envelope triple. -/
theorem countP_env_le_one (H : List Hyp) (hnd : (H.map Hyp.env).Nodup)
    (v : ℕ × ℕ × ℕ) : H.countP (fun h => h.env == v) ≤ 1 := by
  induction H with
  | nil => simp
  | cons x t ih =>
    simp only [List.map_cons, List.nodup_cons] at hnd
    rw [List.countP_cons]
    by_cases he : x.env = v
    · have h0 : t.countP (fun h => h.env == v) = 0 := by
        rw [List.countP_eq_zero]
        intro a ha
        simp only [beq_iff_eq]
        intro hav
        apply hnd.1
        rw [he, ← hav]
        exact List.mem_map_of_mem _ ha
      simp [h0, he]
    · simpa [he] using ih hnd.2

/-- Entropy of a 0/1 count tensor summing to `N > 0` over the box:
`log N`. -/
theorem entOf_uniform (cnt : ℕ → ℕ → ℕ → ℕ) (N : ℕ) (hN : tot3 cnt = N)
    (hle : ∀ i j k, cnt i j k ≤ 1) (hpos : 0 < N) :
    entOf cnt = Real.log N := by
  have hterm : ∀ i j k : ℕ,
      Real.negMulLog ((cnt i j k : ℝ) / (tot3 cnt : ℝ)) =
        (cnt i j k : ℝ) * Real.negMulLog (1 / (N : ℝ)) := by
    intro i j k
    rcases Nat.le_one_iff_eq_zero_or_eq_one.mp (hle i j k) with h | h
    · simp [h]
    · simp [h, hN]
  have hNne : (N : ℝ) ≠ 0 := Nat.cast_ne_zero.mpr hpos.ne'
  calc entOf cnt
      = ∑ i ∈ Finset.range NCHARS, ∑ j ∈ Finset.range NROOMS,
          ∑ k ∈ Finset.range NWEAPS,
            (cnt i j k : ℝ) * Real.negMulLog (1 / (N : ℝ)) := by
        unfold entOf
        exact Finset.sum_congr rfl fun i _ => Finset.sum_congr rfl fun j _ =>
          Finset.sum_congr rfl fun k _ => hterm i j k
    _ = (N : ℝ) * Real.negMulLog (1 / (N : ℝ)) := by
        have hsum : (∑ i ∈ Finset.range NCHARS, ∑ j ∈ Finset.range NROOMS,
              ∑ k ∈ Finset.range NWEAPS,
                (cnt i j k : ℝ) * Real.negMulLog (1 / (N : ℝ))) =
            (∑ i ∈ Finset.range NCHARS, ∑ j ∈ Finset.range NROOMS,
              ∑ k ∈ Finset.range NWEAPS, (cnt i j k : ℝ)) *
              Real.negMulLog (1 / (N : ℝ)) := by
          simp only [← Finset.sum_mul]
        have hcast : (∑ i ∈ Finset.range NCHARS, ∑ j ∈ Finset.range NROOMS,
              ∑ k ∈ Finset.range NWEAPS, (cnt i j k : ℝ)) =
            ((tot3 cnt : ℕ) : ℝ) := by
          unfold tot3; push_cast; ring
        rw [hsum, hcast, hN]
    _ = Real.log N := by
        rw [Real.negMulLog, one_div, Real.log_inv]
        field_simp

/-- If no scanned player holds any suggested card the phase-1 scan finds no
responder. -/
theorem firstRespAux_eq_none (c r w : ℕ) (h : Hyp) :
    ∀ l : List ℕ, (∀ p ∈ l, triadMask c r w (h.hands.getD p []) = 0) →
      firstRespAux c r w h l = none := by
  intro l
  induction l with
  | nil => intro _; rfl
  | cons p ps ih =>
    intro hl
    have h0 := hl p (List.mem_cons_self p ps)
    rw [firstRespAux, if_neg (by omega)]
    exact ih fun q hq => hl q (List.mem_cons_of_mem p hq)

/-- C8.  If the detective's own hand contains all three suggested cards in
every hypothesis (so, hands being disjoint, no other player can hold any of
them), and the pool's envelope triples are pairwise distinct and within the
scenario box, then `suggestionexpposteriors` returns expected entropy exactly
`log` of the number of hypotheses in the pool. -/
theorem sugexp_entropy_all_own_cards (H : List Hyp) (n c r w : ℕ)
    (hne : H ≠ [])
    (hown : ∀ h ∈ H, c ∈ h.hands.getD 0 [] ∧ r ∈ h.hands.getD 0 [] ∧
      w ∈ h.hands.getD 0 [])
    (hdisj : ∀ h ∈ H, ∀ p, 1 ≤ p → p < n →
      ∀ x ∈ h.hands.getD p [], x ∉ h.hands.getD 0 [])
    (hbox : ∀ h ∈ H, envInBox h = true)
    (hnd : (H.map Hyp.env).Nodup) :
    sugExpEntropy H n c r w = Real.log H.length := by
  -- Nobody but the detective can answer: every hypothesis is a no-answer one.
  have hfr : ∀ h ∈ H, firstResponder n c r w h = none := by
    intro h hh
    have hmask : ∀ p ∈ List.range' 1 (n - 1),
        triadMask c r w (h.hands.getD p []) = 0 := by
      intro p hp
      rw [List.mem_range'_1] at hp
      have h1p : 1 ≤ p := hp.1
      have hpn : p < n := by omega
      have hc : c ∉ h.hands.getD p [] := fun hx =>
        hdisj h hh p h1p hpn c hx (hown h hh).1
      have hr : r ∉ h.hands.getD p [] := fun hx =>
        hdisj h hh p h1p hpn r hx (hown h hh).2.1
      have hw : w ∉ h.hands.getD p [] := fun hx =>
        hdisj h hh p h1p hpn w hx (hown h hh).2.2
      simp only [triadMask, if_neg hc, if_neg hr, if_neg hw]
    exact firstRespAux_eq_none c r w h _ hmask
  -- All per-answer buckets are empty.
  have hsorted : ∀ p m i j k, sortedCnt H n c r w p m i j k = 0 := by
    intro p m i j k
    rw [sortedCnt, List.countP_eq_zero]
    intro h hh
    simp [hfr h hh]
  have hrecv : ∀ p r', totalReceivedCnt H n c r w p r' = 0 := by
    intro p r'
    have : ∀ i j k, receivedCnt H n c r w p r' i j k = 0 := by
      intro i j k
      rw [receivedCnt]
      exact Finset.sum_eq_zero fun m _ => hsorted p m i j k
    simp only [totalReceivedCnt, tot3, this]
    simp
  -- The no-answer bucket holds the whole pool.
  have hnoA : ∀ i j k, noAnswerCnt H n c r w i j k =
      H.countP (fun h => h.env == (i, j, k)) := by
    intro i j k
    exact List.countP_congr fun h hh => by simp [hfr h hh]
  have htot : tot3 (noAnswerCnt H n c r w) = H.length := by
    have h1 : tot3 (noAnswerCnt H n c r w) =
        tot3 (fun i j k => H.countP (fun h =>
          (fun _ => true) h && h.env == (i, j, k))) := by
      unfold tot3
      exact Finset.sum_congr rfl fun i _ => Finset.sum_congr rfl fun j _ =>
        Finset.sum_congr rfl fun k _ => by rw [hnoA]; simp
    rw [h1, tot3_countP]
    have : H.countP (fun h => (fun _ => true) h && envInBox h) =
        H.countP (fun _ => true) :=
      List.countP_congr fun h hh => by simp [hbox h hh]
    rw [this, List.countP_true]
  have hlen : 0 < H.length := List.length_pos.mpr hne
  have hent : entNoAnswer H n c r w = Real.log H.length := by
    rw [entNoAnswer]
    refine entOf_uniform _ H.length htot (fun i j k => ?_) hlen
    rw [hnoA]
    exact countP_env_le_one H hnd (i, j, k)
  rw [sugExpEntropy, hent, htot]
  have : ∑ p ∈ Finset.Ico 1 n, ∑ r' ∈ Finset.range 3,
      entAfterAnswer H n c r w p r' *
        ((totalReceivedCnt H n c r w p r' : ℕ) : ℝ) = 0 := by
    refine Finset.sum_eq_zero fun p _ => Finset.sum_eq_zero fun r' _ => ?_
    rw [hrecv p r']
    simp
  rw [this, add_zero]
  field_simp

/-- Witness for C8: a concrete two-player, two-hypothesis pool where the
detective holds the whole suggested triad `(0, 6, 15)`. -/
theorem sugexp_entropy_all_own_cards_w :
    sugExpEntropy
      [⟨[[0, 6, 15], [1]], (0, 0, 0)⟩, ⟨[[0, 6, 15], [1]], (1, 0, 0)⟩]
      2 0 6 15 = Real.log 2 := by
  have h := sugexp_entropy_all_own_cards
    [⟨[[0, 6, 15], [1]], (0, 0, 0)⟩, ⟨[[0, 6, 15], [1]], (1, 0, 0)⟩]
    2 0 6 15 (by decide) (by decide) (by decide) (by decide) (by decide)
  simpa using h

/-! ## Point-mass sums over the scenario box -/

theorem sum_range_pointMass {M : Type} [AddCommMonoid M] (n e : ℕ) (x : M) :
    (∑ k ∈ Finset.range n, if e = k then x else 0) = if e < n then x else 0 := by
  rw [Finset.sum_ite_eq]; simp

theorem sum_box_pointMass {M : Type} [AddCommMonoid M] (e : ℕ × ℕ × ℕ)
    (x : M) :
    (∑ i ∈ Finset.range NCHARS, ∑ j ∈ Finset.range NROOMS,
      ∑ k ∈ Finset.range NWEAPS, if e = (i, j, k) then x else 0) =
      if e.1 < NCHARS ∧ e.2.1 < NROOMS ∧ e.2.2 < NWEAPS then x else 0 := by
  obtain ⟨e1, e2, e3⟩ := e
  have hsummand : ∀ i j k : ℕ,
      (if (e1, e2, e3) = (i, j, k) then x else 0) =
        if e1 = i then (if e2 = j then (if e3 = k then x else 0) else 0)
        else 0 := by
    intro i j k
    by_cases h1 : e1 = i <;> by_cases h2 : e2 = j <;> by_cases h3 : e3 = k <;>
      simp [Prod.ext_iff, h1, h2, h3]
  simp only [hsummand]
  have hk : ∀ i j : ℕ, (∑ k ∈ Finset.range NWEAPS,
      if e1 = i then (if e2 = j then (if e3 = k then x else 0) else 0)
      else 0) =
        if e1 = i then (if e2 = j then (if e3 < NWEAPS then x else 0) else 0)
        else 0 := by
    intro i j
    by_cases h1 : e1 = i <;> by_cases h2 : e2 = j <;>
      simp [h1, h2, sum_range_pointMass]
  simp only [hk]
  have hj : ∀ i : ℕ, (∑ j ∈ Finset.range NROOMS,
      if e1 = i then (if e2 = j then (if e3 < NWEAPS then x else 0) else 0)
      else 0) =
        if e1 = i then
          (if e2 < NROOMS then (if e3 < NWEAPS then x else 0) else 0)
        else 0 := by
    intro i
    by_cases h1 : e1 = i <;> simp [h1, sum_range_pointMass]
  simp only [hj, sum_range_pointMass]
  by_cases h1 : e1 < NCHARS <;> by_cases h2 : e2 < NROOMS <;>
    by_cases h3 : e3 < NWEAPS <;> simp [h1, h2, h3]

theorem tot3_pointMass (e : ℕ × ℕ × ℕ) (a : ℕ)
    (hb : e.1 < NCHARS ∧ e.2.1 < NROOMS ∧ e.2.2 < NWEAPS) :
    tot3 (fun i j k => if e = (i, j, k) then a else 0) = a := by
  unfold tot3
  rw [sum_box_pointMass, if_pos hb]

/-- Each in-box entry of a count tensor is at most the box total. -/
theorem le_tot3 (f : ℕ → ℕ → ℕ → ℕ) (i j k : ℕ) (hi : i < NCHARS)
    (hj : j < NROOMS) (hk : k < NWEAPS) : f i j k ≤ tot3 f := by
  unfold tot3
  calc f i j k
      ≤ ∑ k' ∈ Finset.range NWEAPS, f i j k' :=
        Finset.single_le_sum (fun _ _ => Nat.zero_le _)
          (Finset.mem_range.mpr hk)
    _ ≤ ∑ j' ∈ Finset.range NROOMS, ∑ k' ∈ Finset.range NWEAPS, f i j' k' :=
        Finset.single_le_sum (f := fun j' => ∑ k' ∈ Finset.range NWEAPS,
          f i j' k') (fun _ _ => Nat.zero_le _) (Finset.mem_range.mpr hj)
    _ ≤ ∑ i' ∈ Finset.range NCHARS, ∑ j' ∈ Finset.range NROOMS,
          ∑ k' ∈ Finset.range NWEAPS, f i' j' k' :=
        Finset.single_le_sum (f := fun i' => ∑ j' ∈ Finset.range NROOMS,
          ∑ k' ∈ Finset.range NWEAPS, f i' j' k')
          (fun _ _ => Nat.zero_le _) (Finset.mem_range.mpr hi)

/-- A zero box total forces every in-box entry to vanish. -/
theorem tot3_eq_zero {f : ℕ → ℕ → ℕ → ℕ} (h : tot3 f = 0) (i j k : ℕ)
    (hi : i < NCHARS) (hj : j < NROOMS) (hk : k < NWEAPS) : f i j k = 0 :=
  Nat.le_zero.mp (h ▸ le_tot3 f i j k hi hj hk)

/-- `entOf` of a tensor vanishing on the box is `0`. -/
theorem entOf_zero {f : ℕ → ℕ → ℕ → ℕ}
    (h : ∀ i j k, i < NCHARS → j < NROOMS → k < NWEAPS → f i j k = 0) :
    entOf f = 0 := by
  unfold entOf
  refine Finset.sum_eq_zero fun i hi => Finset.sum_eq_zero fun j hj =>
    Finset.sum_eq_zero fun k hk => ?_
  rw [h i j k (Finset.mem_range.mp hi) (Finset.mem_range.mp hj)
    (Finset.mem_range.mp hk)]
  simp

/-- Entropies of count tensors are nonnegative. -/
theorem entOf_nonneg (f : ℕ → ℕ → ℕ → ℕ) : 0 ≤ entOf f := by
  unfold entOf
  refine Finset.sum_nonneg fun i hi => Finset.sum_nonneg fun j hj =>
    Finset.sum_nonneg fun k hk => ?_
  rcases Nat.eq_zero_or_pos (tot3 f) with h0 | hpos
  · rw [tot3_eq_zero h0 i j k (Finset.mem_range.mp hi)
      (Finset.mem_range.mp hj) (Finset.mem_range.mp hk)]
    simp
  · refine Real.negMulLog_nonneg
      (div_nonneg (Nat.cast_nonneg _) (Nat.cast_nonneg _)) ?_
    rw [div_le_one (by exact_mod_cast hpos)]
    exact_mod_cast le_tot3 f i j k (Finset.mem_range.mp hi)
      (Finset.mem_range.mp hj) (Finset.mem_range.mp hk)

/-! ## Finite Jensen inequality for the bucketed entropies -/

/-- Concavity of entropy over a finite partition of a count tensor:
the bucket-weighted sum of bucket entropies is at most the total entropy
weighted by the total count. -/
theorem jensen_entropy {ι : Type} (B : Finset ι)
    (cnt : ι → ℕ → ℕ → ℕ → ℕ) (total : ℕ → ℕ → ℕ → ℕ)
    (hpart : ∀ i j k, (∑ b ∈ B, cnt b i j k) = total i j k) :
    ∑ b ∈ B, entOf (cnt b) * (tot3 (cnt b) : ℝ) ≤
      entOf total * (tot3 total : ℝ) := by
  have hT : (∑ b ∈ B, tot3 (cnt b)) = tot3 total := by
    unfold tot3
    rw [Finset.sum_comm]
    refine Finset.sum_congr rfl fun i _ => ?_
    rw [Finset.sum_comm]
    refine Finset.sum_congr rfl fun j _ => ?_
    rw [Finset.sum_comm]
    exact Finset.sum_congr rfl fun k _ => hpart i j k
  rcases Nat.eq_zero_or_pos (tot3 total) with h0 | hpos
  · have hb0 : ∀ b ∈ B, tot3 (cnt b) = 0 := by
      intro b hb
      have := hT
      rw [h0] at this
      exact (Finset.sum_eq_zero_iff.mp this) b hb
    have hLHS : ∑ b ∈ B, entOf (cnt b) * (tot3 (cnt b) : ℝ) = 0 :=
      Finset.sum_eq_zero fun b hb => by rw [hb0 b hb]; simp
    rw [hLHS, h0]
    simp
  · have hTpos : (0 : ℝ) < (tot3 total : ℝ) := by exact_mod_cast hpos
    have hTne : (tot3 total : ℝ) ≠ 0 := ne_of_gt hTpos
    -- Per-scenario Jensen step.
    have hjensen : ∀ i j k, i < NCHARS → j < NROOMS → k < NWEAPS →
        ∑ b ∈ B, ((tot3 (cnt b) : ℝ) / (tot3 total : ℝ)) *
            Real.negMulLog ((cnt b i j k : ℝ) / (tot3 (cnt b) : ℝ)) ≤
          Real.negMulLog ((total i j k : ℝ) / (tot3 total : ℝ)) := by
      intro i j k hi hj hk
      have hw0 : ∀ b ∈ B, (0 : ℝ) ≤ (tot3 (cnt b) : ℝ) / (tot3 total : ℝ) :=
        fun b _ => div_nonneg (Nat.cast_nonneg _) (Nat.cast_nonneg _)
      have hw1 : (∑ b ∈ B, (tot3 (cnt b) : ℝ) / (tot3 total : ℝ)) = 1 := by
        rw [← Finset.sum_div]
        rw [div_eq_one_iff_eq hTne]
        exact_mod_cast hT
      have hmem : ∀ b ∈ B,
          ((cnt b i j k : ℝ) / (tot3 (cnt b) : ℝ)) ∈ Set.Ici (0 : ℝ) :=
        fun b _ => div_nonneg (Nat.cast_nonneg _) (Nat.cast_nonneg _)
      have hmix : (∑ b ∈ B, ((tot3 (cnt b) : ℝ) / (tot3 total : ℝ)) •
            ((cnt b i j k : ℝ) / (tot3 (cnt b) : ℝ))) =
          (total i j k : ℝ) / (tot3 total : ℝ) := by
        have hterm : ∀ b ∈ B, ((tot3 (cnt b) : ℝ) / (tot3 total : ℝ)) •
            ((cnt b i j k : ℝ) / (tot3 (cnt b) : ℝ)) =
              (cnt b i j k : ℝ) / (tot3 total : ℝ) := by
          intro b _
          rcases Nat.eq_zero_or_pos (tot3 (cnt b)) with hb0 | hbpos
          · rw [tot3_eq_zero hb0 i j k hi hj hk, hb0]
            simp
          · have hbne : (tot3 (cnt b) : ℝ) ≠ 0 := by
              exact_mod_cast hbpos.ne'
            rw [smul_eq_mul]
            field_simp
            ring
        calc (∑ b ∈ B, ((tot3 (cnt b) : ℝ) / (tot3 total : ℝ)) •
              ((cnt b i j k : ℝ) / (tot3 (cnt b) : ℝ)))
            = ∑ b ∈ B, (cnt b i j k : ℝ) / (tot3 total : ℝ) :=
              Finset.sum_congr rfl hterm
          _ = (∑ b ∈ B, (cnt b i j k : ℝ)) / (tot3 total : ℝ) :=
              (Finset.sum_div _ _ _).symm
          _ = (total i j k : ℝ) / (tot3 total : ℝ) := by
              have hc : (∑ b ∈ B, (cnt b i j k : ℝ)) = (total i j k : ℝ) := by
                exact_mod_cast hpart i j k
              rw [hc]
      have := Real.concaveOn_negMulLog.le_map_sum hw0 hw1 hmem
      rw [hmix] at this
      refine le_trans ?_ this
      refine le_of_eq (Finset.sum_congr rfl fun b _ => ?_)
      rw [smul_eq_mul]
    -- Sum the per-scenario inequality over the box.
    have hswap : ∑ b ∈ B, entOf (cnt b) * (tot3 (cnt b) : ℝ) =
        ∑ i ∈ Finset.range NCHARS, ∑ j ∈ Finset.range NROOMS,
          ∑ k ∈ Finset.range NWEAPS, ∑ b ∈ B, (tot3 (cnt b) : ℝ) *
            Real.negMulLog ((cnt b i j k : ℝ) / (tot3 (cnt b) : ℝ)) := by
      have hone : ∀ b ∈ B, entOf (cnt b) * (tot3 (cnt b) : ℝ) =
          ∑ i ∈ Finset.range NCHARS, ∑ j ∈ Finset.range NROOMS,
            ∑ k ∈ Finset.range NWEAPS, (tot3 (cnt b) : ℝ) *
              Real.negMulLog ((cnt b i j k : ℝ) / (tot3 (cnt b) : ℝ)) := by
        intro b _
        rw [entOf, Finset.sum_mul]
        refine Finset.sum_congr rfl fun i _ => ?_
        rw [Finset.sum_mul]
        refine Finset.sum_congr rfl fun j _ => ?_
        rw [Finset.sum_mul]
        exact Finset.sum_congr rfl fun k _ => mul_comm _ _
      calc ∑ b ∈ B, entOf (cnt b) * (tot3 (cnt b) : ℝ)
          = ∑ b ∈ B, ∑ i ∈ Finset.range NCHARS, ∑ j ∈ Finset.range NROOMS,
              ∑ k ∈ Finset.range NWEAPS, (tot3 (cnt b) : ℝ) *
                Real.negMulLog ((cnt b i j k : ℝ) / (tot3 (cnt b) : ℝ)) :=
            Finset.sum_congr rfl hone
        _ = ∑ i ∈ Finset.range NCHARS, ∑ j ∈ Finset.range NROOMS,
              ∑ k ∈ Finset.range NWEAPS, ∑ b ∈ B, (tot3 (cnt b) : ℝ) *
                Real.negMulLog ((cnt b i j k : ℝ) / (tot3 (cnt b) : ℝ)) := by
            rw [Finset.sum_comm]
            refine Finset.sum_congr rfl fun i _ => ?_
            rw [Finset.sum_comm]
            refine Finset.sum_congr rfl fun j _ => ?_
            rw [Finset.sum_comm]
    have hboxle : ∀ i ∈ Finset.range NCHARS, ∀ j ∈ Finset.range NROOMS,
        ∀ k ∈ Finset.range NWEAPS,
        (∑ b ∈ B, (tot3 (cnt b) : ℝ) *
          Real.negMulLog ((cnt b i j k : ℝ) / (tot3 (cnt b) : ℝ))) ≤
        (tot3 total : ℝ) *
          Real.negMulLog ((total i j k : ℝ) / (tot3 total : ℝ)) := by
      intro i hi j hj k hk
      have h1 := hjensen i j k (Finset.mem_range.mp hi) (Finset.mem_range.mp hj)
        (Finset.mem_range.mp hk)
      calc (∑ b ∈ B, (tot3 (cnt b) : ℝ) *
            Real.negMulLog ((cnt b i j k : ℝ) / (tot3 (cnt b) : ℝ)))
          = (tot3 total : ℝ) * ∑ b ∈ B,
              ((tot3 (cnt b) : ℝ) / (tot3 total : ℝ)) *
                Real.negMulLog ((cnt b i j k : ℝ) / (tot3 (cnt b) : ℝ)) := by
            rw [Finset.mul_sum]
            refine Finset.sum_congr rfl fun b _ => ?_
            have hx : (tot3 total : ℝ) *
                (((tot3 (cnt b) : ℝ) / (tot3 total : ℝ)) *
                  Real.negMulLog ((cnt b i j k : ℝ) / (tot3 (cnt b) : ℝ))) =
                ((tot3 (cnt b) : ℝ) / (tot3 total : ℝ) * (tot3 total : ℝ)) *
                  Real.negMulLog ((cnt b i j k : ℝ) / (tot3 (cnt b) : ℝ)) := by
              ring
            rw [hx, div_mul_cancel₀ _ hTne]
        _ ≤ (tot3 total : ℝ) *
              Real.negMulLog ((total i j k : ℝ) / (tot3 total : ℝ)) :=
            mul_le_mul_of_nonneg_left h1 (le_of_lt hTpos)
    have hRHS : entOf total * (tot3 total : ℝ) =
        ∑ i ∈ Finset.range NCHARS, ∑ j ∈ Finset.range NROOMS,
          ∑ k ∈ Finset.range NWEAPS, (tot3 total : ℝ) *
            Real.negMulLog ((total i j k : ℝ) / (tot3 total : ℝ)) := by
      rw [entOf, Finset.sum_mul]
      refine Finset.sum_congr rfl fun i _ => ?_
      rw [Finset.sum_mul]
      refine Finset.sum_congr rfl fun j _ => ?_
      rw [Finset.sum_mul]
      exact Finset.sum_congr rfl fun k _ => mul_comm _ _
    rw [hswap, hRHS]
    exact Finset.sum_le_sum fun i hi => Finset.sum_le_sum fun j hj =>
      Finset.sum_le_sum fun k hk => hboxle i hi j hj k hk

/-! ## Structure of the phase-1/phase-3 buckets -/

/-- What a successful phase-1 scan tells us about its result. -/
theorem firstRespAux_some (c r w : ℕ) (h : Hyp) :
    ∀ l : List ℕ, ∀ p m : ℕ, firstRespAux c r w h l = some (p, m) →
      p ∈ l ∧ m = triadMask c r w (h.hands.getD p []) ∧ 0 < m := by
  intro l
  induction l with
  | nil => intro p m hpm; cases hpm
  | cons q qs ih =>
    intro p m hpm
    rw [firstRespAux] at hpm
    by_cases hq : 0 < triadMask c r w (h.hands.getD q [])
    · rw [if_pos hq] at hpm
      obtain ⟨hp, hm⟩ := Prod.mk.injEq .. ▸ Option.some.injEq _ _ ▸ hpm
      injection hpm with hpm'
      obtain ⟨hp', hm'⟩ := Prod.mk.injEq .. ▸ hpm'
      subst hp'; subst hm'
      exact ⟨List.mem_cons_self q qs, rfl, hq⟩
    · rw [if_neg hq] at hpm
      obtain ⟨hin, hmask, hmpos⟩ := ih p m hpm
      exact ⟨List.mem_cons_of_mem q hin, hmask, hmpos⟩

/-- A single-bit mask always answers with its only card, whatever the
preference order. -/
theorem assignedResp_single (e : ℕ → ℝ) (r' : ℕ) (hr : r' < 3) :
    assignedResp (2 ^ r') (prefOrder e) = r' := by
  unfold prefOrder
  split_ifs <;> interval_cases r' <;> rfl

/-- Under the one-card-per-asked-player condition, the sorted bins for
multi-card masks are empty. -/
theorem sortedCnt_single_eq_zero (H : List Hyp) (n c r w : ℕ)
    (hsingle : ∀ h ∈ H, ∀ p, 1 ≤ p → p < n →
      triadMask c r w (h.hands.getD p []) ∈ ([0, 1, 2, 4] : List ℕ))
    (p m : ℕ) (hm : m ∉ ([1, 2, 4] : List ℕ)) :
    ∀ i j k, sortedCnt H n c r w p m i j k = 0 := by
  intro i j k
  rw [sortedCnt, List.countP_eq_zero]
  intro h hh
  simp only [Bool.and_eq_true, beq_iff_eq]
  rintro ⟨hfr, -⟩
  obtain ⟨hin, hmask, hmpos⟩ := firstRespAux_some c r w h _ p m hfr
  rw [List.mem_range'_1] at hin
  have hv := hsingle h hh p hin.1 (by omega)
  rw [← hmask] at hv
  simp at hv hm
  omega

/-- Under the one-card condition the received bucket for `(p, r')` is
exactly the one-card bin `2^r'`. -/
theorem receivedCnt_single (H : List Hyp) (n c r w : ℕ)
    (hsingle : ∀ h ∈ H, ∀ p, 1 ≤ p → p < n →
      triadMask c r w (h.hands.getD p []) ∈ ([0, 1, 2, 4] : List ℕ))
    (p r' : ℕ) (hr : r' < 3) :
    ∀ i j k, receivedCnt H n c r w p r' i j k =
      sortedCnt H n c r w p (2 ^ r') i j k := by
  intro i j k
  rw [receivedCnt]
  rw [Finset.sum_eq_single (2 ^ r')]
  · intro m hm hne
    rw [Finset.mem_filter, Finset.mem_Ico] at hm
    by_cases hmem : m ∈ ([1, 2, 4] : List ℕ)
    · exfalso
      simp at hmem
      rcases hmem with rfl | rfl | rfl
      · have h0 := assignedResp_single (entAfterAnswer H n c r w p) 0
          (by omega)
        rw [show (2 : ℕ) ^ 0 = 1 from rfl] at h0
        rw [h0] at hm
        interval_cases r' <;> simp_all
      · have h0 := assignedResp_single (entAfterAnswer H n c r w p) 1
          (by omega)
        rw [show (2 : ℕ) ^ 1 = 2 from rfl] at h0
        rw [h0] at hm
        interval_cases r' <;> simp_all
      · have h0 := assignedResp_single (entAfterAnswer H n c r w p) 2
          (by omega)
        rw [show (2 : ℕ) ^ 2 = 4 from rfl] at h0
        rw [h0] at hm
        interval_cases r' <;> simp_all
    · exact sortedCnt_single_eq_zero H n c r w hsingle p m hmem i j k
  · intro hnot
    exfalso
    apply hnot
    rw [Finset.mem_filter, Finset.mem_Ico]
    refine ⟨⟨?_, ?_⟩, assignedResp_single _ r' hr⟩
    · exact Nat.one_le_two_pow
    · interval_cases r' <;> norm_num

/-- Under the one-card condition the after-answer tensor for `(p, r')` also
collapses to the one-card bin `2^r'`. -/
theorem afterAnswerCnt_single (H : List Hyp) (n c r w : ℕ)
    (hsingle : ∀ h ∈ H, ∀ p, 1 ≤ p → p < n →
      triadMask c r w (h.hands.getD p []) ∈ ([0, 1, 2, 4] : List ℕ))
    (p r' : ℕ) (hr : r' < 3) :
    ∀ i j k, afterAnswerCnt H n c r w p r' i j k =
      sortedCnt H n c r w p (2 ^ r') i j k := by
  intro i j k
  rw [afterAnswerCnt]
  rw [Finset.sum_eq_single (2 ^ r')]
  · intro m hm hne
    rw [binsFor, Finset.mem_filter, Finset.mem_Ico] at hm
    by_cases hmem : m ∈ ([1, 2, 4] : List ℕ)
    · exfalso
      simp at hmem
      have hbit := hm.2
      rcases hmem with rfl | rfl | rfl <;> interval_cases r' <;>
        (revert hne hbit; decide)
    · exact sortedCnt_single_eq_zero H n c r w hsingle p m hmem i j k
  · intro hnot
    exfalso
    apply hnot
    rw [binsFor, Finset.mem_filter, Finset.mem_Ico]
    refine ⟨⟨Nat.one_le_two_pow, ?_⟩, ?_⟩
    · interval_cases r' <;> norm_num
    · interval_cases r' <;> rfl

/-- Indicator sum over the bucket index grid. -/
theorem sum_pair_indicator {M : Type} [AddCommMonoid M] (n p0 r0 : ℕ)
    (hp : 1 ≤ p0 ∧ p0 < n) (hr : r0 < 3) (x : M) :
    (∑ p ∈ Finset.Ico 1 n, ∑ r' ∈ Finset.range 3,
      if p = p0 ∧ r' = r0 then x else 0) = x := by
  have hinner : ∀ p, (∑ r' ∈ Finset.range 3,
      if p = p0 ∧ r' = r0 then x else 0) = if p = p0 then x else 0 := by
    intro p
    by_cases hp0 : p = p0
    · subst hp0
      rw [if_pos rfl]
      simp only [eq_self_iff_true, true_and]
      rw [Finset.sum_ite_eq' (Finset.range 3) r0 (fun _ => x)]
      exact if_pos (Finset.mem_range.mpr hr)
    · simp [hp0]
  simp only [hinner]
  rw [Finset.sum_ite_eq' (Finset.Ico 1 n) p0 (fun _ => x)]
  rw [if_pos (Finset.mem_Ico.mpr hp)]

/-- Bucket partition of the pool: no-answer plus the one-card buckets count
every hypothesis exactly once (under the one-card condition). -/
theorem bucket_partition (H : List Hyp) (n c r w : ℕ)
    (hsingle : ∀ h ∈ H, ∀ p, 1 ≤ p → p < n →
      triadMask c r w (h.hands.getD p []) ∈ ([0, 1, 2, 4] : List ℕ)) :
    ∀ i j k, noAnswerCnt H n c r w i j k +
      (∑ p ∈ Finset.Ico 1 n, ∑ r' ∈ Finset.range 3,
        sortedCnt H n c r w p (2 ^ r') i j k) =
      H.countP (fun h => h.env == (i, j, k)) := by
  induction H with
  | nil => intro i j k; simp [noAnswerCnt, sortedCnt]
  | cons x t ih =>
    have hsingle' : ∀ h ∈ t, ∀ p, 1 ≤ p → p < n →
        triadMask c r w (h.hands.getD p []) ∈ ([0, 1, 2, 4] : List ℕ) :=
      fun h hh => hsingle h (List.mem_cons_of_mem x hh)
    intro i j k
    have iht := ih hsingle' i j k
    rw [noAnswerCnt, List.countP_cons, List.countP_cons]
    have hsorted : ∀ p m, sortedCnt (x :: t) n c r w p m i j k =
        sortedCnt t n c r w p m i j k +
          (if firstResponder n c r w x == some (p, m) &&
            x.env == (i, j, k) then 1 else 0) := by
      intro p m
      rw [sortedCnt, sortedCnt, List.countP_cons]
    simp only [hsorted, Finset.sum_add_distrib]
    rw [noAnswerCnt] at iht
    cases hfr : firstResponder n c r w x with
    | none =>
      have hz : (∑ p ∈ Finset.Ico 1 n, ∑ r' ∈ Finset.range 3,
          if (none : Option (ℕ × ℕ)) == some (p, 2 ^ r') &&
            x.env == (i, j, k) then 1 else 0) = 0 := by
        refine Finset.sum_eq_zero fun p _ => Finset.sum_eq_zero fun r' _ => ?_
        simp
      rw [hz]
      by_cases he : x.env = (i, j, k)
      · simp [he]
        omega
      · simp [he]
        omega
    | some pm =>
      obtain ⟨p0, m0⟩ := pm
      obtain ⟨hin, hmask, hmpos⟩ :=
        firstRespAux_some c r w x _ p0 m0 hfr
      rw [List.mem_range'_1] at hin
      have hp0 : 1 ≤ p0 ∧ p0 < n := ⟨hin.1, by omega⟩
      have hm0 : m0 ∈ ([1, 2, 4] : List ℕ) := by
        have hv := hsingle x (List.mem_cons_self x t) p0 hp0.1 hp0.2
        rw [← hmask] at hv
        simp at hv ⊢
        omega
      obtain ⟨r0, hr0, hm0eq⟩ : ∃ r0, r0 < 3 ∧ m0 = 2 ^ r0 := by
        simp at hm0
        rcases hm0 with h | h | h
        · exact ⟨0, by omega, by simpa using h⟩
        · exact ⟨1, by omega, by simpa using h⟩
        · exact ⟨2, by omega, by simpa using h⟩
      have hind : (∑ p ∈ Finset.Ico 1 n, ∑ r' ∈ Finset.range 3,
          if (some (p0, m0) : Option (ℕ × ℕ)) == some (p, 2 ^ r') &&
            x.env == (i, j, k) then 1 else 0) =
          (if x.env = (i, j, k) then 1 else 0) := by
        have hterm : ∀ p ∈ Finset.Ico 1 n, ∀ r' ∈ Finset.range 3,
            (if (some (p0, m0) : Option (ℕ × ℕ)) == some (p, 2 ^ r') &&
              x.env == (i, j, k) then 1 else 0) =
            (if p = p0 ∧ r' = r0 then
              (if x.env = (i, j, k) then 1 else 0) else 0) := by
          intro p _ r' hr'
          rw [Finset.mem_range] at hr'
          by_cases hpr : p = p0 ∧ r' = r0
          · obtain ⟨rfl, rfl⟩ := hpr
            subst hm0eq
            by_cases he : x.env = (i, j, k) <;> simp [he]
          · rw [if_neg hpr]
            have hne : ¬((p0, m0) = (p, 2 ^ r')) := by
              intro heq
              rw [Prod.mk.injEq] at heq
              obtain ⟨hpp, hmm⟩ := heq
              apply hpr
              refine ⟨hpp.symm, ?_⟩
              have h2 : (2 : ℕ) ^ r0 = 2 ^ r' := by rw [← hm0eq, hmm]
              exact (Nat.pow_right_injective (by omega) h2).symm
            have hb : ((some (p0, m0) : Option (ℕ × ℕ)) ==
                some (p, 2 ^ r')) = false := by
              rw [beq_eq_false_iff_ne]
              intro hsome
              exact hne (Option.some.injEq .. ▸ hsome ▸ rfl)
            simp [hb]
        calc (∑ p ∈ Finset.Ico 1 n, ∑ r' ∈ Finset.range 3,
              if (some (p0, m0) : Option (ℕ × ℕ)) == some (p, 2 ^ r') &&
                x.env == (i, j, k) then 1 else 0)
            = ∑ p ∈ Finset.Ico 1 n, ∑ r' ∈ Finset.range 3,
                if p = p0 ∧ r' = r0 then
                  (if x.env = (i, j, k) then 1 else 0) else 0 :=
              Finset.sum_congr rfl fun p hp => Finset.sum_congr rfl
                fun r' hr' => hterm p hp r' hr'
          _ = (if x.env = (i, j, k) then 1 else 0) :=
              sum_pair_indicator n p0 r0 hp0 hr0 _
      rw [hind]
      by_cases he : x.env = (i, j, k)
      · simp [he]
        omega
      · simp [he]
        omega

/-- Summation over the bucket index set `{no answer} ∪ (players × answers)`. -/
theorem sum_insert_image_pairs {M : Type} [AddCommMonoid M] (n : ℕ)
    (f : Option (ℕ × ℕ) → M) :
    (∑ b ∈ insert none (((Finset.Ico 1 n) ×ˢ (Finset.range 3)).image some),
      f b) =
      f none + ∑ p ∈ Finset.Ico 1 n, ∑ r' ∈ Finset.range 3,
        f (some (p, r')) := by
  rw [Finset.sum_insert (by simp)]
  congr 1
  rw [Finset.sum_image (by intro a _ b _ hab; exact Option.some.inj hab)]
  rw [Finset.sum_product]

/-- `statsfromcounts` applied to the scenario count tensor of a pool computes
the same entropy as `entOf` of the derived counts. -/
theorem statsEntropy_scenarioCounts (H : List Hyp) :
    statsfromcountsEntropy (scenarioCounts H) =
      entOf (fun i j k => H.countP (fun h => h.env == (i, j, k))) := by
  have hZ : tot3Z (scenarioCounts H) =
      ((tot3 (fun i j k => H.countP (fun h => h.env == (i, j, k))) : ℕ) : ℤ)
      := by
    unfold tot3Z tot3 scenarioCounts
    push_cast
    rfl
  rw [statsfromcountsEntropy, hZ]
  by_cases hpos : 0 < tot3 (fun i j k => H.countP (fun h => h.env == (i, j, k)))
  · rw [if_pos (by exact_mod_cast hpos)]
    unfold entOf
    refine Finset.sum_congr rfl fun i _ => Finset.sum_congr rfl fun j _ =>
      Finset.sum_congr rfl fun k _ => ?_
    unfold scenarioCounts
    push_cast
    rfl
  · have h0 : tot3 (fun i j k => H.countP (fun h => h.env == (i, j, k))) = 0 :=
      by omega
    rw [if_neg (by rw [h0]; simp)]
    rw [entOf_zero (fun i j k hi hj hk => tot3_eq_zero h0 i j k hi hj hk)]

/-- C4 (amended).  For every suggestion triple and every nonempty hypothesis
pool in which each potentially answering player holds at most one of the
three suggested cards, the `expEntropy` value returned by
`suggestionexpposteriors` is at most the prior scenario entropy obtained by
`statsfromcounts` on the scenario count tensor of that same pool.  (Without
the at-most-one-card condition the inequality fails: see the
counterexample.) -/
theorem sugexp_entropy_le_prior (H : List Hyp) (n c r w : ℕ)
    (hne : H ≠ [])
    (hsingle : ∀ h ∈ H, ∀ p, 1 ≤ p → p < n →
      triadMask c r w (h.hands.getD p []) ∈ ([0, 1, 2, 4] : List ℕ)) :
    sugExpEntropy H n c r w ≤ statsfromcountsEntropy (scenarioCounts H) := by
  rw [statsEntropy_scenarioCounts]
  have hpart : ∀ i j k,
      (∑ b ∈ insert none (((Finset.Ico 1 n) ×ˢ (Finset.range 3)).image some),
        bucketCnt H n c r w b i j k) =
      H.countP (fun h => h.env == (i, j, k)) := by
    intro i j k
    rw [sum_insert_image_pairs n (fun b => bucketCnt H n c r w b i j k)]
    simp only [bucketCnt]
    exact bucket_partition H n c r w hsingle i j k
  have hjen := jensen_entropy
    (insert none (((Finset.Ico 1 n) ×ˢ (Finset.range 3)).image some))
    (bucketCnt H n c r w)
    (fun i j k => H.countP (fun h => h.env == (i, j, k))) hpart
  rw [sum_insert_image_pairs] at hjen
  simp only [bucketCnt] at hjen
  have hnum : entNoAnswer H n c r w * (tot3 (noAnswerCnt H n c r w) : ℝ) +
      (∑ p ∈ Finset.Ico 1 n, ∑ r' ∈ Finset.range 3,
        entAfterAnswer H n c r w p r' *
          (totalReceivedCnt H n c r w p r' : ℝ)) ≤
      entOf (fun i j k => H.countP (fun h => h.env == (i, j, k))) *
        (tot3 (fun i j k => H.countP (fun h => h.env == (i, j, k))) : ℝ) := by
    refine le_trans (le_of_eq ?_) hjen
    congr 1
    refine Finset.sum_congr rfl fun p hp => Finset.sum_congr rfl
      fun r' hr' => ?_
    rw [Finset.mem_range] at hr'
    have h1 : entAfterAnswer H n c r w p r' =
        entOf (fun i j k => sortedCnt H n c r w p (2 ^ r') i j k) := by
      rw [entAfterAnswer]
      congr 1
      funext i j k
      exact afterAnswerCnt_single H n c r w hsingle p r' hr' i j k
    have h2 : totalReceivedCnt H n c r w p r' =
        tot3 (fun i j k => sortedCnt H n c r w p (2 ^ r') i j k) := by
      rw [totalReceivedCnt]
      congr 1
      funext i j k
      exact receivedCnt_single H n c r w hsingle p r' hr' i j k
    rw [h1, h2]
  have hlen : (0 : ℝ) < (H.length : ℝ) := by
    have := List.length_pos.mpr hne
    exact_mod_cast this
  rw [sugExpEntropy, div_le_iff hlen]
  have htot_le : tot3 (fun i j k => H.countP (fun h => h.env == (i, j, k))) ≤
      H.length := by
    have h1 := tot3_countP H (fun _ => true)
    simp only [Bool.true_and] at h1
    rw [h1]
    exact List.countP_le_length _
  calc entNoAnswer H n c r w * (tot3 (noAnswerCnt H n c r w) : ℝ) +
        ∑ p ∈ Finset.Ico 1 n, ∑ r' ∈ Finset.range 3,
          entAfterAnswer H n c r w p r' *
            (totalReceivedCnt H n c r w p r' : ℝ)
      ≤ entOf (fun i j k => H.countP (fun h => h.env == (i, j, k))) *
          (tot3 (fun i j k => H.countP (fun h => h.env == (i, j, k))) : ℝ) :=
        hnum
    _ ≤ entOf (fun i j k => H.countP (fun h => h.env == (i, j, k))) *
          (H.length : ℝ) := by
        refine mul_le_mul_of_nonneg_left ?_ (entOf_nonneg _)
        exact_mod_cast htot_le

/-- Witness for the amended C4 at a one-hypothesis, two-player pool. -/
theorem sugexp_entropy_le_prior_w :
    sugExpEntropy [⟨[[0], [6]], (0, 0, 0)⟩] 2 0 6 15 ≤
      statsfromcountsEntropy (scenarioCounts [⟨[[0], [6]], (0, 0, 0)⟩]) :=
  sugexp_entropy_le_prior [⟨[[0], [6]], (0, 0, 0)⟩] 2 0 6 15
    (by decide) (by decide)

/-! ## Evaluation helpers for concrete pools -/

theorem countP_env_cons (e : ℕ × ℕ × ℕ) (t : List (ℕ × ℕ × ℕ)) (i j k : ℕ) :
    (e :: t).countP (fun x => x == (i, j, k)) =
      (if e = (i, j, k) then 1 else 0) +
        t.countP (fun x => x == (i, j, k)) := by
  rw [List.countP_cons]
  by_cases h : e = (i, j, k)
  · simp [h, Nat.add_comm]
  · simp [h]

theorem countP_env_replicate (N : ℕ) (e : ℕ × ℕ × ℕ) (i j k : ℕ) :
    (List.replicate N e).countP (fun x => x == (i, j, k)) =
      if e = (i, j, k) then N else 0 := by
  induction N with
  | zero => simp
  | succ m ih =>
    rw [List.replicate_succ, countP_env_cons, ih]
    by_cases h : e = (i, j, k) <;> simp [h] <;> omega

theorem countP_map_env (H : List Hyp) (i j k : ℕ) :
    H.countP (fun h => h.env == (i, j, k)) =
      (H.map Hyp.env).countP (fun e => e == (i, j, k)) := by
  rw [List.countP_map]
  rfl

theorem sortedCnt_eq_filter (H : List Hyp) (n c r w p m i j k : ℕ) :
    sortedCnt H n c r w p m i j k =
      ((H.filter (fun h => firstResponder n c r w h == some (p, m))).map
        Hyp.env).countP (fun e => e == (i, j, k)) := by
  rw [List.countP_map, List.countP_filter]
  unfold sortedCnt
  refine List.countP_congr fun h _ => ?_
  simp [Function.comp, Bool.and_comm]

theorem noAnswerCnt_eq_filter (H : List Hyp) (n c r w i j k : ℕ) :
    noAnswerCnt H n c r w i j k =
      ((H.filter (fun h => firstResponder n c r w h == none)).map
        Hyp.env).countP (fun e => e == (i, j, k)) := by
  rw [List.countP_map, List.countP_filter]
  unfold noAnswerCnt
  refine List.countP_congr fun h _ => ?_
  simp [Function.comp, Bool.and_comm]

/-- `entOf` of a tensor supported on three distinct in-box cells. -/
theorem entOf_threePoint (e1 e2 e3 : ℕ × ℕ × ℕ) (a b c : ℕ)
    (hb1 : e1.1 < NCHARS ∧ e1.2.1 < NROOMS ∧ e1.2.2 < NWEAPS)
    (hb2 : e2.1 < NCHARS ∧ e2.2.1 < NROOMS ∧ e2.2.2 < NWEAPS)
    (hb3 : e3.1 < NCHARS ∧ e3.2.1 < NROOMS ∧ e3.2.2 < NWEAPS)
    (h12 : e1 ≠ e2) (h13 : e1 ≠ e3) (h23 : e2 ≠ e3) :
    entOf (fun i j k => (if e1 = (i, j, k) then a else 0) +
        (if e2 = (i, j, k) then b else 0) +
        (if e3 = (i, j, k) then c else 0)) =
      Real.negMulLog ((a : ℝ) / ((a + b + c : ℕ) : ℝ)) +
        Real.negMulLog ((b : ℝ) / ((a + b + c : ℕ) : ℝ)) +
        Real.negMulLog ((c : ℝ) / ((a + b + c : ℕ) : ℝ)) := by
  have htot : tot3 (fun i j k => (if e1 = (i, j, k) then a else 0) +
      (if e2 = (i, j, k) then b else 0) +
      (if e3 = (i, j, k) then c else 0)) = a + b + c := by
    rw [tot3_add (fun i j k => (if e1 = (i, j, k) then a else 0) +
        (if e2 = (i, j, k) then b else 0))
      (fun i j k => if e3 = (i, j, k) then c else 0)]
    rw [tot3_add (fun i j k => if e1 = (i, j, k) then a else 0)
      (fun i j k => if e2 = (i, j, k) then b else 0)]
    rw [tot3_pointMass e1 a hb1, tot3_pointMass e2 b hb2,
      tot3_pointMass e3 c hb3]
  have hterm : ∀ i j k : ℕ,
      Real.negMulLog ((((if e1 = (i, j, k) then a else 0) +
          (if e2 = (i, j, k) then b else 0) +
          (if e3 = (i, j, k) then c else 0) : ℕ) : ℝ) /
        ((a + b + c : ℕ) : ℝ)) =
      (if e1 = (i, j, k) then
          Real.negMulLog ((a : ℝ) / ((a + b + c : ℕ) : ℝ)) else 0) +
        (if e2 = (i, j, k) then
          Real.negMulLog ((b : ℝ) / ((a + b + c : ℕ) : ℝ)) else 0) +
        (if e3 = (i, j, k) then
          Real.negMulLog ((c : ℝ) / ((a + b + c : ℕ) : ℝ)) else 0) := by
    intro i j k
    by_cases q1 : e1 = (i, j, k)
    · have q2 : ¬ e2 = (i, j, k) := fun h => h12 (q1.trans h.symm)
      have q3 : ¬ e3 = (i, j, k) := fun h => h13 (q1.trans h.symm)
      rw [if_pos q1, if_pos q1, if_neg q2, if_neg q2, if_neg q3, if_neg q3]
      simp
    · by_cases q2 : e2 = (i, j, k)
      · have q3 : ¬ e3 = (i, j, k) := fun h => h23 (q2.trans h.symm)
        rw [if_neg q1, if_neg q1, if_pos q2, if_pos q2, if_neg q3, if_neg q3]
        simp
      · by_cases q3 : e3 = (i, j, k)
        · rw [if_neg q1, if_neg q1, if_neg q2, if_neg q2, if_pos q3,
            if_pos q3]
          simp
        · rw [if_neg q1, if_neg q1, if_neg q2, if_neg q2, if_neg q3,
            if_neg q3]
          simp
  unfold entOf
  rw [htot]
  calc (∑ i ∈ Finset.range NCHARS, ∑ j ∈ Finset.range NROOMS,
        ∑ k ∈ Finset.range NWEAPS,
          Real.negMulLog ((((if e1 = (i, j, k) then a else 0) +
            (if e2 = (i, j, k) then b else 0) +
            (if e3 = (i, j, k) then c else 0) : ℕ) : ℝ) /
          ((a + b + c : ℕ) : ℝ)))
      = ∑ i ∈ Finset.range NCHARS, ∑ j ∈ Finset.range NROOMS,
          ∑ k ∈ Finset.range NWEAPS,
            ((if e1 = (i, j, k) then
                Real.negMulLog ((a : ℝ) / ((a + b + c : ℕ) : ℝ)) else 0) +
              (if e2 = (i, j, k) then
                Real.negMulLog ((b : ℝ) / ((a + b + c : ℕ) : ℝ)) else 0) +
              (if e3 = (i, j, k) then
                Real.negMulLog ((c : ℝ) / ((a + b + c : ℕ) : ℝ)) else 0)) :=
        Finset.sum_congr rfl fun i _ => Finset.sum_congr rfl fun j _ =>
          Finset.sum_congr rfl fun k _ => hterm i j k
    _ = Real.negMulLog ((a : ℝ) / ((a + b + c : ℕ) : ℝ)) +
          Real.negMulLog ((b : ℝ) / ((a + b + c : ℕ) : ℝ)) +
          Real.negMulLog ((c : ℝ) / ((a + b + c : ℕ) : ℝ)) := by
        simp only [Finset.sum_add_distrib]
        rw [sum_box_pointMass e1, sum_box_pointMass e2, sum_box_pointMass e3,
          if_pos hb1, if_pos hb2, if_pos hb3]

/-- `entOf` of a tensor supported on a single in-box cell vanishes. -/
theorem entOf_pointMass (e : ℕ × ℕ × ℕ) (a : ℕ)
    (hb : e.1 < NCHARS ∧ e.2.1 < NROOMS ∧ e.2.2 < NWEAPS) (ha : 0 < a) :
    entOf (fun i j k => if e = (i, j, k) then a else 0) = 0 := by
  unfold entOf
  rw [tot3_pointMass e a hb]
  refine Finset.sum_eq_zero fun i _ => Finset.sum_eq_zero fun j _ =>
    Finset.sum_eq_zero fun k _ => ?_
  show Real.negMulLog (((if e = (i, j, k) then a else 0 : ℕ) : ℝ) / (a : ℝ))
    = 0
  by_cases q : e = (i, j, k)
  · rw [if_pos q, div_self (by exact_mod_cast ha.ne')]
    exact Real.negMulLog_one
  · rw [if_neg q]
    simp

/-! ## Evaluation of `suggestionexpposteriors` on the pool `CE4`,
suggestion `(0, 6, 15)`, three players -/

theorem ce4_map_m3 :
    (CE4.filter (fun h => firstResponder 3 0 6 15 h == some (1, 3))).map
      Hyp.env = [(1, 1, 1), (1, 2, 1)] := by decide

theorem ce4_map_m2 :
    (CE4.filter (fun h => firstResponder 3 0 6 15 h == some (1, 2))).map
      Hyp.env = List.replicate 10 (0, 1, 1) := by decide

theorem ce4_filter_other : ∀ m ∈ ([1, 4, 5, 6, 7] : List ℕ),
    CE4.filter (fun h => firstResponder 3 0 6 15 h == some (1, m)) = [] := by
  decide

theorem ce4_noans :
    CE4.filter (fun h => firstResponder 3 0 6 15 h == none) = [] := by decide

theorem ce4_fst : ∀ h ∈ CE4,
    (firstResponder 3 0 6 15 h).map Prod.fst = some 1 := by decide

theorem ce4_env :
    CE4.map Hyp.env = (1, 1, 1) :: (1, 2, 1) :: List.replicate 10 (0, 1, 1)
    := by decide

theorem ce4_A0 : afterAnswerCnt CE4 3 0 6 15 1 0 = fun i j k =>
    (if ((1, 1, 1) : ℕ × ℕ × ℕ) = (i, j, k) then 1 else 0) +
      (if ((1, 2, 1) : ℕ × ℕ × ℕ) = (i, j, k) then 1 else 0) +
      (if ((2, 2, 2) : ℕ × ℕ × ℕ) = (i, j, k) then 0 else 0) := by
  funext i j k
  rw [afterAnswerCnt, (by decide : binsFor 0 = ({1, 3, 5, 7} : Finset ℕ))]
  rw [Finset.sum_insert (by decide), Finset.sum_insert (by decide),
    Finset.sum_insert (by decide), Finset.sum_singleton]
  rw [sortedCnt_eq_filter CE4 3 0 6 15 1 1,
    sortedCnt_eq_filter CE4 3 0 6 15 1 3,
    sortedCnt_eq_filter CE4 3 0 6 15 1 5,
    sortedCnt_eq_filter CE4 3 0 6 15 1 7]
  rw [ce4_filter_other 1 (by decide), ce4_filter_other 5 (by decide),
    ce4_filter_other 7 (by decide), ce4_map_m3]
  rw [countP_env_cons, countP_env_cons]
  simp only [List.map_nil, List.countP_nil, ite_self]
  ring

theorem ce4_A1 : afterAnswerCnt CE4 3 0 6 15 1 1 = fun i j k =>
    (if ((0, 1, 1) : ℕ × ℕ × ℕ) = (i, j, k) then 10 else 0) +
      (if ((1, 1, 1) : ℕ × ℕ × ℕ) = (i, j, k) then 1 else 0) +
      (if ((1, 2, 1) : ℕ × ℕ × ℕ) = (i, j, k) then 1 else 0) := by
  funext i j k
  rw [afterAnswerCnt, (by decide : binsFor 1 = ({2, 3, 6, 7} : Finset ℕ))]
  rw [Finset.sum_insert (by decide), Finset.sum_insert (by decide),
    Finset.sum_insert (by decide), Finset.sum_singleton]
  rw [sortedCnt_eq_filter CE4 3 0 6 15 1 2,
    sortedCnt_eq_filter CE4 3 0 6 15 1 3,
    sortedCnt_eq_filter CE4 3 0 6 15 1 6,
    sortedCnt_eq_filter CE4 3 0 6 15 1 7]
  rw [ce4_filter_other 6 (by decide), ce4_filter_other 7 (by decide),
    ce4_map_m2, ce4_map_m3]
  rw [countP_env_replicate, countP_env_cons, countP_env_cons]
  simp only [List.map_nil, List.countP_nil]
  ring

theorem ce4_A2 : afterAnswerCnt CE4 3 0 6 15 1 2 = fun _ _ _ => 0 := by
  funext i j k
  rw [afterAnswerCnt, (by decide : binsFor 2 = ({4, 5, 6, 7} : Finset ℕ))]
  rw [Finset.sum_insert (by decide), Finset.sum_insert (by decide),
    Finset.sum_insert (by decide), Finset.sum_singleton]
  rw [sortedCnt_eq_filter CE4 3 0 6 15 1 4,
    sortedCnt_eq_filter CE4 3 0 6 15 1 5,
    sortedCnt_eq_filter CE4 3 0 6 15 1 6,
    sortedCnt_eq_filter CE4 3 0 6 15 1 7]
  rw [ce4_filter_other 4 (by decide), ce4_filter_other 5 (by decide),
    ce4_filter_other 6 (by decide), ce4_filter_other 7 (by decide)]
  simp

theorem ce4_NA : noAnswerCnt CE4 3 0 6 15 = fun _ _ _ => 0 := by
  funext i j k
  rw [noAnswerCnt_eq_filter, ce4_noans]
  simp

theorem ce4_S2 : ∀ m i j k : ℕ, sortedCnt CE4 3 0 6 15 2 m i j k = 0 := by
  intro m i j k
  unfold sortedCnt
  refine List.countP_eq_zero.mpr fun h hm => ?_
  intro hpred
  simp only [Bool.and_eq_true, beq_iff_eq] at hpred
  have hfst := ce4_fst h hm
  rw [hpred.1] at hfst
  simp at hfst

theorem hval_lt_log_two :
    Real.negMulLog ((10 : ℝ) / 12) + Real.negMulLog ((1 : ℝ) / 12) +
      Real.negMulLog ((1 : ℝ) / 12) < Real.log 2 := by
  have l1 : Real.log 46656 < Real.log 100000 :=
    Real.log_lt_log (by norm_num) (by norm_num)
  have l2 : Real.log 46656 = 6 * Real.log 6 := by
    rw [show (46656 : ℝ) = 6 ^ 6 by norm_num, Real.log_pow]
    push_cast
    ring
  have l3 : Real.log 100000 = 5 * Real.log 10 := by
    rw [show (100000 : ℝ) = 10 ^ 5 by norm_num, Real.log_pow]
    push_cast
    ring
  have l4 : Real.log 12 = Real.log 2 + Real.log 6 := by
    rw [show (12 : ℝ) = 2 * 6 by norm_num,
      Real.log_mul (by norm_num) (by norm_num)]
  have l5 : Real.log ((10 : ℝ) / 12) = Real.log 10 - Real.log 12 :=
    Real.log_div (by norm_num) (by norm_num)
  have l6 : Real.log ((1 : ℝ) / 12) = -Real.log 12 := by
    rw [show (1 : ℝ) / 12 = 12⁻¹ by norm_num, Real.log_inv]
  simp only [Real.negMulLog, l5, l6]
  nlinarith [l1, l2, l3, l4]

theorem hval_pos :
    0 < Real.negMulLog ((10 : ℝ) / 12) + Real.negMulLog ((1 : ℝ) / 12) +
      Real.negMulLog ((1 : ℝ) / 12) := by
  have l1 : Real.log 100000 < Real.log 2985984 :=
    Real.log_lt_log (by norm_num) (by norm_num)
  have l3 : Real.log 100000 = 5 * Real.log 10 := by
    rw [show (100000 : ℝ) = 10 ^ 5 by norm_num, Real.log_pow]
    push_cast
    ring
  have l8 : Real.log 2985984 = 6 * Real.log 12 := by
    rw [show (2985984 : ℝ) = 12 ^ 6 by norm_num, Real.log_pow]
    push_cast
    ring
  have l5 : Real.log ((10 : ℝ) / 12) = Real.log 10 - Real.log 12 :=
    Real.log_div (by norm_num) (by norm_num)
  have l6 : Real.log ((1 : ℝ) / 12) = -Real.log 12 := by
    rw [show (1 : ℝ) / 12 = 12⁻¹ by norm_num, Real.log_inv]
  simp only [Real.negMulLog, l5, l6]
  nlinarith [l1, l3, l8]

theorem ce4_e0 : entAfterAnswer CE4 3 0 6 15 1 0 = Real.log 2 := by
  rw [entAfterAnswer, ce4_A0,
    entOf_threePoint (1, 1, 1) (1, 2, 1) (2, 2, 2) 1 1 0 (by decide)
      (by decide) (by decide) (by decide) (by decide) (by decide)]
  push_cast
  rw [zero_div, Real.negMulLog_zero, add_zero]
  simp only [Real.negMulLog]
  rw [show (1 : ℝ) / 2 = 2⁻¹ by norm_num, Real.log_inv]
  ring

theorem ce4_e1 : entAfterAnswer CE4 3 0 6 15 1 1 =
    Real.negMulLog ((10 : ℝ) / 12) + Real.negMulLog ((1 : ℝ) / 12) +
      Real.negMulLog ((1 : ℝ) / 12) := by
  rw [entAfterAnswer, ce4_A1,
    entOf_threePoint (0, 1, 1) (1, 1, 1) (1, 2, 1) 10 1 1 (by decide)
      (by decide) (by decide) (by decide) (by decide) (by decide)]
  norm_num

theorem ce4_e2 : entAfterAnswer CE4 3 0 6 15 1 2 = 0 := by
  rw [entAfterAnswer, ce4_A2]
  exact entOf_zero fun _ _ _ _ _ _ => rfl

theorem ce4_pref : prefOrder (entAfterAnswer CE4 3 0 6 15 1) = [0, 1, 2] := by
  have h01 : argBeats (entAfterAnswer CE4 3 0 6 15 1) 0 1 :=
    Or.inl (by rw [ce4_e0, ce4_e1]; exact hval_lt_log_two)
  have h02 : argBeats (entAfterAnswer CE4 3 0 6 15 1) 0 2 :=
    Or.inl (by rw [ce4_e0, ce4_e2]; exact Real.log_pos (by norm_num))
  have h12 : argBeats (entAfterAnswer CE4 3 0 6 15 1) 1 2 :=
    Or.inl (by rw [ce4_e1, ce4_e2]; exact hval_pos)
  rw [prefOrder, if_pos h01, if_pos h02, if_pos h12]

theorem ce4_T10 : totalReceivedCnt CE4 3 0 6 15 1 0 = 2 := by
  have hR : receivedCnt CE4 3 0 6 15 1 0 = afterAnswerCnt CE4 3 0 6 15 1 0
      := by
    funext i j k
    rw [receivedCnt, ce4_pref,
      (by decide : (Finset.Ico 1 8).filter
        (fun m => assignedResp m [0, 1, 2] = 0) = ({1, 3, 5, 7} : Finset ℕ)),
      afterAnswerCnt, (by decide : binsFor 0 = ({1, 3, 5, 7} : Finset ℕ))]
  rw [totalReceivedCnt, hR, ce4_A0]
  rw [tot3_add (fun i j k =>
      (if ((1, 1, 1) : ℕ × ℕ × ℕ) = (i, j, k) then 1 else 0) +
        (if ((1, 2, 1) : ℕ × ℕ × ℕ) = (i, j, k) then 1 else 0))
    (fun i j k => if ((2, 2, 2) : ℕ × ℕ × ℕ) = (i, j, k) then 0 else 0)]
  rw [tot3_add (fun i j k =>
      if ((1, 1, 1) : ℕ × ℕ × ℕ) = (i, j, k) then 1 else 0)
    (fun i j k => if ((1, 2, 1) : ℕ × ℕ × ℕ) = (i, j, k) then 1 else 0)]
  rw [tot3_pointMass (1, 1, 1) 1 (by decide),
    tot3_pointMass (1, 2, 1) 1 (by decide),
    tot3_pointMass (2, 2, 2) 0 (by decide)]

theorem ce4_T11 : totalReceivedCnt CE4 3 0 6 15 1 1 = 10 := by
  have hR : receivedCnt CE4 3 0 6 15 1 1 =
      fun i j k => if ((0, 1, 1) : ℕ × ℕ × ℕ) = (i, j, k) then 10 else 0
      := by
    funext i j k
    rw [receivedCnt, ce4_pref,
      (by decide : (Finset.Ico 1 8).filter
        (fun m => assignedResp m [0, 1, 2] = 1) = ({2, 6} : Finset ℕ))]
    rw [Finset.sum_insert (by decide), Finset.sum_singleton]
    rw [sortedCnt_eq_filter CE4 3 0 6 15 1 2,
      sortedCnt_eq_filter CE4 3 0 6 15 1 6,
      ce4_map_m2, ce4_filter_other 6 (by decide)]
    rw [countP_env_replicate]
    simp
  rw [totalReceivedCnt, hR, tot3_pointMass (0, 1, 1) 10 (by decide)]

theorem ce4_T12 : totalReceivedCnt CE4 3 0 6 15 1 2 = 0 := by
  have hR : receivedCnt CE4 3 0 6 15 1 2 = fun _ _ _ => 0 := by
    funext i j k
    rw [receivedCnt, ce4_pref,
      (by decide : (Finset.Ico 1 8).filter
        (fun m => assignedResp m [0, 1, 2] = 2) = ({4} : Finset ℕ))]
    rw [Finset.sum_singleton, sortedCnt_eq_filter CE4 3 0 6 15 1 4,
      ce4_filter_other 4 (by decide)]
    simp
  rw [totalReceivedCnt, hR]
  simp [tot3]

theorem ce4_T2 : ∀ r' : ℕ, totalReceivedCnt CE4 3 0 6 15 2 r' = 0 := by
  intro r'
  have hR : receivedCnt CE4 3 0 6 15 2 r' = fun _ _ _ => 0 := by
    funext i j k
    rw [receivedCnt]
    exact Finset.sum_eq_zero fun m _ => ce4_S2 m i j k
  rw [totalReceivedCnt, hR]
  simp [tot3]

theorem ce4_prior : statsfromcountsEntropy (scenarioCounts CE4) =
    Real.negMulLog ((10 : ℝ) / 12) + Real.negMulLog ((1 : ℝ) / 12) +
      Real.negMulLog ((1 : ℝ) / 12) := by
  rw [statsEntropy_scenarioCounts]
  have hcnt : (fun i j k => CE4.countP (fun h => h.env == (i, j, k))) =
      fun i j k =>
        (if ((0, 1, 1) : ℕ × ℕ × ℕ) = (i, j, k) then 10 else 0) +
          (if ((1, 1, 1) : ℕ × ℕ × ℕ) = (i, j, k) then 1 else 0) +
          (if ((1, 2, 1) : ℕ × ℕ × ℕ) = (i, j, k) then 1 else 0) := by
    funext i j k
    rw [countP_map_env, ce4_env, countP_env_cons, countP_env_cons,
      countP_env_replicate]
    ring
  rw [hcnt, entOf_threePoint (0, 1, 1) (1, 1, 1) (1, 2, 1) 10 1 1 (by decide)
    (by decide) (by decide) (by decide) (by decide) (by decide)]
  norm_num

/-- C4 (counterexample).  On the twelve-hypothesis three-player pool `CE4`
and the suggestion `(0, 6, 15)`, the `expEntropy` value returned by
`suggestionexpposteriors` is strictly greater than the prior scenario
entropy of the same pool, refuting the claimed expected-entropy
monotonicity: the post-answer entropies are computed from the A-buckets
(every bitmask bin containing the shown card type) while the outcome
weights come from the received partition, so the weighted values need not
average below the prior. -/
theorem sugexp_entropy_gt_prior_ce :
    statsfromcountsEntropy (scenarioCounts CE4) <
      sugExpEntropy CE4 3 0 6 15 := by
  rw [ce4_prior, sugExpEntropy]
  rw [show (CE4.length : ℝ) = 12 by norm_num [CE4]]
  rw [entNoAnswer, ce4_NA,
    entOf_zero (f := fun _ _ _ => 0) (fun _ _ _ _ _ _ => rfl),
    show tot3 (fun _ _ _ => (0 : ℕ)) = 0 by simp [tot3]]
  rw [show Finset.Ico 1 3 = ({1, 2} : Finset ℕ) by decide]
  rw [Finset.sum_insert (by decide), Finset.sum_singleton]
  simp only [Finset.sum_range_succ, Finset.sum_range_zero]
  rw [ce4_e0, ce4_e1, ce4_e2, ce4_T10, ce4_T11, ce4_T12, ce4_T2 0, ce4_T2 1,
    ce4_T2 2]
  have hlt := hval_lt_log_two
  rw [lt_div_iff (by norm_num : (0 : ℝ) < 12)]
  push_cast
  ring_nf
  nlinarith [hlt]

/-! ## Evaluation of `core` vs `parcore` on the pool `CE6`,
suggestion `(0, 6, 15)` -/

theorem ce6_noans_par :
    (CE6.filter (fun h => firstResponder 1 0 6 15 h == none)).map Hyp.env =
      [(1, 1, 1), (0, 1, 1)] := by decide

theorem ce6_NA_par : noAnswerCnt CE6 1 0 6 15 = fun i j k =>
    (if ((1, 1, 1) : ℕ × ℕ × ℕ) = (i, j, k) then 1 else 0) +
      (if ((0, 1, 1) : ℕ × ℕ × ℕ) = (i, j, k) then 1 else 0) +
      (if ((2, 2, 2) : ℕ × ℕ × ℕ) = (i, j, k) then 0 else 0) := by
  funext i j k
  rw [noAnswerCnt_eq_filter, ce6_noans_par, countP_env_cons, countP_env_cons]
  simp only [List.countP_nil, ite_self]
  ring

theorem ce6_parcore : parcore_sugExpEntropy CE6 0 6 15 = Real.log 2 := by
  rw [parcore_sugExpEntropy, show CE6.length - 1 = 1 from rfl, sugExpEntropy]
  rw [show (CE6.length : ℝ) = 2 by norm_num [CE6]]
  rw [entNoAnswer, ce6_NA_par,
    entOf_threePoint (1, 1, 1) (0, 1, 1) (2, 2, 2) 1 1 0 (by decide)
      (by decide) (by decide) (by decide) (by decide) (by decide)]
  rw [tot3_add (fun i j k =>
      (if ((1, 1, 1) : ℕ × ℕ × ℕ) = (i, j, k) then 1 else 0) +
        (if ((0, 1, 1) : ℕ × ℕ × ℕ) = (i, j, k) then 1 else 0))
    (fun i j k => if ((2, 2, 2) : ℕ × ℕ × ℕ) = (i, j, k) then 0 else 0)]
  rw [tot3_add (fun i j k =>
      if ((1, 1, 1) : ℕ × ℕ × ℕ) = (i, j, k) then 1 else 0)
    (fun i j k => if ((0, 1, 1) : ℕ × ℕ × ℕ) = (i, j, k) then 1 else 0)]
  rw [tot3_pointMass (1, 1, 1) 1 (by decide),
    tot3_pointMass (0, 1, 1) 1 (by decide),
    tot3_pointMass (2, 2, 2) 0 (by decide)]
  rw [Finset.Ico_self, Finset.sum_empty]
  push_cast
  rw [zero_div, Real.negMulLog_zero, add_zero]
  simp only [Real.negMulLog]
  rw [show (1 : ℝ) / 2 = 2⁻¹ by norm_num, Real.log_inv]
  ring

theorem ce6_map_m1 :
    (CE6.filter (fun h => firstResponder 3 0 6 15 h == some (1, 1))).map
      Hyp.env = [(1, 1, 1)] := by decide

theorem ce6_filter_other : ∀ m ∈ ([2, 3, 4, 5, 6, 7] : List ℕ),
    CE6.filter (fun h => firstResponder 3 0 6 15 h == some (1, m)) = [] := by
  decide

theorem ce6_noans_core :
    (CE6.filter (fun h => firstResponder 3 0 6 15 h == none)).map Hyp.env =
      [(0, 1, 1)] := by decide

theorem ce6_nfst : ∀ h ∈ CE6,
    (firstResponder 3 0 6 15 h).map Prod.fst ≠ some 2 := by decide

theorem ce6_A0 : afterAnswerCnt CE6 3 0 6 15 1 0 = fun i j k =>
    if ((1, 1, 1) : ℕ × ℕ × ℕ) = (i, j, k) then 1 else 0 := by
  funext i j k
  rw [afterAnswerCnt, (by decide : binsFor 0 = ({1, 3, 5, 7} : Finset ℕ))]
  rw [Finset.sum_insert (by decide), Finset.sum_insert (by decide),
    Finset.sum_insert (by decide), Finset.sum_singleton]
  rw [sortedCnt_eq_filter CE6 3 0 6 15 1 1,
    sortedCnt_eq_filter CE6 3 0 6 15 1 3,
    sortedCnt_eq_filter CE6 3 0 6 15 1 5,
    sortedCnt_eq_filter CE6 3 0 6 15 1 7]
  rw [ce6_map_m1, ce6_filter_other 3 (by decide),
    ce6_filter_other 5 (by decide), ce6_filter_other 7 (by decide)]
  rw [countP_env_cons]
  simp

theorem ce6_A1 : afterAnswerCnt CE6 3 0 6 15 1 1 = fun _ _ _ => 0 := by
  funext i j k
  rw [afterAnswerCnt, (by decide : binsFor 1 = ({2, 3, 6, 7} : Finset ℕ))]
  rw [Finset.sum_insert (by decide), Finset.sum_insert (by decide),
    Finset.sum_insert (by decide), Finset.sum_singleton]
  rw [sortedCnt_eq_filter CE6 3 0 6 15 1 2,
    sortedCnt_eq_filter CE6 3 0 6 15 1 3,
    sortedCnt_eq_filter CE6 3 0 6 15 1 6,
    sortedCnt_eq_filter CE6 3 0 6 15 1 7]
  rw [ce6_filter_other 2 (by decide), ce6_filter_other 3 (by decide),
    ce6_filter_other 6 (by decide), ce6_filter_other 7 (by decide)]
  simp

theorem ce6_A2 : afterAnswerCnt CE6 3 0 6 15 1 2 = fun _ _ _ => 0 := by
  funext i j k
  rw [afterAnswerCnt, (by decide : binsFor 2 = ({4, 5, 6, 7} : Finset ℕ))]
  rw [Finset.sum_insert (by decide), Finset.sum_insert (by decide),
    Finset.sum_insert (by decide), Finset.sum_singleton]
  rw [sortedCnt_eq_filter CE6 3 0 6 15 1 4,
    sortedCnt_eq_filter CE6 3 0 6 15 1 5,
    sortedCnt_eq_filter CE6 3 0 6 15 1 6,
    sortedCnt_eq_filter CE6 3 0 6 15 1 7]
  rw [ce6_filter_other 4 (by decide), ce6_filter_other 5 (by decide),
    ce6_filter_other 6 (by decide), ce6_filter_other 7 (by decide)]
  simp

theorem ce6_NA_core : noAnswerCnt CE6 3 0 6 15 = fun i j k =>
    if ((0, 1, 1) : ℕ × ℕ × ℕ) = (i, j, k) then 1 else 0 := by
  funext i j k
  rw [noAnswerCnt_eq_filter, ce6_noans_core, countP_env_cons]
  simp

theorem ce6_e0 : entAfterAnswer CE6 3 0 6 15 1 0 = 0 := by
  rw [entAfterAnswer, ce6_A0]
  exact entOf_pointMass (1, 1, 1) 1 (by decide) (by decide)

theorem ce6_e1 : entAfterAnswer CE6 3 0 6 15 1 1 = 0 := by
  rw [entAfterAnswer, ce6_A1]
  exact entOf_zero fun _ _ _ _ _ _ => rfl

theorem ce6_e2 : entAfterAnswer CE6 3 0 6 15 1 2 = 0 := by
  rw [entAfterAnswer, ce6_A2]
  exact entOf_zero fun _ _ _ _ _ _ => rfl

theorem ce6_pref : prefOrder (entAfterAnswer CE6 3 0 6 15 1) = [2, 1, 0] := by
  have h01 : ¬ argBeats (entAfterAnswer CE6 3 0 6 15 1) 0 1 := by
    intro h
    rcases h with h | ⟨_, h⟩
    · rw [ce6_e0, ce6_e1] at h
      exact lt_irrefl 0 h
    · omega
  have h12 : ¬ argBeats (entAfterAnswer CE6 3 0 6 15 1) 1 2 := by
    intro h
    rcases h with h | ⟨_, h⟩
    · rw [ce6_e1, ce6_e2] at h
      exact lt_irrefl 0 h
    · omega
  rw [prefOrder, if_neg h01, if_neg h12]

theorem ce6_T10 : totalReceivedCnt CE6 3 0 6 15 1 0 = 1 := by
  have hR : receivedCnt CE6 3 0 6 15 1 0 =
      fun i j k => if ((1, 1, 1) : ℕ × ℕ × ℕ) = (i, j, k) then 1 else 0
      := by
    funext i j k
    rw [receivedCnt, ce6_pref,
      (by decide : (Finset.Ico 1 8).filter
        (fun m => assignedResp m [2, 1, 0] = 0) = ({1} : Finset ℕ))]
    rw [Finset.sum_singleton, sortedCnt_eq_filter CE6 3 0 6 15 1 1,
      ce6_map_m1, countP_env_cons]
    simp
  rw [totalReceivedCnt, hR, tot3_pointMass (1, 1, 1) 1 (by decide)]

theorem ce6_T11 : totalReceivedCnt CE6 3 0 6 15 1 1 = 0 := by
  have hR : receivedCnt CE6 3 0 6 15 1 1 = fun _ _ _ => 0 := by
    funext i j k
    rw [receivedCnt, ce6_pref,
      (by decide : (Finset.Ico 1 8).filter
        (fun m => assignedResp m [2, 1, 0] = 1) = ({2, 3} : Finset ℕ))]
    rw [Finset.sum_insert (by decide), Finset.sum_singleton]
    rw [sortedCnt_eq_filter CE6 3 0 6 15 1 2,
      sortedCnt_eq_filter CE6 3 0 6 15 1 3,
      ce6_filter_other 2 (by decide), ce6_filter_other 3 (by decide)]
    simp
  rw [totalReceivedCnt, hR]
  simp [tot3]

theorem ce6_T12 : totalReceivedCnt CE6 3 0 6 15 1 2 = 0 := by
  have hR : receivedCnt CE6 3 0 6 15 1 2 = fun _ _ _ => 0 := by
    funext i j k
    rw [receivedCnt, ce6_pref,
      (by decide : (Finset.Ico 1 8).filter
        (fun m => assignedResp m [2, 1, 0] = 2) = ({4, 5, 6, 7} : Finset ℕ))]
    rw [Finset.sum_insert (by decide), Finset.sum_insert (by decide),
      Finset.sum_insert (by decide), Finset.sum_singleton]
    rw [sortedCnt_eq_filter CE6 3 0 6 15 1 4,
      sortedCnt_eq_filter CE6 3 0 6 15 1 5,
      sortedCnt_eq_filter CE6 3 0 6 15 1 6,
      sortedCnt_eq_filter CE6 3 0 6 15 1 7]
    rw [ce6_filter_other 4 (by decide), ce6_filter_other 5 (by decide),
      ce6_filter_other 6 (by decide), ce6_filter_other 7 (by decide)]
    simp
  rw [totalReceivedCnt, hR]
  simp [tot3]

theorem ce6_S2 : ∀ m i j k : ℕ, sortedCnt CE6 3 0 6 15 2 m i j k = 0 := by
  intro m i j k
  unfold sortedCnt
  refine List.countP_eq_zero.mpr fun h hm => ?_
  intro hpred
  simp only [Bool.and_eq_true, beq_iff_eq] at hpred
  have hfst := ce6_nfst h hm
  rw [hpred.1] at hfst
  simp at hfst

theorem ce6_T2 : ∀ r' : ℕ, totalReceivedCnt CE6 3 0 6 15 2 r' = 0 := by
  intro r'
  have hR : receivedCnt CE6 3 0 6 15 2 r' = fun _ _ _ => 0 := by
    funext i j k
    rw [receivedCnt]
    exact Finset.sum_eq_zero fun m _ => ce6_S2 m i j k
  rw [totalReceivedCnt, hR]
  simp [tot3]

theorem ce6_core : sugExpEntropy CE6 3 0 6 15 = 0 := by
  rw [sugExpEntropy, show (CE6.length : ℝ) = 2 by norm_num [CE6]]
  rw [entNoAnswer, ce6_NA_core,
    entOf_pointMass (0, 1, 1) 1 (by decide) (by decide)]
  rw [show Finset.Ico 1 3 = ({1, 2} : Finset ℕ) by decide,
    Finset.sum_insert (by decide), Finset.sum_singleton]
  simp only [Finset.sum_range_succ, Finset.sum_range_zero]
  rw [ce6_e0, ce6_e1, ce6_e2, ce6_T10, ce6_T11, ce6_T12, ce6_T2 0, ce6_T2 1,
    ce6_T2 2]
  push_cast
  ring

/-- C6.  `parcore.suggestionexpposteriors` does not agree with the
`Detective` method: `parcore` derives the player count from the length of
the hypothesis list (`nPlayers = len(hypotheses) - 1`) instead of the
game's player count, so on the two-hypothesis three-player pool `CE6` with
suggestion `(0, 6, 15)` it scans no responders at all and returns
`expEntropy = log 2`, while the sequential method returns `0`. -/
theorem parcore_neq_core_ce :
    parcore_sugExpEntropy CE6 0 6 15 = Real.log 2 ∧
      sugExpEntropy CE6 3 0 6 15 = 0 ∧
      parcore_sugExpEntropy CE6 0 6 15 ≠ sugExpEntropy CE6 3 0 6 15 := by
  refine ⟨ce6_parcore, ce6_core, ?_⟩
  rw [ce6_parcore, ce6_core]
  exact ne_of_gt (Real.log_pos (by norm_num))

/-- C2.  `event_accusationwrong` called with an explicit accused triple
evaluates `AccusationRecord(self.ixTurn, ...)` as its first recording step,
but no class of that name exists anywhere in the source: the call raises
`NameError` before appending to the log, removing any hypothesis, or
marking any player ousted — the state in the error is exactly the input
state.  The claimed removal/ousting behaviour therefore never happens. -/
theorem accusationwrong_always_raises (s : DState) (c r w : ℕ)
    (p : Option ℕ) :
    event_accusationwrong s (some c) (some r) (some w) p =
      .error (.nameError, s) := rfl

/-- C3.  Replay divergence of `event_unseenresponse`: after recording the
unseen answer `(0, 6, 15)` by player 1 on the state `S3`, the no-argument
replay call re-processes `logPasses[-1]` (a pass by player 1 on
`(2, 7, 16)`) instead of the just-recorded unseen answer, and removes a
hypothesis that re-processing the actual most recent unseen-answer entry
would keep. -/
theorem unseen_replay_diverges :
    ∃ s1 s2 s3 : DState,
      event_unseenresponse [] S3 (some 0) (some 6) (some 15) (some 1) none
        = .ok s1 ∧
      event_unseenresponse [] s1 none none none none none = .ok s2 ∧
      event_unseenresponse [] s1 (some 0) (some 6) (some 15) (some 1) none
        = .ok s3 ∧
      s1.logUnseenAnswers.getLast? = some ⟨0, 1, 0, 0, 6, 15⟩ ∧
      s2.hypotheses = [⟨[[], [0, 2], []], (1, 0, 0)⟩] ∧
      s3.hypotheses = S3.hypotheses ∧
      s2.hypotheses ≠ s3.hypotheses := by
  refine ⟨_, _, _, rfl, rfl, rfl, rfl, rfl, rfl, ?_⟩
  decide

/-! ## Frame lemmas for the event pipeline -/

theorem argmaxBy_mem (f : ℕ → ℕ) (l : List ℕ) (h : l ≠ []) :
    argmaxBy f l ∈ l := by
  have aux : ∀ (xs : List ℕ) (b : ℕ),
      xs.foldl (fun best y => if f best < f y then y else best) b = b ∨
      xs.foldl (fun best y => if f best < f y then y else best) b ∈ xs := by
    intro xs
    induction xs with
    | nil => intro b; exact Or.inl rfl
    | cons y ys ih =>
      intro b
      simp only [List.foldl_cons]
      by_cases hb : f b < f y
      · rw [if_pos hb]
        rcases ih y with h1 | h1
        · exact Or.inr (by rw [h1]; exact List.mem_cons_self y ys)
        · exact Or.inr (List.mem_cons_of_mem y h1)
      · rw [if_neg hb]
        rcases ih b with h1 | h1
        · exact Or.inl h1
        · exact Or.inr (List.mem_cons_of_mem y h1)
  cases l with
  | nil => exact absurd rfl h
  | cons x xs =>
    rcases aux xs x with h1 | h1
    · rw [argmaxBy, h1]; exact List.mem_cons_self x xs
    · rw [argmaxBy]; exact List.mem_cons_of_mem x h1

theorem mem_interCards {x : ℕ} {a b : List ℕ} :
    x ∈ interCards a b ↔ x ∈ a ∧ x ∈ b := by
  simp [interCards]

theorem getD_indexOf {l : List ℕ} {x : ℕ} (h : x ∈ l) :
    l.getD (l.indexOf x) 0 = x := by
  induction l with
  | nil => cases h
  | cons a t ih =>
    by_cases hax : a = x
    · simp [List.indexOf_cons, hax]
    · have hx : x ∈ t := by
        rcases List.mem_cons.mp h with h1 | h1
        · exact absurd h1.symm hax
        · exact h1
      have hb : (a == x) = false := beq_eq_false_iff_ne.mpr hax
      simp only [List.indexOf_cons, hb, cond_false, List.getD_cons_succ]
      exact ih hx

theorem foldForbid_frame (l : List ℕ) (t : DState) :
    ((l.foldl (fun u c => forbidCard u u.nPlayers c) t)).logPasses =
        t.logPasses ∧
      ((l.foldl (fun u c => forbidCard u u.nPlayers c) t)).logSeenAnswers =
        t.logSeenAnswers ∧
      ((l.foldl (fun u c => forbidCard u u.nPlayers c) t)).logUnseenAnswers =
        t.logUnseenAnswers ∧
      ((l.foldl (fun u c => forbidCard u u.nPlayers c) t)).hypotheses =
        t.hypotheses ∧
      ((l.foldl (fun u c => forbidCard u u.nPlayers c) t)).ixTurn =
        t.ixTurn := by
  induction l generalizing t with
  | nil => exact ⟨rfl, rfl, rfl, rfl, rfl⟩
  | cons c cs ih => simpa using ih (forbidCard t t.nPlayers c)

theorem passForbidOne_frame (s : DState) (a c : ℕ) (fam : List ℕ) :
    (passForbidOne s a c fam).logPasses = s.logPasses ∧
      (passForbidOne s a c fam).logSeenAnswers = s.logSeenAnswers ∧
      (passForbidOne s a c fam).logUnseenAnswers = s.logUnseenAnswers ∧
      (passForbidOne s a c fam).hypotheses = s.hypotheses ∧
      (passForbidOne s a c fam).ixTurn = s.ixTurn := by
  simp only [passForbidOne]
  split
  · simpa using foldForbid_frame (fam.filter (fun x => x ≠ c))
      (forbidCard s a c)
  · exact ⟨rfl, rfl, rfl, rfl, rfl⟩

theorem event_pass_apply_frame (s : DState) (e : EventPass) :
    (event_pass_apply s e).logPasses = s.logPasses ∧
      (event_pass_apply s e).logSeenAnswers = s.logSeenAnswers ∧
      (event_pass_apply s e).logUnseenAnswers = s.logUnseenAnswers := by
  have h1 := passForbidOne_frame s e.actor e.character CHARS
  have h2 := passForbidOne_frame (passForbidOne s e.actor e.character CHARS)
    e.actor e.room ROOMS
  have h3 := passForbidOne_frame (passForbidOne (passForbidOne s
    e.actor e.character CHARS) e.actor e.room ROOMS) e.actor e.weapon WEAPS
  refine ⟨?_, ?_, ?_⟩
  · show (passForbidOne (passForbidOne (passForbidOne s
        e.actor e.character CHARS) e.actor e.room ROOMS) e.actor e.weapon
        WEAPS).logPasses = s.logPasses
    rw [h3.1, h2.1, h1.1]
  · show (passForbidOne (passForbidOne (passForbidOne s
        e.actor e.character CHARS) e.actor e.room ROOMS) e.actor e.weapon
        WEAPS).logSeenAnswers = s.logSeenAnswers
    rw [h3.2.1, h2.2.1, h1.2.1]
  · show (passForbidOne (passForbidOne (passForbidOne s
        e.actor e.character CHARS) e.actor e.room ROOMS) e.actor e.weapon
        WEAPS).logUnseenAnswers = s.logUnseenAnswers
    rw [h3.2.2.1, h2.2.2.1, h1.2.2.1]

theorem event_seen_apply_frame (s : DState) (e : EventSeenAnswer) :
    (event_seen_apply s e).logSeenAnswers = s.logSeenAnswers ∧
      (event_seen_apply s e).logPasses = s.logPasses ∧
      (event_seen_apply s e).logUnseenAnswers = s.logUnseenAnswers := by
  unfold event_seen_apply
  have aux : ∀ (l : List ℕ) (t : DState),
      ((l.foldl (fun t p =>
        if p ≠ e.actor then forbidCard t p e.card
        else
          { t with
            forbidden := fupd2 t.forbidden p e.card false
            forbiddenSets := fupd t.forbiddenSets p
              ((t.forbiddenSets p).filter (fun x => x ≠ e.card)) }) t)
        ).logSeenAnswers = t.logSeenAnswers ∧
      ((l.foldl (fun t p =>
        if p ≠ e.actor then forbidCard t p e.card
        else
          { t with
            forbidden := fupd2 t.forbidden p e.card false
            forbiddenSets := fupd t.forbiddenSets p
              ((t.forbiddenSets p).filter (fun x => x ≠ e.card)) }) t)
        ).logPasses = t.logPasses ∧
      ((l.foldl (fun t p =>
        if p ≠ e.actor then forbidCard t p e.card
        else
          { t with
            forbidden := fupd2 t.forbidden p e.card false
            forbiddenSets := fupd t.forbiddenSets p
              ((t.forbiddenSets p).filter (fun x => x ≠ e.card)) }) t)
        ).logUnseenAnswers = t.logUnseenAnswers ∧
      ((l.foldl (fun t p =>
        if p ≠ e.actor then forbidCard t p e.card
        else
          { t with
            forbidden := fupd2 t.forbidden p e.card false
            forbiddenSets := fupd t.forbiddenSets p
              ((t.forbiddenSets p).filter (fun x => x ≠ e.card)) }) t)
        ).hypotheses = t.hypotheses := by
    intro l
    induction l with
    | nil => intro t; exact ⟨rfl, rfl, rfl, rfl⟩
    | cons p ps ih =>
      intro t
      simp only [List.foldl_cons]
      by_cases hp : p ≠ e.actor
      · rw [if_pos hp]; simpa using ih (forbidCard t p e.card)
      · rw [if_neg hp]
        simpa using ih _
  have h := aux (List.range (s.nPlayers + 1)) s
  simp only [removeCounts]
  exact ⟨h.1, h.2.1, h.2.2.1⟩

theorem rebuildF_ok_frame (gen : List Hyp) (t u : DState)
    (h : rebuildF gen t = .ok u) :
    u.logSeenAnswers = t.logSeenAnswers ∧ u.logPasses = t.logPasses ∧
      u.logUnseenAnswers = t.logUnseenAnswers ∧ u.ixTurn = t.ixTurn := by
  unfold rebuildF at h
  split at h
  · injection h with h; subst h; exact ⟨rfl, rfl, rfl, rfl⟩
  · split at h
    · split at h
      · injection h with h; subst h; exact ⟨rfl, rfl, rfl, rfl⟩
      · cases h
    · injection h with h; subst h; exact ⟨rfl, rfl, rfl, rfl⟩

theorem finishEvent_ok_logs (gen : List Hyp) (t u : DState)
    (h : finishEvent gen t = .ok u) :
    u.logSeenAnswers = t.logSeenAnswers ∧ u.logPasses = t.logPasses ∧
      u.logUnseenAnswers = t.logUnseenAnswers ∧ u.ixTurn = t.ixTurn := by
  unfold finishEvent at h
  cases hr : rebuildF gen t with
  | error p => rw [hr] at h; simp [Except.map] at h
  | ok v =>
    rw [hr] at h
    simp only [Except.map] at h
    injection h with h
    subst h
    exact rebuildF_ok_frame gen t v hr

/-- C10.  `answersuggestion` shows a card exactly when the detective's hand
meets the suggested triple: whenever the call completes, if the
intersection of `myCardSet` with `{character, room, weapon}` is empty the
returned card is `NULLCARD` and a pass event by the detective on the triple
is appended (no seen-answer event); otherwise the returned card belongs to
both the detective's hand and the triple, and a seen-answer event with the
detective as shower and the suggester as consumer is appended (no pass
event).  (Hypothesis `hsync`: every card of `myCardSet` occurs in
`myCards`, which `initialise` guarantees by building both from the same
hand.) -/
theorem answersuggestion_spec (gen : List Hyp) (s : DState)
    (c r w sug : ℕ) (hsync : ∀ x ∈ s.myCardSet, x ∈ s.myCards) :
    ∀ card t, answersuggestion gen s c r w sug = .ok (card, t) →
      (interCards s.myCardSet [c, r, w] = [] →
        card = NULLCARD ∧
        t.logPasses = s.logPasses ++ [⟨s.ixTurn, 0, c, r, w⟩] ∧
        t.logSeenAnswers = s.logSeenAnswers) ∧
      (interCards s.myCardSet [c, r, w] ≠ [] →
        card ∈ s.myCardSet ∧ card ∈ [c, r, w] ∧
        t.logSeenAnswers = s.logSeenAnswers ++ [⟨s.ixTurn, 0, sug, card⟩] ∧
        t.logPasses = s.logPasses) := by
  intro card t h
  by_cases hc : interCards s.myCardSet [c, r, w] = []
  · refine ⟨fun _ => ?_, fun hne => absurd hc hne⟩
    have heq : answersuggestion gen s c r w sug =
        (event_pass_explicit gen s c r w 0).map (fun u => (NULLCARD, u)) := by
      simp only [answersuggestion, hc]
      rfl
    rw [heq] at h
    cases he : event_pass_explicit gen s c r w 0 with
    | error p => rw [he] at h; simp [Except.map] at h
    | ok t0 =>
      rw [he] at h
      simp only [Except.map, Except.ok.injEq, Prod.mk.injEq] at h
      obtain ⟨hcard, ht⟩ := h
      subst ht
      have hfin := finishEvent_ok_logs gen _ t0 he
      have happ := event_pass_apply_frame
        { s with logPasses := s.logPasses ++ [⟨s.ixTurn, 0, c, r, w⟩] }
        ⟨s.ixTurn, 0, c, r, w⟩
      exact ⟨hcard.symm, by rw [hfin.2.1, happ.1], by rw [hfin.1, happ.2.1]⟩
  · refine ⟨fun he => absurd he hc, fun _ => ?_⟩
    have hnemp : ((interCards s.myCardSet [c, r, w]).map
        (fun x => s.myCards.indexOf x)).isEmpty = false := by
      rcases List.exists_mem_of_ne_nil _ hc with ⟨x, hx⟩
      cases hmap : (interCards s.myCardSet [c, r, w]).map
          (fun x => s.myCards.indexOf x) with
      | nil =>
        exact absurd (List.map_eq_nil_iff.mp hmap ▸ hx) (List.not_mem_nil x)
      | cons y ys => rfl
    -- both answer branches produce a seen event with a card drawn from the
    -- showable indices
    have hmain : ∀ (s1 : DState) (ix : ℕ),
        s1.myCards = s.myCards → s1.myCardSet = s.myCardSet →
        s1.logSeenAnswers = s.logSeenAnswers →
        s1.logPasses = s.logPasses → s1.ixTurn = s.ixTurn →
        ix ∈ (interCards s.myCardSet [c, r, w]).map
          (fun x => s.myCards.indexOf x) →
        (event_seen_explicit gen s1 (s1.myCards.getD ix 0) 0 sug).map
          (fun u => (s1.myCards.getD ix 0, u)) = .ok (card, t) →
        card ∈ s.myCardSet ∧ card ∈ [c, r, w] ∧
          t.logSeenAnswers = s.logSeenAnswers ++
            [⟨s.ixTurn, 0, sug, card⟩] ∧
          t.logPasses = s.logPasses := by
      intro s1 ix hm hms hls hlp hit hix hcall
      rcases List.mem_map.mp hix with ⟨x, hxmem, hxeq⟩
      have hxset : x ∈ s.myCardSet := (mem_interCards.mp hxmem).1
      have hxtriple : x ∈ [c, r, w] := (mem_interCards.mp hxmem).2
      have hcardval : s1.myCards.getD ix 0 = x := by
        rw [hm, ← hxeq]
        exact getD_indexOf (hsync x hxset)
      cases he : event_seen_explicit gen s1 (s1.myCards.getD ix 0) 0 sug with
      | error p => rw [he] at hcall; simp [Except.map] at hcall
      | ok t0 =>
        rw [he] at hcall
        simp only [Except.map, Except.ok.injEq, Prod.mk.injEq] at hcall
        obtain ⟨hcard, ht⟩ := hcall
        subst ht
        have hfin := finishEvent_ok_logs gen _ t0 he
        have happ := event_seen_apply_frame
          { s1 with logSeenAnswers := s1.logSeenAnswers ++
              [⟨s1.ixTurn, 0, sug, s1.myCards.getD ix 0⟩] }
          ⟨s1.ixTurn, 0, sug, s1.myCards.getD ix 0⟩
      -- resulting logs
        refine ⟨?_, ?_, ?_, ?_⟩
        · rw [← hcard, hcardval]; exact hxset
        · rw [← hcard, hcardval]; exact hxtriple
        · rw [hfin.1, happ.1]
          show s1.logSeenAnswers ++ [⟨s1.ixTurn, 0, sug,
            s1.myCards.getD ix 0⟩] = _
          rw [hls, hit, ← hcard]
        · rw [hfin.2.1, happ.2.1]
          exact hlp
    by_cases hss : (((interCards s.myCardSet [c, r, w]).map
        (fun x => s.myCards.indexOf x)).filter (fun ix =>
          s.myCardsShownTo (sug - 1) ix)).isEmpty
    · have heq : answersuggestion gen s c r w sug =
          (event_seen_explicit gen
            { s with
              myCardsShownTo := fupd2 s.myCardsShownTo (sug - 1)
                (argmaxBy s.myCardsShownCounts
                  ((interCards s.myCardSet [c, r, w]).map
                    (fun x => s.myCards.indexOf x))) true
              myCardsShownCounts := fupd s.myCardsShownCounts
                (argmaxBy s.myCardsShownCounts
                  ((interCards s.myCardSet [c, r, w]).map
                    (fun x => s.myCards.indexOf x)))
                (s.myCardsShownCounts (argmaxBy s.myCardsShownCounts
                  ((interCards s.myCardSet [c, r, w]).map
                    (fun x => s.myCards.indexOf x))) + 1) }
            (s.myCards.getD (argmaxBy s.myCardsShownCounts
              ((interCards s.myCardSet [c, r, w]).map
                (fun x => s.myCards.indexOf x))) 0) 0 sug).map
          (fun u => (s.myCards.getD (argmaxBy s.myCardsShownCounts
            ((interCards s.myCardSet [c, r, w]).map
              (fun x => s.myCards.indexOf x))) 0, u)) := by
        simp only [answersuggestion, hnemp, hss]
        rfl
      rw [heq] at h
      refine hmain _ _ ?_ ?_ ?_ ?_ ?_ ?_ h
      · rfl
      · rfl
      · rfl
      · rfl
      · rfl
      · refine argmaxBy_mem _ _ ?_
        intro hnil
        rw [hnil] at hnemp
        simp at hnemp
    · have heq : answersuggestion gen s c r w sug =
          (event_seen_explicit gen
            { s with
              myCardsShownCounts := fupd s.myCardsShownCounts
                (argmaxBy s.myCardsShownCounts
                  (((interCards s.myCardSet [c, r, w]).map
                    (fun x => s.myCards.indexOf x)).filter (fun ix =>
                      s.myCardsShownTo (sug - 1) ix)))
                (s.myCardsShownCounts (argmaxBy s.myCardsShownCounts
                  (((interCards s.myCardSet [c, r, w]).map
                    (fun x => s.myCards.indexOf x)).filter (fun ix =>
                      s.myCardsShownTo (sug - 1) ix))) + 1) }
            (s.myCards.getD (argmaxBy s.myCardsShownCounts
              (((interCards s.myCardSet [c, r, w]).map
                (fun x => s.myCards.indexOf x)).filter (fun ix =>
                  s.myCardsShownTo (sug - 1) ix))) 0) 0 sug).map
          (fun u => (s.myCards.getD (argmaxBy s.myCardsShownCounts
            (((interCards s.myCardSet [c, r, w]).map
              (fun x => s.myCards.indexOf x)).filter (fun ix =>
                s.myCardsShownTo (sug - 1) ix))) 0, u)) := by
        simp only [answersuggestion, hnemp, hss]
        rfl
      rw [heq] at h
      have hsub : argmaxBy s.myCardsShownCounts
          (((interCards s.myCardSet [c, r, w]).map
            (fun x => s.myCards.indexOf x)).filter (fun ix =>
              s.myCardsShownTo (sug - 1) ix)) ∈
          (interCards s.myCardSet [c, r, w]).map
            (fun x => s.myCards.indexOf x) := by
        have hmem := argmaxBy_mem s.myCardsShownCounts
          (((interCards s.myCardSet [c, r, w]).map
            (fun x => s.myCards.indexOf x)).filter (fun ix =>
              s.myCardsShownTo (sug - 1) ix))
          (by intro hnil; rw [hnil] at hss; simp at hss)
        exact List.mem_of_mem_filter hmem
      refine hmain _ _ ?_ ?_ ?_ ?_ ?_ hsub h <;> rfl

/-- Witness for C10 at a concrete two-player state holding card 0. -/
theorem answersuggestion_spec_w :
    ∃ card t, answersuggestion [] W10 0 6 15 1 = .ok (card, t) ∧
      card ∈ W10.myCardSet ∧ card ∈ [0, 6, 15] ∧
      t.logSeenAnswers = W10.logSeenAnswers ++
        [⟨W10.ixTurn, 0, 1, card⟩] ∧
      t.logPasses = W10.logPasses := by
  refine ⟨_, _, rfl, ?_⟩
  exact (answersuggestion_spec [] W10 0 6 15 1 (fun x hx => hx) _ _
    rfl).2 (by decide)

/-- C5 (counterexample).  `initialise` mutates `self.DBGSCENARIO` *before*
validating the synthetic deal: on a `DBGSCENARIO` that does not deal the
full card set it raises `ValueError` as claimed, but the object retains the
partially applied setup — `DBGSCENARIO` differs from its pre-call value,
refuting "leaves every field of the Detective object unchanged". -/
theorem initialise_partial_apply_ce :
    ∃ s' : DState,
      initialise [] (0, 0, [], [], []) blankState A5 =
        .error (.valueError, s') ∧
      s'.DBGSCENARIO ≠ blankState.DBGSCENARIO := by
  refine ⟨_, rfl, ?_⟩
  decide

/-- C5 (amended).  Malformed setup arguments of each class named by the
claim make `initialise` raise `TypeError` or `ValueError` immediately: no
hypothesis pool is built and the initialisation flag is untouched (the
raise happens before the `(Re)Initialise internal variables` block).  The
partially-applied scalar fields are *not* restored — see the
counterexample. -/
theorem initialise_malformed_raises (gen : List Hyp)
    (ui : ℕ × ℕ × List ℕ × List ℕ × List ℕ) (s : DState) :
    (∀ a : InitArgs, ∀ dbg, a.DBGSCENARIO = some dbg →
      ¬ setEqCards (dbg.foldr (· ++ ·) []) ALLOWEDCARDS →
      ∃ s', initialise gen ui s a = .error (.valueError, s') ∧
        s'.hypotheses = s.hypotheses ∧
        s'.isInitialised = s.isInitialised) ∧
    (∀ a : InitArgs, ∀ dbg, a.DBGSCENARIO = some dbg →
      setEqCards (dbg.foldr (· ++ ·) []) ALLOWEDCARDS = true →
      (((dbg.getLast?.getD []).dedup).length ≠ 3 ∨
        ¬ ((dbg.getLast?.getD []).countP (fun c => c ∈ CHARS) = 1 ∧
          (dbg.getLast?.getD []).countP (fun c => c ∈ ROOMS) = 1 ∧
          (dbg.getLast?.getD []).countP (fun c => c ∈ WEAPS) = 1)) →
      ∃ e s', initialise gen ui s a = .error (e, s') ∧
        (e = PyErr.typeError ∨ e = PyErr.valueError) ∧
        s'.hypotheses = s.hypotheses ∧
        s'.isInitialised = s.isInitialised) ∧
    (∀ a : InitArgs, ∀ n, a.DBGSCENARIO = none → a.nPlayers = some n →
      a.playerCharCards ≠ none → (n < 2 ∨ 6 < n) →
      ∃ s', initialise gen ui s a = .error (.valueError, s') ∧
        s'.hypotheses = s.hypotheses ∧
        s'.isInitialised = s.isInitialised) ∧
    (∀ a : InitArgs, ∀ n pcc counts, a.DBGSCENARIO = none →
      a.nPlayers = some n → a.playerCharCards = some pcc →
      2 ≤ n → n ≤ 6 → a.playerCardHeldCounts = some counts →
      (counts.length ≠ n ∨ counts.any (fun x => x = 0) = true) →
      ∃ e s', initialise gen ui s a = .error (e, s') ∧
        (e = PyErr.typeError ∨ e = PyErr.valueError) ∧
        s'.hypotheses = s.hypotheses ∧
        s'.isInitialised = s.isInitialised) ∧
    (∀ a : InitArgs, ∀ n pcc counts mcs d, a.DBGSCENARIO = none →
      a.nPlayers = some n → a.playerCharCards = some pcc →
      2 ≤ n → n ≤ 6 → a.playerCardHeldCounts = some counts →
      counts.length = n → counts.all (fun x => x ≠ 0) = true →
      a.myCards = some mcs → mcs.dedup.length = counts.getD 0 0 →
      mcs.dedup.all (fun c => c ∈ ALLOWEDCARDS) = true →
      pcc.all (fun c => c ∈ CHARS) = true → pcc.length = n →
      a.ixDealer = some d → n ≤ d →
      ∃ s', initialise gen ui s a = .error (.valueError, s') ∧
        s'.hypotheses = s.hypotheses ∧
        s'.isInitialised = s.isInitialised) := by
  refine ⟨?_, ?_, ?_, ?_, ?_⟩
  · intro a dbg hdbg hbad
    refine ⟨{ s with DBGSCENARIO := some (dbg.map List.dedup) }, ?_, rfl,
      rfl⟩
    simp only [initialise, initParse, hdbg]
    rw [if_pos hbad]
  · intro a dbg hdbg hfull hbad
    by_cases hlen : ((dbg.getLast?.getD []).dedup).length ≠ 3
    · refine ⟨.typeError, { s with DBGSCENARIO := some (dbg.map List.dedup) },
        ?_, Or.inl rfl, rfl, rfl⟩
      simp only [initialise, initParse, hdbg]
      rw [if_neg (not_not_intro hfull), if_pos hlen]
    · have hcnt : ¬ ((dbg.getLast?.getD []).countP (fun c => c ∈ CHARS) = 1 ∧
          (dbg.getLast?.getD []).countP (fun c => c ∈ ROOMS) = 1 ∧
          (dbg.getLast?.getD []).countP (fun c => c ∈ WEAPS) = 1) := by
        rcases hbad with h | h
        · exact absurd h hlen
        · exact h
      refine ⟨.valueError, { s with DBGSCENARIO := some (dbg.map List.dedup) },
        ?_, Or.inr rfl, rfl, rfl⟩
      simp only [initialise, initParse, hdbg]
      rw [if_neg (not_not_intro hfull), if_neg hlen, if_pos hcnt]
  · intro a n hdbg hn hpcc hrange
    obtain ⟨pcc, hpc⟩ := Option.ne_none_iff_exists'.mp hpcc
    refine ⟨{ s with DBGSCENARIO := none, nPlayers := n }, ?_, rfl, rfl⟩
    simp only [initialise, initParse, hdbg, hn, hpc]
    rw [if_pos hrange]
  · intro a n pcc counts hdbg hn hpc h2 h6 hcounts hbad
    have hrange : ¬ (n < 2 ∨ 6 < n) := by omega
    by_cases hlen : counts.length ≠ n
    · refine ⟨.typeError,
        { s with DBGSCENARIO := none, nPlayers := n, nCardsHeld := counts },
        ?_, Or.inl rfl, rfl, rfl⟩
      simp only [initialise, initParse, hdbg, hn, hpc, hcounts]
      rw [if_neg hrange, if_pos hlen]
    · have hzero : counts.any (fun x => x = 0) = true := by
        rcases hbad with h | h
        · exact absurd h hlen
        · exact h
      refine ⟨.valueError,
        { s with DBGSCENARIO := none, nPlayers := n, nCardsHeld := counts },
        ?_, Or.inr rfl, rfl, rfl⟩
      simp only [initialise, initParse, hdbg, hn, hpc, hcounts]
      rw [if_neg hrange, if_neg hlen, if_pos hzero]
  · intro a n pcc counts mcs d hdbg hn hpc h2 h6 hcounts hclen hcpos hmcs
      hmlen hmallow hpchars hpclen hdealer hd
    have hrange : ¬ (n < 2 ∨ 6 < n) := by omega
    have hznot : ¬ counts.any (fun x => x = 0) = true := by
      intro hany
      rcases List.any_eq_true.mp hany with ⟨x, hx, hx0⟩
      have := List.all_eq_true.mp hcpos x hx
      simp at this hx0
      exact this hx0
    refine ⟨{ s with
        DBGSCENARIO := none
        nPlayers := n
        nCardsHeld := counts
        myCards := mcs
        myCardSet := mcs.dedup
        playerCharIxs := pcc.map charIndex
        ixDealer := d }, ?_, rfl, rfl⟩
    simp only [initialise, initParse, hdbg, hn, hpc, hcounts, hmcs, hdealer]
    rw [if_neg hrange, if_neg (not_not_intro hclen), if_neg hznot,
      if_neg (not_not_intro hmlen), if_neg (not_not_intro hmallow),
      if_neg (not_not_intro hpchars), if_neg (not_not_intro hpclen),
      if_pos hd]

/-- Witness for the amended C5 at the concrete malformed scenario `A5`. -/
theorem initialise_malformed_raises_w :
    ∃ s', initialise [] (0, 0, [], [], []) blankState A5 =
      .error (.valueError, s') ∧
      s'.hypotheses = blankState.hypotheses ∧
      s'.isInitialised = blankState.isInitialised :=
  (initialise_malformed_raises [] (0, 0, [], [], []) blankState).1 A5
    [[0], [1], [2, 3, 4]] rfl (by decide)

/-! ## Accounting lemmas for the dealing algorithms (claim C1) -/

theorem mem_insertCard {x c : ℕ} {s : List ℕ} :
    x ∈ insertCard s c ↔ x ∈ s ∨ x = c := by
  unfold insertCard
  by_cases hc : c ∈ s
  · rw [if_pos hc]
    constructor
    · exact Or.inl
    · rintro (h | rfl)
      · exact h
      · exact hc
  · rw [if_neg hc]
    simp

theorem getD_mem_of_lt {α : Type} {l : List α} {n : ℕ} (d : α)
    (h : n < l.length) : l.getD n d ∈ l := by
  induction l generalizing n with
  | nil => simp at h
  | cons a t ih =>
    cases n with
    | zero => exact List.mem_cons_self a t
    | succ m =>
      rw [List.getD_cons_succ]
      exact List.mem_cons_of_mem a (ih (by simpa using h))

theorem countP_set_add {α : Type} (l : List α) (p : ℕ) (v d : α)
    (P : α → Bool) (hp : p < l.length) :
    (l.set p v).countP P + (if P (l.getD p d) then 1 else 0) =
      l.countP P + (if P v then 1 else 0) := by
  induction l generalizing p with
  | nil => simp at hp
  | cons a t ih =>
    cases p with
    | zero =>
      simp only [List.set_cons_zero, List.countP_cons, List.getD_cons_zero]
      omega
    | succ q =>
      have hq : q < t.length := by simpa using hp
      have := ih q hq
      simp only [List.set_cons_succ, List.countP_cons, List.getD_cons_succ]
      omega

theorem handsOcc_add_fresh (hands : List (List ℕ)) (p c : ℕ)
    (hp : p < hands.length) (hfresh : handsOcc hands c = 0) (x : ℕ) :
    handsOcc (handsAdd hands p c) x =
      handsOcc hands x + (if x = c then 1 else 0) := by
  have hold : c ∉ hands.getD p [] := by
    intro hmem
    have hz := List.countP_eq_zero.mp hfresh (hands.getD p [])
      (getD_mem_of_lt [] hp)
    simp only [decide_eq_true_eq] at hz
    exact hz hmem
  have hkey := countP_set_add hands p (insertCard (hands.getD p []) c) []
    (fun hd => decide (x ∈ hd)) hp
  simp only [decide_eq_true_eq] at hkey
  unfold handsOcc handsAdd
  rcases eq_or_ne x c with rfl | hxc
  · rw [if_pos rfl]
    rw [if_neg hold, if_pos (mem_insertCard.mpr (Or.inr rfl))] at hkey
    omega
  · rw [if_neg hxc]
    by_cases hxm : x ∈ hands.getD p []
    · rw [if_pos hxm, if_pos (mem_insertCard.mpr (Or.inl hxm))] at hkey
      omega
    · rw [if_neg hxm, if_neg (fun hmem => by
        rcases mem_insertCard.mp hmem with h | h
        · exact hxm h
        · exact hxc h)] at hkey
      omega

theorem handsAdd_length (hands : List (List ℕ)) (p c : ℕ) :
    (handsAdd hands p c).length = hands.length := by
  simp [handsAdd]

theorem ite_mem_congr {a b : List ℕ} (x : ℕ) (h : x ∈ a ↔ x ∈ b) :
    (if x ∈ a then (1 : ℕ) else 0) = if x ∈ b then 1 else 0 := by
  by_cases hx : x ∈ a
  · rw [if_pos hx, if_pos (h.mp hx)]
  · rw [if_neg hx, if_neg (fun hb => hx (h.mpr hb))]

theorem OccInvE_add_hand {hands : List (List ℕ)} {env dealt : List ℕ}
    {p c : ℕ} (hp : p < hands.length) (hinv : OccInvE hands env dealt)
    (hc : c ∉ dealt) :
    OccInvE (handsAdd hands p c) env (insertCard dealt c) := by
  have h0 := hinv c
  rw [if_neg hc] at h0
  have hfresh : handsOcc hands c = 0 := by omega
  intro x
  rw [handsOcc_add_fresh hands p c hp hfresh x]
  have hx := hinv x
  rcases eq_or_ne x c with rfl | hxc
  · rw [if_pos rfl, if_pos (mem_insertCard.mpr (Or.inr rfl))]
    omega
  · rw [if_neg hxc,
      ite_mem_congr x (mem_insertCard.trans (or_iff_left hxc))]
    omega

theorem OccInvE_add_env {hands : List (List ℕ)} {env env' dealt : List ℕ}
    {c : ℕ} (hinv : OccInvE hands env dealt) (hc : c ∉ dealt)
    (henv : ∀ x, x ∈ env' ↔ x ∈ env ∨ x = c) :
    OccInvE hands env' (insertCard dealt c) := by
  have h0 := hinv c
  rw [if_neg hc] at h0
  intro x
  have hx := hinv x
  rcases eq_or_ne x c with rfl | hxc
  · rw [if_pos ((henv x).mpr (Or.inr rfl)),
      if_pos (mem_insertCard.mpr (Or.inr rfl))]
    omega
  · rw [ite_mem_congr x ((henv x).trans (or_iff_left hxc)),
      ite_mem_congr x (mem_insertCard.trans (or_iff_left hxc))]
    exact hx

theorem OccInvE_congr {hands : List (List ℕ)} {env env' dealt dealt' :
    List ℕ} (h1 : ∀ x, x ∈ env ↔ x ∈ env') (h2 : ∀ x, x ∈ dealt ↔ x ∈
    dealt') (hinv : OccInvE hands env dealt) : OccInvE hands env' dealt' :=
  by
  intro x
  rw [ite_mem_congr x (h1 x).symm, ite_mem_congr x (h2 x).symm]
  exact hinv x

theorem two_le_handsOcc {hands : List (List ℕ)} {i j c : ℕ}
    (hij : i ≠ j) (hi : i < hands.length) (hj : j < hands.length)
    (hci : c ∈ hands.getD i []) (hcj : c ∈ hands.getD j []) :
    2 ≤ handsOcc hands c := by
  induction hands generalizing i j with
  | nil => simp at hi
  | cons a t ih =>
    unfold handsOcc
    rw [List.countP_cons]
    cases i with
    | zero =>
      cases j with
      | zero => exact absurd rfl hij
      | succ j' =>
        have hj' : j' < t.length := by simpa using hj
        have hone : 0 < t.countP (fun hd => decide (c ∈ hd)) := by
          refine List.countP_pos.mpr ⟨t.getD j' [], getD_mem_of_lt [] hj', ?_⟩
          simp only [decide_eq_true_eq]
          simpa using hcj
        have hca : (decide (c ∈ a)) = true := by
          simp only [decide_eq_true_eq]
          simpa using hci
        rw [hca]
        simp only [if_true]
        omega
    | succ i' =>
      cases j with
      | zero =>
        have hi' : i' < t.length := by simpa using hi
        have hone : 0 < t.countP (fun hd => decide (c ∈ hd)) := by
          refine List.countP_pos.mpr ⟨t.getD i' [], getD_mem_of_lt [] hi', ?_⟩
          simp only [decide_eq_true_eq]
          simpa using hci
        have hca : (decide (c ∈ a)) = true := by
          simp only [decide_eq_true_eq]
          simpa using hcj
        rw [hca]
        simp only [if_true]
        omega
      | succ j' =>
        have hij' : i' ≠ j' := fun h => hij (by rw [h])
        have hi' : i' < t.length := by simpa using hi
        have hj' : j' < t.length := by simpa using hj
        have := ih hij' hi' hj' (by simpa using hci) (by simpa using hcj)
        unfold handsOcc at this
        omega

theorem getD_eq_getElem_lt {α : Type} {l : List α} {n : ℕ} (d : α)
    (h : n < l.length) : l.getD n d = l[n] := by
  induction l generalizing n with
  | nil => simp at h
  | cons a t ih =>
    cases n with
    | zero => rfl
    | succ m =>
      rw [List.getD_cons_succ]
      exact ih (by simpa using h)

theorem one_le_handsOcc {hands : List (List ℕ)} {p c : ℕ}
    (hp : p < hands.length) (hc : c ∈ hands.getD p []) :
    1 ≤ handsOcc hands c :=
  List.countP_pos.mpr ⟨hands.getD p [], getD_mem_of_lt [] hp,
    by simp only [decide_eq_true_eq]; exact hc⟩

theorem handsOcc_pos_ex {hands : List (List ℕ)} {c : ℕ}
    (h : 0 < handsOcc hands c) :
    ∃ q, q < hands.length ∧ c ∈ hands.getD q [] := by
  obtain ⟨hd, hmem, hpred⟩ := List.countP_pos.mp h
  obtain ⟨q, hq, heq⟩ := List.mem_iff_getElem.mp hmem
  refine ⟨q, hq, ?_⟩
  rw [getD_eq_getElem_lt [] hq, heq]
  simpa using hpred

theorem replicate_getD (m q : ℕ) :
    (List.replicate m ([] : List ℕ)).getD q [] = [] := by
  induction m generalizing q with
  | zero => simp
  | succ m' ih =>
    cases q with
    | zero => rfl
    | succ q' =>
      rw [List.replicate_succ, List.getD_cons_succ]
      exact ih q'

theorem getD_set_self {α : Type} (l : List α) (p : ℕ) (v d : α)
    (hp : p < l.length) : (l.set p v).getD p d = v := by
  induction l generalizing p with
  | nil => simp at hp
  | cons a t ih =>
    cases p with
    | zero => rfl
    | succ q =>
      rw [List.set_cons_succ, List.getD_cons_succ]
      exact ih q (by simpa using hp)

theorem getD_set_ne {α : Type} (l : List α) (p q : ℕ) (v d : α)
    (h : p ≠ q) : (l.set p v).getD q d = l.getD q d := by
  induction l generalizing p q with
  | nil => simp
  | cons a t ih =>
    cases p with
    | zero =>
      cases q with
      | zero => exact absurd rfl h
      | succ q' => rfl
    | succ p' =>
      cases q with
      | zero => rfl
      | succ q' =>
        rw [List.set_cons_succ, List.getD_cons_succ, List.getD_cons_succ]
        exact ih p' q' (fun hh => h (by rw [hh]))

theorem chars_sub_allowed : ∀ c ∈ CHARS, c ∈ ALLOWEDCARDS := by decide

theorem rooms_sub_allowed : ∀ c ∈ ROOMS, c ∈ ALLOWEDCARDS := by decide

theorem weaps_sub_allowed : ∀ c ∈ WEAPS, c ∈ ALLOWEDCARDS := by decide

/-- Consequences of `G` being a partition: hand cards are legal, hands are
pairwise disjoint, and hands are disjoint from the envelope. -/
theorem ground_facts {G : Hyp} {n : ℕ} (hpart : HypPartition n G) :
    (∀ p x, p < n → x ∈ G.hands.getD p [] → x ∈ ALLOWEDCARDS) ∧
    (∀ p q x, p < n → q < n → x ∈ G.hands.getD p [] →
      x ∈ G.hands.getD q [] → p = q) ∧
    (∀ p x, p < n → x ∈ G.hands.getD p [] → x ∉ envCards G) := by
  obtain ⟨hlen, _, hocc⟩ := hpart
  refine ⟨?_, ?_, ?_⟩
  · intro p x hp hx
    have h1 := one_le_handsOcc (show p < G.hands.length by omega) hx
    have h2 := hocc x
    unfold occCount at h2
    unfold handsOcc at h1
    by_contra hna
    rw [if_neg hna] at h2
    omega
  · intro p q x hp hq hxp hxq
    by_contra hne
    have h2 := two_le_handsOcc hne (show p < G.hands.length by omega)
      (show q < G.hands.length by omega) hxp hxq
    have h3 := hocc x
    unfold occCount at h3
    unfold handsOcc at h2
    by_cases hx : x ∈ ALLOWEDCARDS
    · rw [if_pos hx] at h3
      omega
    · rw [if_neg hx] at h3
      omega
  · intro p x hp hx henv
    have h1 := one_le_handsOcc (show p < G.hands.length by omega) hx
    have h3 := hocc x
    unfold occCount at h3
    unfold handsOcc at h1
    rw [if_pos henv] at h3
    by_cases hxa : x ∈ ALLOWEDCARDS
    · rw [if_pos hxa] at h3
      omega
    · rw [if_neg hxa] at h3
      omega

theorem handsOcc_replicate (m c : ℕ) :
    handsOcc (List.replicate m []) c = 0 := by
  unfold handsOcc
  refine List.countP_eq_zero.mpr ?_
  intro hd hmem
  rw [List.eq_of_mem_replicate hmem]
  simp

theorem foldl_genStep3_none (o : RandOracle) (s : DState)
    (L : List (ℕ × EventUnseenAnswer)) :
    L.foldl (genStep3 o s) none = none := by
  induction L with
  | nil => rfl
  | cons ie L ih =>
    rw [List.foldl_cons]
    exact ih

theorem foldl_genStep5_none (s : DState) (deck : List ℕ) :
    deck.foldl (genStep5 s) none = none := by
  induction deck with
  | nil => rfl
  | cons c deck ih =>
    rw [List.foldl_cons]
    exact ih

theorem room_recover : ∀ c ∈ ROOMS, roomIndex c + NCHARS = c := by decide

theorem weap_recover : ∀ c ∈ WEAPS,
    weapIndex c + (NCHARS + NROOMS) = c := by decide

theorem char_lt : ∀ c ∈ CHARS, charIndex c < NCHARS := by decide

theorem room_lt : ∀ c ∈ ROOMS, roomIndex c < NROOMS := by decide

theorem weap_lt : ∀ c ∈ WEAPS, weapIndex c < NWEAPS := by decide

theorem allowed_nodup : ALLOWEDCARDS.Nodup := List.nodup_range NCARDS

/-- Step 2 of the sampler preserves the accounting invariant and keeps each
working hand inside the corresponding true hand. -/
theorem genStep2_fold (G : Hyp) (n : ℕ)
    (hleg : ∀ p x, p < n → x ∈ G.hands.getD p [] → x ∈ ALLOWEDCARDS)
    (hdisj : ∀ p q x, p < n → q < n → x ∈ G.hands.getD p [] →
      x ∈ G.hands.getD q [] → p = q) :
    ∀ (L : List EventSeenAnswer) (acc : List (List ℕ) × List ℕ),
      (∀ e ∈ L, e.actor < n ∧ e.card ∈ G.hands.getD e.actor []) →
      AccInv n [] acc →
      (∀ p, p < n → ∀ x ∈ acc.1.getD p [], x ∈ G.hands.getD p []) →
      AccInv n [] (L.foldl genStep2 acc) ∧
        ∀ p, p < n → ∀ x ∈ (L.foldl genStep2 acc).1.getD p [],
          x ∈ G.hands.getD p [] := by
  intro L
  induction L with
  | nil =>
    intro acc _ hacc hsub
    rw [List.foldl_nil]
    exact ⟨hacc, hsub⟩
  | cons e L ih =>
    intro acc hL hacc hsub
    obtain ⟨hinv, hlen, hall⟩ := hacc
    obtain ⟨hea, hecard⟩ := hL e (List.mem_cons_self _ _)
    rw [List.foldl_cons]
    have hstep : AccInv n [] (genStep2 acc e) ∧
        ∀ p, p < n → ∀ x ∈ (genStep2 acc e).1.getD p [],
          x ∈ G.hands.getD p [] := by
      unfold genStep2
      by_cases hc : e.card ∈ acc.1.getD e.actor []
      · rw [if_pos hc]
        exact ⟨⟨hinv, hlen, hall⟩, hsub⟩
      · rw [if_neg hc]
        have hfresh : e.card ∉ acc.2 := by
          intro hdealt
          have h0 := hinv e.card
          rw [if_pos hdealt, if_neg (List.not_mem_nil _)] at h0
          have hpos : 0 < handsOcc acc.1 e.card := by omega
          obtain ⟨q, hq, hcq⟩ := handsOcc_pos_ex hpos
          have hqn : q < n := by omega
          have hqG := hsub q hqn e.card hcq
          have hqe : q = e.actor := hdisj q e.actor e.card hqn hea hqG hecard
          exact hc (hqe ▸ hcq)
        refine ⟨⟨OccInvE_add_hand (by omega) hinv hfresh,
          by rw [handsAdd_length]; exact hlen, ?_⟩, ?_⟩
        · intro x hx
          rcases mem_insertCard.mp hx with hxd | rfl
          · exact hall x hxd
          · exact hleg e.actor _ hea hecard
        · intro p hp x hx
          unfold handsAdd at hx
          rcases eq_or_ne e.actor p with rfl | hne
          · rw [getD_set_self _ _ _ _ (by omega)] at hx
            rcases mem_insertCard.mp hx with hxo | rfl
            · exact hsub _ hp x hxo
            · exact hecard
          · rw [getD_set_ne _ _ _ _ _ hne] at hx
            exact hsub p hp x hx
    exact ih (genStep2 acc e)
      (fun e' he' => hL e' (List.mem_cons_of_mem _ he')) hstep.1 hstep.2

/-- One step-3 constraint of the sampler preserves the accounting
invariant (any dealt card is fresh and drawn from the suggested triad). -/
theorem genStep3_out (o : RandOracle) (s : DState)
    (ie : ℕ × EventUnseenAnswer) (hands : List (List ℕ)) (dealt : List ℕ)
    (hea : ie.2.actor < s.nPlayers)
    (htriad : ie.2.character ∈ CHARS ∧ ie.2.room ∈ ROOMS ∧
      ie.2.weapon ∈ WEAPS)
    (hinv : OccInvE hands [] dealt) (hlen : hands.length = s.nPlayers)
    (hall : ∀ x ∈ dealt, x ∈ ALLOWEDCARDS) :
    ∀ res, genStep3 o s (some (hands, dealt)) ie = some res →
      AccInv s.nPlayers [] res := by
  intro res hres
  simp only [genStep3] at hres
  by_cases h1 : ¬ (interCards [ie.2.character, ie.2.room, ie.2.weapon]
      (hands.getD ie.2.actor [])).isEmpty
  · rw [if_pos h1] at hres
    cases hres
    exact ⟨hinv, hlen, hall⟩
  · rw [if_neg h1] at hres
    by_cases h2 : (hands.getD ie.2.actor []).length <
        s.nCardsHeld.getD ie.2.actor 0
    · rw [if_pos h2] at hres
      by_cases h3 : (([ie.2.character, ie.2.room, ie.2.weapon].dedup).filter
          (fun c => c ∉ dealt ∧ c ∉ s.forbiddenSets ie.2.actor)).isEmpty
      · rw [if_pos h3] at hres
        cases hres
      · rw [if_neg h3] at hres
        have hne : (([ie.2.character, ie.2.room,
            ie.2.weapon].dedup).filter (fun c => c ∉ dealt ∧
              c ∉ s.forbiddenSets ie.2.actor)) ≠ [] := by
          intro hnil
          rw [hnil] at h3
          exact h3 rfl
        have hcs := o.hchoose ie.1 _ hne
        rw [List.mem_filter] at hcs
        obtain ⟨hcd, hcp⟩ := hcs
        simp only [decide_eq_true_eq] at hcp
        rw [List.mem_dedup] at hcd
        simp only [List.mem_cons, List.not_mem_nil, or_false] at hcd
        cases hres
        refine ⟨OccInvE_add_hand (by omega) hinv hcp.1,
          by rw [handsAdd_length]; exact hlen, ?_⟩
        intro x hx
        rcases mem_insertCard.mp hx with hxo | rfl
        · exact hall x hxo
        · rcases hcd with hc | hc | hc <;> rw [hc]
          · exact chars_sub_allowed _ htriad.1
          · exact rooms_sub_allowed _ htriad.2.1
          · exact weaps_sub_allowed _ htriad.2.2
    · rw [if_neg h2] at hres
      cases hres

/-- Step-3 phase of the sampler: replaying the indexed unseen-answer log
preserves the accounting invariant whenever it completes. -/
theorem genStep3_fold (o : RandOracle) (s : DState) :
    ∀ (L : List (ℕ × EventUnseenAnswer)) (acc : List (List ℕ) × List ℕ),
      (∀ ie ∈ L, ie.2.actor < s.nPlayers ∧ ie.2.character ∈ CHARS ∧
        ie.2.room ∈ ROOMS ∧ ie.2.weapon ∈ WEAPS) →
      AccInv s.nPlayers [] acc →
      ∀ res, L.foldl (genStep3 o s) (some acc) = some res →
        AccInv s.nPlayers [] res := by
  intro L
  induction L with
  | nil =>
    intro acc _ hacc res hres
    rw [List.foldl_nil] at hres
    cases hres
    exact hacc
  | cons ie L ih =>
    intro acc hL hacc res hres
    obtain ⟨hands, dealt⟩ := acc
    obtain ⟨hinv, hlen, hall⟩ := hacc
    obtain ⟨hea, htriad⟩ := hL ie (List.mem_cons_self _ _)
    rw [List.foldl_cons] at hres
    cases hmid : genStep3 o s (some (hands, dealt)) ie with
    | none =>
      rw [hmid, foldl_genStep3_none] at hres
      cases hres
    | some mid =>
      rw [hmid] at hres
      have hmidinv := genStep3_out o s ie hands dealt hea htriad hinv hlen
        hall mid hmid
      exact ih mid (fun ie' h => hL ie' (List.mem_cons_of_mem _ h))
        hmidinv res hres

/-- One step-5 deal of the sampler: a fresh legal card lands in exactly one
hand, extending the dealt set by exactly that card. -/
theorem genStep5_out (s : DState) (c : ℕ) (hands : List (List ℕ))
    (env dealt : List ℕ) (hc : c ∉ dealt) (hca : c ∈ ALLOWEDCARDS)
    (hinv : OccInvE hands env dealt) (hlen : hands.length = s.nPlayers)
    (hall : ∀ x ∈ dealt, x ∈ ALLOWEDCARDS) :
    ∀ res1 res2, genStep5 s (some (hands, dealt)) c = some (res1, res2) →
      OccInvE res1 env res2 ∧ res1.length = s.nPlayers ∧
        (∀ x ∈ res2, x ∈ ALLOWEDCARDS) ∧
        (∀ x, x ∈ res2 ↔ x ∈ dealt ∨ x = c) := by
  intro res1 res2 hres
  simp only [genStep5] at hres
  cases hhead : ((List.range s.nPlayers).filter (fun p =>
      ¬ s.forbidden p c ∧
      (hands.getD p []).length < s.nCardsHeld.getD p 0)).head? with
  | none =>
    rw [hhead] at hres
    cases hres
  | some p =>
    rw [hhead] at hres
    have hpmem := List.mem_of_mem_head? (Option.mem_def.mpr hhead)
    rw [List.mem_filter] at hpmem
    have hpn : p < s.nPlayers := List.mem_range.mp hpmem.1
    injection hres with hres'
    injection hres' with h1 h2
    subst h1
    subst h2
    refine ⟨OccInvE_add_hand (by omega) hinv hc,
      by rw [handsAdd_length]; exact hlen, ?_, fun x => mem_insertCard⟩
    intro x hx
    rcases mem_insertCard.mp hx with hxo | rfl
    · exact hall x hxo
    · exact hca

/-- Step-5 phase of the sampler: dealing out the shuffled remaining deck
preserves the accounting invariant and, when it completes, has dealt
exactly the old dealt set plus the whole deck. -/
theorem genStep5_fold (s : DState) :
    ∀ (deck : List ℕ) (hands : List (List ℕ)) (env dealt : List ℕ),
      (∀ x ∈ deck, x ∉ dealt) → deck.Nodup →
      (∀ x ∈ deck, x ∈ ALLOWEDCARDS) →
      OccInvE hands env dealt → hands.length = s.nPlayers →
      (∀ x ∈ dealt, x ∈ ALLOWEDCARDS) →
      ∀ res1 res2,
        deck.foldl (genStep5 s) (some (hands, dealt)) = some (res1, res2) →
        OccInvE res1 env res2 ∧ res1.length = s.nPlayers ∧
          (∀ x ∈ res2, x ∈ ALLOWEDCARDS) ∧
          (∀ x, x ∈ res2 ↔ x ∈ dealt ∨ x ∈ deck) := by
  intro deck
  induction deck with
  | nil =>
    intro hands env dealt _ _ _ hinv hlen hall res1 res2 hres
    rw [List.foldl_nil] at hres
    injection hres with hres'
    injection hres' with h1 h2
    subst h1
    subst h2
    exact ⟨hinv, hlen, hall, fun x => by simp⟩
  | cons c deck ih =>
    intro hands env dealt hfresh hnd hdall hinv hlen hall res1 res2 hres
    rw [List.foldl_cons] at hres
    cases hmid : genStep5 s (some (hands, dealt)) c with
    | none =>
      rw [hmid, foldl_genStep5_none] at hres
      cases hres
    | some mid =>
      obtain ⟨m1, m2⟩ := mid
      rw [hmid] at hres
      obtain ⟨hinv', hlen', hall', hext⟩ := genStep5_out s c hands env dealt
        (hfresh c (List.mem_cons_self _ _)) (hdall c (List.mem_cons_self _ _))
        hinv hlen hall m1 m2 hmid
      have hcnd : c ∉ deck := (List.nodup_cons.mp hnd).1
      have hfresh' : ∀ x ∈ deck, x ∉ m2 := by
        intro x hx hmem
        rcases (hext x).mp hmem with hxd | rfl
        · exact hfresh x (List.mem_cons_of_mem _ hx) hxd
        · exact hcnd hx
      obtain ⟨hI, hL, hS, hE⟩ := ih m1 env m2 hfresh'
        (List.nodup_cons.mp hnd).2
        (fun x hx => hdall x (List.mem_cons_of_mem _ hx)) hinv' hlen' hall'
        res1 res2 hres
      refine ⟨hI, hL, hS, fun x => ?_⟩
      rw [hE x, hext x, List.mem_cons]
      tauto

/-- Any hypothesis produced by a completed sampler iteration is a
partition of the card set, provided the state's logs and setup truly
describe the deal `G`. -/
theorem genOneAttempt_partition (o : RandOracle) (G : Hyp) (s : DState)
    (h : Hyp) (hgm : GroundMatch G s) (hlt : LogsTrue G s)
    (hgen : genOneAttempt o s = some h) : HypPartition s.nPlayers h := by
  obtain ⟨hseen, hunseen, -⟩ := hlt
  obtain ⟨hpart, hn2, hmy, hnch, hhands⟩ := hgm
  obtain ⟨hleg, hdisj, hdisjE⟩ := ground_facts hpart
  have hbase : AccInv s.nPlayers []
      (s.myCardSet :: List.replicate (s.nPlayers - 1) [], s.myCardSet) ∧
      ∀ p, p < s.nPlayers →
        ∀ x ∈ (s.myCardSet :: List.replicate (s.nPlayers - 1) [],
          s.myCardSet).1.getD p [], x ∈ G.hands.getD p [] := by
    refine ⟨⟨?_, ?_, ?_⟩, ?_⟩
    · intro c
      unfold handsOcc
      rw [List.countP_cons]
      have h0 := handsOcc_replicate (s.nPlayers - 1) c
      unfold handsOcc at h0
      rw [h0, if_neg (List.not_mem_nil c)]
      by_cases hc : c ∈ s.myCardSet <;> simp [hc]
    · simp only [List.length_cons, List.length_replicate]
      omega
    · intro x hx
      exact hleg 0 x (by omega) ((hmy x).mp hx)
    · intro p hp x hx
      cases p with
      | zero => exact (hmy x).mp hx
      | succ q =>
        rw [List.getD_cons_succ, replicate_getD] at hx
        exact absurd hx (List.not_mem_nil x)
  have hstep2 := genStep2_fold G s.nPlayers hleg hdisj s.logSeenAnswers _
    hseen hbase.1 hbase.2
  simp only [genOneAttempt] at hgen
  split at hgen
  · exact Option.noConfusion hgen
  · rename_i hands3 dealt3 heq3
    have hacc3 : AccInv s.nPlayers [] (hands3, dealt3) := by
      refine genStep3_fold o s s.logUnseenAnswers.enum _ ?_ hstep2.1
        (hands3, dealt3) heq3
      intro ie hie
      have hz := List.of_mem_zip (List.enum_eq_zip_range _ ▸ hie)
      exact hunseen ie.2 hz.2
    have hinv3 : OccInvE hands3 [] dealt3 := hacc3.1
    have hlen3 : hands3.length = s.nPlayers := hacc3.2.1
    have hall3 : ∀ x ∈ dealt3, x ∈ ALLOWEDCARDS := hacc3.2.2
    split at hgen
    · exact Option.noConfusion hgen
    rename_i hch
    split at hgen
    · exact Option.noConfusion hgen
    rename_i hrm
    split at hgen
    · exact Option.noConfusion hgen
    rename_i hwp
    split at hgen
    · exact Option.noConfusion hgen
    rename_i hands5 d5 heq5
    split at hgen
    · exact Option.noConfusion hgen
    rename_i hwa
    set chA := CHARS.filter (fun c =>
      c ∉ dealt3 ∧ c ∉ s.forbiddenSets s.nPlayers) with hchA
    set mc := o.choose 1000 chA with hmc
    set dC := insertCard dealt3 mc with hdC
    set rmA := ROOMS.filter (fun c =>
      c ∉ dC ∧ c ∉ s.forbiddenSets s.nPlayers) with hrmA
    set mr := o.choose 1001 rmA with hmr
    set dR := insertCard dC mr with hdR
    set wpA := WEAPS.filter (fun c =>
      c ∉ dR ∧ c ∉ s.forbiddenSets s.nPlayers) with hwpA
    set mw := o.choose 1002 wpA with hmw
    set dW := insertCard dR mw with hdW
    set deck := o.shuffle (ALLOWEDCARDS.filter (fun c => c ∉ dW)) with hdeck
    have hh : h = ⟨hands5, (charIndex mc, roomIndex mr, weapIndex mw)⟩ :=
      (Option.some.inj hgen).symm
    subst hh
    have hchA_ne : chA ≠ [] := fun hnil => hch (by rw [hnil]; rfl)
    have hmcA := o.hchoose 1000 chA hchA_ne
    rw [← hmc, hchA, List.mem_filter] at hmcA
    obtain ⟨hmcC, hmcP⟩ := hmcA
    simp only [decide_eq_true_eq] at hmcP
    have hinvC : OccInvE hands3 [mc] dC := by
      rw [hdC]
      exact OccInvE_add_env hinv3 hmcP.1 (fun x => by simp)
    have hallC : ∀ x ∈ dC, x ∈ ALLOWEDCARDS := by
      rw [hdC]
      intro x hx
      rcases mem_insertCard.mp hx with hxo | rfl
      · exact hall3 x hxo
      · exact chars_sub_allowed _ hmcC
    have hrmA_ne : rmA ≠ [] := fun hnil => hrm (by rw [hnil]; rfl)
    have hmrA := o.hchoose 1001 rmA hrmA_ne
    rw [← hmr, hrmA, List.mem_filter] at hmrA
    obtain ⟨hmrR, hmrP⟩ := hmrA
    simp only [decide_eq_true_eq] at hmrP
    have hinvR : OccInvE hands3 [mc, mr] dR := by
      rw [hdR]
      exact OccInvE_add_env hinvC hmrP.1 (fun x => by simp)
    have hallR : ∀ x ∈ dR, x ∈ ALLOWEDCARDS := by
      rw [hdR]
      intro x hx
      rcases mem_insertCard.mp hx with hxo | rfl
      · exact hallC x hxo
      · exact rooms_sub_allowed _ hmrR
    have hwpA_ne : wpA ≠ [] := fun hnil => hwp (by rw [hnil]; rfl)
    have hmwA := o.hchoose 1002 wpA hwpA_ne
    rw [← hmw, hwpA, List.mem_filter] at hmwA
    obtain ⟨hmwW, hmwP⟩ := hmwA
    simp only [decide_eq_true_eq] at hmwP
    have hinvW : OccInvE hands3 [mc, mr, mw] dW := by
      rw [hdW]
      exact OccInvE_add_env hinvR hmwP.1 (fun x => by simp [or_assoc])
    have hallW : ∀ x ∈ dW, x ∈ ALLOWEDCARDS := by
      rw [hdW]
      intro x hx
      rcases mem_insertCard.mp hx with hxo | rfl
      · exact hallR x hxo
      · exact weaps_sub_allowed _ hmwW
    have hperm := o.hshuffle (ALLOWEDCARDS.filter (fun c => c ∉ dW))
    rw [← hdeck] at hperm
    have hdmem : ∀ x, x ∈ deck ↔ x ∈ ALLOWEDCARDS ∧ x ∉ dW := by
      intro x
      rw [hperm.mem_iff, List.mem_filter]
      simp only [decide_eq_true_eq]
    have hdnd : deck.Nodup :=
      hperm.nodup_iff.mpr (List.Nodup.filter _ allowed_nodup)
    obtain ⟨hinv5, hlen5, hall5, hext5⟩ := genStep5_fold s deck hands3
      [mc, mr, mw] dW (fun x hx => ((hdmem x).mp hx).2) hdnd
      (fun x hx => ((hdmem x).mp hx).1) hinvW hlen3 hallW hands5 d5 heq5
    have henvlist :
        envCards ⟨hands5, (charIndex mc, roomIndex mr, weapIndex mw)⟩ =
          [mc, mr, mw] := by
      show [charIndex mc, roomIndex mr + NCHARS,
        weapIndex mw + (NCHARS + NROOMS)] = [mc, mr, mw]
      rw [room_recover mr hmrR, weap_recover mw hmwW]
      rfl
    refine ⟨hlen5, ?_, ?_⟩
    · simp only [envInBox, decide_eq_true_eq]
      exact ⟨char_lt mc hmcC, room_lt mr hmrR, weap_lt mw hmwW⟩
    · intro c
      show handsOcc hands5 c + (if c ∈ envCards ⟨hands5,
        (charIndex mc, roomIndex mr, weapIndex mw)⟩ then 1 else 0) =
        if c ∈ ALLOWEDCARDS then 1 else 0
      rw [henvlist]
      have hd5iff : c ∈ d5 ↔ c ∈ ALLOWEDCARDS := by
        constructor
        · exact hall5 c
        · intro hca
          rw [hext5 c]
          by_cases hcw : c ∈ dW
          · exact Or.inl hcw
          · exact Or.inr ((hdmem c).mpr ⟨hca, hcw⟩)
      rw [← ite_mem_congr c hd5iff]
      exact hinv5 c

theorem insertCard_nodup {s : List ℕ} (c : ℕ) (h : s.Nodup) :
    (insertCard s c).Nodup := by
  unfold insertCard
  by_cases hc : c ∈ s
  · rw [if_pos hc]
    exact h
  · rw [if_neg hc]
    simpa [List.nodup_append] using ⟨h, hc⟩

theorem insertCard_length_not_mem {s : List ℕ} {c : ℕ} (hc : c ∉ s) :
    (insertCard s c).length = s.length + 1 := by
  unfold insertCard
  rw [if_neg hc]
  simp

theorem headD_mem {α : Type} {l : List α} (d : α) (h : l ≠ []) :
    l.headD d ∈ l := by
  cases l with
  | nil => exact absurd rfl h
  | cons a t => exact List.mem_cons_self a t

theorem chars_getD : ∀ i, i < NCHARS → CHARS.getD i 0 = i := by
  intro i hi
  have hi' : i < 6 := hi
  interval_cases i <;> rfl

theorem rooms_getD : ∀ j, j < NROOMS → ROOMS.getD j 0 = j + NCHARS := by
  intro j hj
  have hj' : j < 9 := hj
  interval_cases j <;> rfl

theorem weaps_getD : ∀ k, k < NWEAPS →
    WEAPS.getD k 0 = k + (NCHARS + NROOMS) := by
  intro k hk
  have hk' : k < 6 := hk
  interval_cases k <;> rfl

theorem chars_bound : ∀ c ∈ CHARS, c < NCHARS := by decide

theorem rooms_bound : ∀ c ∈ ROOMS, NCHARS ≤ c ∧ c < NCHARS + NROOMS := by
  decide

theorem weaps_bound : ∀ c ∈ WEAPS, NCHARS + NROOMS ≤ c := by decide

theorem mem_chars_of_lt : ∀ i, i < NCHARS → i ∈ CHARS := by
  intro i hi
  have hi' : i < 6 := hi
  interval_cases i <;> decide

theorem handsOcc_eq_zero {hands : List (List ℕ)} {c : ℕ}
    (h : ∀ q, q < hands.length → c ∉ hands.getD q []) :
    handsOcc hands c = 0 := by
  by_contra hne
  obtain ⟨q, hq, hcq⟩ := handsOcc_pos_ex (Nat.pos_of_ne_zero hne)
  exact h q hq hcq

/-- Extend the envelope part of the accounting invariant by a card that is
either already tracked (in the envelope and dealt) or entirely fresh. -/
theorem OccInvE_add_env_mem {hands : List (List ℕ)}
    {env env' dealt : List ℕ} {c : ℕ} (hinv : OccInvE hands env dealt)
    (hcase : (c ∈ env ∧ c ∈ dealt) ∨ c ∉ dealt)
    (henv : ∀ x, x ∈ env' ↔ x ∈ env ∨ x = c) :
    OccInvE hands env' (insertCard dealt c) := by
  rcases hcase with ⟨hce, hcd⟩ | hcd
  · refine OccInvE_congr (fun x => ?_) (fun x => ?_) hinv
    · rw [henv x]
      constructor
      · exact Or.inl
      · rintro (hx | rfl)
        · exact hx
        · exact hce
    · rw [mem_insertCard]
      constructor
      · exact Or.inl
      · rintro (hx | rfl)
        · exact hx
        · exact hcd
  · exact OccInvE_add_env hinv hcd henv

theorem wEnvCards_mem (w : WHyp) (x : ℕ) :
    x ∈ wEnvCards w ↔
      (∃ i, w.envC = some i ∧ x = i) ∨
      (∃ j, w.envR = some j ∧ x = j + NCHARS) ∨
      (∃ k, w.envW = some k ∧ x = k + (NCHARS + NROOMS)) := by
  unfold wEnvCards
  cases w.envC <;> cases w.envR <;> cases w.envW <;>
    simp [List.mem_append, eq_comm]

/-- When all rows but one forbid a card and the first allowing row is not a
player, every player row forbids the card. -/
theorem known_env_forbid (s : DState) (c : ℕ)
    (hcnt : forbidColCnt s c = s.nPlayers)
    (hh : ¬ holderOf s c < s.nPlayers) :
    ∀ p, p < s.nPlayers → s.forbidden p c = true := by
  intro p hp
  by_contra hforb
  have hfalse : s.forbidden p c = false :=
    Bool.eq_false_iff.mpr (fun he => hforb he)
  have hpmem : p ∈ (List.range (s.nPlayers + 1)).filter
      (fun q => ¬ s.forbidden q c) := by
    rw [List.mem_filter]
    refine ⟨List.mem_range.mpr (by omega), ?_⟩
    simp [hfalse]
  have hlenfil : ((List.range (s.nPlayers + 1)).filter
      (fun q => ¬ s.forbidden q c)).length = 1 := by
    have htot := List.length_eq_countP_add_countP
      (p := fun q => s.forbidden q c) (List.range (s.nPlayers + 1))
    simp only [] at htot
    rw [List.length_range] at htot
    unfold forbidColCnt at hcnt
    rw [hcnt] at htot
    rw [← List.countP_eq_length_filter]
    omega
  obtain ⟨a, ha⟩ := List.length_eq_one.mp hlenfil
  have hpa : p = a := by
    rw [ha] at hpmem
    simpa using hpmem
  have hha : holderOf s c = a := by
    unfold holderOf
    rw [ha]
    rfl
  exact hh (by rw [hha, ← hpa]; exact hp)

/-- A card every player forbids must be in the true envelope (soundness of
the forbidden matrix against the partition `G`). -/
theorem known_env_card (G : Hyp) (s : DState)
    (hpart : HypPartition s.nPlayers G) (hfs : ForbidSound G s) (c : ℕ)
    (hca : c ∈ ALLOWEDCARDS)
    (hall : ∀ p, p < s.nPlayers → s.forbidden p c = true) :
    c ∈ envCards G := by
  have hzero : handsOcc G.hands c = 0 := by
    refine handsOcc_eq_zero ?_
    intro q hq
    have hq' : q < s.nPlayers := by
      rw [hpart.1] at hq
      exact hq
    exact hfs q c hq' (hall q hq')
  have hocc := hpart.2.2 c
  unfold occCount at hocc
  unfold handsOcc at hzero
  rw [hzero, if_pos hca] at hocc
  by_cases he : c ∈ envCards G
  · exact he
  · rw [if_neg he] at hocc
    omega

theorem env_char_det (G : Hyp) (n : ℕ) (hpart : HypPartition n G)
    (c : ℕ) (hc : c < NCHARS) (he : c ∈ envCards G) : c = G.env.1 := by
  have hbox := hpart.2.1
  simp only [envInBox, decide_eq_true_eq] at hbox
  unfold envCards at he
  simp only [List.mem_cons, List.not_mem_nil, or_false] at he
  have h6 : NCHARS = 6 := rfl
  rcases he with h | h | h
  · exact h
  · omega
  · omega

theorem env_room_det (G : Hyp) (n : ℕ) (hpart : HypPartition n G)
    (c : ℕ) (hc1 : ¬ c < NCHARS) (hc2 : c < NCHARS + NROOMS)
    (he : c ∈ envCards G) : c = G.env.2.1 + NCHARS := by
  have hbox := hpart.2.1
  simp only [envInBox, decide_eq_true_eq] at hbox
  unfold envCards at he
  simp only [List.mem_cons, List.not_mem_nil, or_false] at he
  have h6 : NCHARS = 6 := rfl
  have h9 : NROOMS = 9 := rfl
  rcases he with h | h | h
  · omega
  · exact h
  · omega

theorem env_weap_det (G : Hyp) (n : ℕ) (hpart : HypPartition n G)
    (c : ℕ) (hc1 : ¬ c < NCHARS + NROOMS) (he : c ∈ envCards G) :
    c = G.env.2.2 + (NCHARS + NROOMS) := by
  have hbox := hpart.2.1
  simp only [envInBox, decide_eq_true_eq] at hbox
  unfold envCards at he
  simp only [List.mem_cons, List.not_mem_nil, or_false] at he
  have h6 : NCHARS = 6 := rfl
  have h9 : NROOMS = 9 := rfl
  rcases he with h | h | h
  · omega
  · omega
  · exact h

theorem wEnvCards_setC (w w' : WHyp) (c : ℕ) (hc' : w'.envC = some c)
    (hr' : w'.envR = w.envR) (hw' : w'.envW = w.envW)
    (hC : ∀ i, w.envC = some i → i = c) :
    ∀ x, x ∈ wEnvCards w' ↔ x ∈ wEnvCards w ∨ x = c := by
  intro x
  rw [wEnvCards_mem, wEnvCards_mem, hc', hr', hw']
  constructor
  · rintro (⟨i, hi, hx⟩ | h | h)
    · injection hi with hi
      exact Or.inr (by rw [hx, ← hi])
    · exact Or.inl (Or.inr (Or.inl h))
    · exact Or.inl (Or.inr (Or.inr h))
  · rintro ((⟨i, hi, hx⟩ | h | h) | hx)
    · exact Or.inl ⟨c, rfl, by rw [hx, hC i hi]⟩
    · exact Or.inr (Or.inl h)
    · exact Or.inr (Or.inr h)
    · exact Or.inl ⟨c, rfl, hx⟩

theorem wEnvCards_setR (w w' : WHyp) (j : ℕ) (hr' : w'.envR = some j)
    (hc' : w'.envC = w.envC) (hw' : w'.envW = w.envW)
    (hR : ∀ i, w.envR = some i → i = j) :
    ∀ x, x ∈ wEnvCards w' ↔ x ∈ wEnvCards w ∨ x = j + NCHARS := by
  intro x
  rw [wEnvCards_mem, wEnvCards_mem, hr', hc', hw']
  constructor
  · rintro (h | ⟨i, hi, hx⟩ | h)
    · exact Or.inl (Or.inl h)
    · injection hi with hi
      exact Or.inr (by rw [hx, hi])
    · exact Or.inl (Or.inr (Or.inr h))
  · rintro ((h | ⟨i, hi, hx⟩ | h) | hx)
    · exact Or.inl h
    · exact Or.inr (Or.inl ⟨j, rfl, by rw [hx, hR i hi]⟩)
    · exact Or.inr (Or.inr h)
    · exact Or.inr (Or.inl ⟨j, rfl, hx⟩)

theorem wEnvCards_setW (w w' : WHyp) (k : ℕ) (hw' : w'.envW = some k)
    (hc' : w'.envC = w.envC) (hr' : w'.envR = w.envR)
    (hW : ∀ i, w.envW = some i → i = k) :
    ∀ x, x ∈ wEnvCards w' ↔ x ∈ wEnvCards w ∨
      x = k + (NCHARS + NROOMS) := by
  intro x
  rw [wEnvCards_mem, wEnvCards_mem, hw', hc', hr']
  constructor
  · rintro (h | h | ⟨i, hi, hx⟩)
    · exact Or.inl (Or.inl h)
    · exact Or.inl (Or.inr (Or.inl h))
    · injection hi with hi
      exact Or.inr (by rw [hx, hi])
  · rintro ((h | h | ⟨i, hi, hx⟩) | hx)
    · exact Or.inl h
    · exact Or.inr (Or.inl h)
    · exact Or.inr (Or.inr ⟨k, rfl, by rw [hx, hW i hi]⟩)
    · exact Or.inr (Or.inr ⟨k, rfl, hx⟩)

/-- Stage 1 of the exact rebuild establishes the working invariant. -/
theorem stage1_fold (G : Hyp) (s : DState)
    (hpart : HypPartition s.nPlayers G) (hfs : ForbidSound G s) :
    ∀ (L : List ℕ) (w : WHyp),
      (∀ x ∈ L, x ∈ ALLOWEDCARDS) → (∀ x ∈ L, x ∉ w.dealt) → L.Nodup →
      WInv G s.nPlayers w → w.dealt.Nodup →
      WInv G s.nPlayers (L.foldl (stage1step s) w) ∧
        (L.foldl (stage1step s) w).dealt.Nodup := by
  intro L
  induction L with
  | nil =>
    intro w _ _ _ hw hnd
    rw [List.foldl_nil]
    exact ⟨hw, hnd⟩
  | cons c L ih =>
    intro w hall hfresh hnd hw hwnd
    obtain ⟨hlen, hinv, hdall, hsubenv, hfC, hfR, hfW⟩ := hw
    have hca : c ∈ ALLOWEDCARDS := hall c (List.mem_cons_self _ _)
    have hcf : c ∉ w.dealt := hfresh c (List.mem_cons_self _ _)
    rw [List.foldl_cons]
    have hstep : WInv G s.nPlayers (stage1step s w c) ∧
        (stage1step s w c).dealt.Nodup ∧
        ∀ x ∈ (stage1step s w c).dealt, x ∈ w.dealt ∨ x = c := by
      simp only [stage1step]
      by_cases h1 : forbidColCnt s c = s.nPlayers
      · rw [if_pos h1]
        by_cases h2 : holderOf s c < s.nPlayers
        · rw [if_pos h2]
          refine ⟨⟨by rw [handsAdd_length]; exact hlen,
            OccInvE_add_hand (by omega) hinv hcf, ?_, ?_, hfC, hfR, hfW⟩,
            insertCard_nodup c hwnd, fun x hx => mem_insertCard.mp hx⟩
          · intro x hx
            rcases mem_insertCard.mp hx with hxo | rfl
            · exact hdall x hxo
            · exact hca
          · intro x hx
            exact mem_insertCard.mpr (Or.inl (hsubenv x hx))
        · rw [if_neg h2]
          have hforb := known_env_forbid s c h1 h2
          have henvG := known_env_card G s hpart hfs c hca hforb
          by_cases h3 : c < NCHARS
          · rw [if_pos h3]
            have hce : c = G.env.1 := env_char_det G s.nPlayers hpart c h3 henvG
            have hCold : ∀ i, w.envC = some i → i = charIndex c := by
              intro i hi
              rw [hfC i hi, hce]
              rfl
            have henv := wEnvCards_setC w
              { w with envC := some (charIndex c),
                       dealt := insertCard w.dealt c }
              (charIndex c) rfl rfl rfl hCold
            refine ⟨⟨hlen,
              OccInvE_add_env hinv hcf (fun x => by
                rw [henv x]
                exact Iff.rfl), ?_, ?_, ?_, hfR, hfW⟩,
              insertCard_nodup c hwnd, fun x hx => mem_insertCard.mp hx⟩
            · intro x hx
              rcases mem_insertCard.mp hx with hxo | rfl
              · exact hdall x hxo
              · exact hca
            · intro x hx
              rcases (henv x).mp hx with hxo | rfl
              · exact mem_insertCard.mpr (Or.inl (hsubenv x hxo))
              · exact mem_insertCard.mpr (Or.inr rfl)
            · intro i hi
              injection hi with hi
              rw [← hi, hce]
              rfl
          · rw [if_neg h3]
            by_cases h4 : c < NCHARS + NROOMS
            · rw [if_pos h4]
              have hce : c = G.env.2.1 + NCHARS :=
                env_room_det G s.nPlayers hpart c h3 h4 henvG
              have hRold : ∀ i, w.envR = some i → i = roomIndex c := by
                intro i hi
                rw [hfR i hi]
                unfold roomIndex
                omega
              have hrec : roomIndex c + NCHARS = c := by
                unfold roomIndex
                have h6 : NCHARS = 6 := rfl
                omega
              have henv := wEnvCards_setR w
                { w with envR := some (roomIndex c),
                         dealt := insertCard w.dealt c }
                (roomIndex c) rfl rfl rfl hRold
              refine ⟨⟨hlen,
                OccInvE_add_env hinv hcf (fun x => by
                  rw [henv x, hrec]), ?_, ?_, hfC, ?_, hfW⟩,
                insertCard_nodup c hwnd, fun x hx => mem_insertCard.mp hx⟩
              · intro x hx
                rcases mem_insertCard.mp hx with hxo | rfl
                · exact hdall x hxo
                · exact hca
              · intro x hx
                rcases (henv x).mp hx with hxo | hxc
                · exact mem_insertCard.mpr (Or.inl (hsubenv x hxo))
                · rw [hrec] at hxc
                  exact mem_insertCard.mpr (Or.inr hxc)
              · intro i hi
                injection hi with hi
                rw [← hi]
                unfold roomIndex
                omega
            · rw [if_neg h4]
              have hce : c = G.env.2.2 + (NCHARS + NROOMS) :=
                env_weap_det G s.nPlayers hpart c h4 henvG
              have hWold : ∀ i, w.envW = some i → i = weapIndex c := by
                intro i hi
                rw [hfW i hi]
                unfold weapIndex
                omega
              have hrec : weapIndex c + (NCHARS + NROOMS) = c := by
                unfold weapIndex
                have h6 : NCHARS = 6 := rfl
                have h9 : NROOMS = 9 := rfl
                omega
              have henv := wEnvCards_setW w
                { w with envW := some (weapIndex c),
                         dealt := insertCard w.dealt c }
                (weapIndex c) rfl rfl rfl hWold
              refine ⟨⟨hlen,
                OccInvE_add_env hinv hcf (fun x => by
                  rw [henv x, hrec]), ?_, ?_, hfC, hfR, ?_⟩,
                insertCard_nodup c hwnd, fun x hx => mem_insertCard.mp hx⟩
              · intro x hx
                rcases mem_insertCard.mp hx with hxo | rfl
                · exact hdall x hxo
                · exact hca
              · intro x hx
                rcases (henv x).mp hx with hxo | hxc
                · exact mem_insertCard.mpr (Or.inl (hsubenv x hxo))
                · rw [hrec] at hxc
                  exact mem_insertCard.mpr (Or.inr hxc)
              · intro i hi
                injection hi with hi
                rw [← hi]
                unfold weapIndex
                omega
      · rw [if_neg h1]
        exact ⟨⟨hlen, hinv, hdall, hsubenv, hfC, hfR, hfW⟩, hwnd,
          fun x hx => Or.inl hx⟩
    refine ih (stage1step s w c)
      (fun x hx => hall x (List.mem_cons_of_mem _ hx)) ?_
      (List.nodup_cons.mp hnd).2 hstep.1 hstep.2.1
    intro x hx hmem
    rcases hstep.2.2 x hmem with hxo | rfl
    · exact hfresh x (List.mem_cons_of_mem _ hx) hxo
    · exact (List.nodup_cons.mp hnd).1 hx

/-- The stage-1 output of the exact rebuild satisfies the working
invariant. -/
theorem stage1_winv (G : Hyp) (s : DState)
    (hpart : HypPartition s.nPlayers G) (hfs : ForbidSound G s) :
    WInv G s.nPlayers (stage1 s) ∧ (stage1 s).dealt.Nodup := by
  unfold stage1
  refine stage1_fold G s hpart hfs ALLOWEDCARDS _ (fun x hx => hx)
    (fun x _ hx => absurd hx (List.not_mem_nil x)) allowed_nodup
    ⟨by simp, ?_, fun x hx => absurd hx (List.not_mem_nil x),
      fun x hx => by simp [wEnvCards] at hx,
      fun i hi => by simp at hi, fun i hi => by simp at hi,
      fun i hi => by simp at hi⟩ List.nodup_nil
  intro x
  rw [if_neg (List.not_mem_nil x)]
  show handsOcc (List.replicate s.nPlayers []) x +
    (if x ∈ wEnvCards ⟨List.replicate s.nPlayers [], none, none, none, []⟩
      then 1 else 0) = 0
  rw [handsOcc_replicate]
  simp [wEnvCards]

/-- Stage 3 of the exact rebuild completes the murder slots of every
emitted working hypothesis while preserving sound accounting. -/
theorem stage3_out (G : Hyp) (s : DState)
    (hpart : HypPartition s.nPlayers G) :
    ∀ (ws : List WHyp),
      (∀ w ∈ ws, WInv G s.nPlayers w ∧ w.dealt.Nodup) →
      ∀ w' ∈ stage3 s ws, WDone s.nPlayers w' ∧ w'.dealt.Nodup := by
  intro ws hws w' hw'
  unfold stage3 at hw'
  rw [List.mem_flatMap] at hw'
  obtain ⟨w, hwmem, hw'⟩ := hw'
  rw [List.mem_flatMap] at hw'
  obtain ⟨mc, hmc, hw'⟩ := hw'
  rw [List.mem_flatMap] at hw'
  obtain ⟨mr, hmr, hw'⟩ := hw'
  rw [List.mem_map] at hw'
  obtain ⟨mw, hmw, hw'eq⟩ := hw'
  obtain ⟨⟨hlen, hinv, hdall, hsubenv, hfC, hfR, hfW⟩, hwnd⟩ := hws w hwmem
  have hbox := hpart.2.1
  simp only [envInBox, decide_eq_true_eq] at hbox
  have hfamC : mc ∈ CHARS ∧
      ((mc ∈ wEnvCards w ∧ mc ∈ w.dealt) ∨ mc ∉ w.dealt) ∧
      ∀ i, w.envC = some i → i = mc := by
    cases hC : w.envC with
    | some i =>
      rw [hC] at hmc
      simp only [slotChoices] at hmc
      rw [List.mem_singleton] at hmc
      have hib : i < NCHARS := by
        rw [hfC i hC]
        exact hbox.1
      have hmceq : mc = i := by rw [hmc, chars_getD i hib]
      have hmcenv : mc ∈ wEnvCards w :=
        (wEnvCards_mem w mc).mpr (Or.inl ⟨i, hC, hmceq⟩)
      refine ⟨by rw [hmceq]; exact mem_chars_of_lt i hib,
        Or.inl ⟨hmcenv, hsubenv mc hmcenv⟩, ?_⟩
      intro i' hi'
      injection hi' with h
      rw [← h, hmceq]
    | none =>
      rw [hC] at hmc
      simp only [slotChoices] at hmc
      rw [List.mem_filter] at hmc
      obtain ⟨hmcc, hp⟩ := hmc
      simp only [decide_eq_true_eq] at hp
      refine ⟨hmcc, Or.inr hp.1, ?_⟩
      intro i' hi'
      exact Option.noConfusion hi'
  have hfamR : mr ∈ ROOMS ∧
      ((mr ∈ wEnvCards w ∧ mr ∈ w.dealt) ∨ mr ∉ w.dealt) ∧
      ∀ j, w.envR = some j → j + NCHARS = mr := by
    cases hR : w.envR with
    | some j =>
      rw [hR] at hmr
      simp only [slotChoices] at hmr
      rw [List.mem_singleton] at hmr
      have hjb : j < NROOMS := by
        rw [hfR j hR]
        exact hbox.2.1
      have hmreq : mr = j + NCHARS := by rw [hmr, rooms_getD j hjb]
      have hmrenv : mr ∈ wEnvCards w :=
        (wEnvCards_mem w mr).mpr (Or.inr (Or.inl ⟨j, hR, hmreq⟩))
      have hmrR : mr ∈ ROOMS := by
        rw [hmreq]
        have := rooms_getD j hjb
        rw [← this]
        exact getD_mem_of_lt 0 (by
          have h9 : ROOMS.length = NROOMS := by decide
          omega)
      refine ⟨hmrR, Or.inl ⟨hmrenv, hsubenv mr hmrenv⟩, ?_⟩
      intro j' hj'
      injection hj' with h
      rw [← h, hmreq]
    | none =>
      rw [hR] at hmr
      simp only [slotChoices] at hmr
      rw [List.mem_filter] at hmr
      obtain ⟨hmrc, hp⟩ := hmr
      simp only [decide_eq_true_eq] at hp
      refine ⟨hmrc, Or.inr hp.1, ?_⟩
      intro j' hj'
      exact Option.noConfusion hj'
  have hfamW : mw ∈ WEAPS ∧
      ((mw ∈ wEnvCards w ∧ mw ∈ w.dealt) ∨ mw ∉ w.dealt) ∧
      ∀ k, w.envW = some k → k + (NCHARS + NROOMS) = mw := by
    cases hW : w.envW with
    | some k =>
      rw [hW] at hmw
      simp only [slotChoices] at hmw
      rw [List.mem_singleton] at hmw
      have hkb : k < NWEAPS := by
        rw [hfW k hW]
        exact hbox.2.2
      have hmweq : mw = k + (NCHARS + NROOMS) := by
        rw [hmw, weaps_getD k hkb]
      have hmwenv : mw ∈ wEnvCards w :=
        (wEnvCards_mem w mw).mpr (Or.inr (Or.inr ⟨k, hW, hmweq⟩))
      have hmwW : mw ∈ WEAPS := by
        rw [hmw]
        exact getD_mem_of_lt 0 (by
          have h6 : WEAPS.length = NWEAPS := by decide
          omega)
      refine ⟨hmwW, Or.inl ⟨hmwenv, hsubenv mw hmwenv⟩, ?_⟩
      intro k' hk'
      injection hk' with h
      rw [← h, hmweq]
    | none =>
      rw [hW] at hmw
      simp only [slotChoices] at hmw
      rw [List.mem_filter] at hmw
      obtain ⟨hmwc, hp⟩ := hmw
      simp only [decide_eq_true_eq] at hp
      refine ⟨hmwc, Or.inr hp.1, ?_⟩
      intro k' hk'
      exact Option.noConfusion hk'
  obtain ⟨hmcc, hmccase, hCdet⟩ := hfamC
  obtain ⟨hmrc, hmrcase, hRdet⟩ := hfamR
  obtain ⟨hmwc, hmwcase, hWdet⟩ := hfamW
  have hmcb := chars_bound mc hmcc
  have hmrb := rooms_bound mr hmrc
  have hmwb := weaps_bound mw hmwc
  have hne_rc : mr ≠ mc := by omega
  have hne_wc : mw ≠ mc := by omega
  have hne_wr : mw ≠ mr := by omega
  -- accounting chain
  have h1 : OccInvE w.hands (mc :: wEnvCards w) (insertCard w.dealt mc) :=
    OccInvE_add_env_mem hinv hmccase
      (fun x => List.mem_cons.trans or_comm)
  have h2 : OccInvE w.hands (mr :: mc :: wEnvCards w)
      (insertCard (insertCard w.dealt mc) mr) := by
    refine OccInvE_add_env_mem h1 ?_ (fun x => List.mem_cons.trans or_comm)
    rcases hmrcase with ⟨he, hd⟩ | hd
    · exact Or.inl ⟨List.mem_cons_of_mem _ he,
        mem_insertCard.mpr (Or.inl hd)⟩
    · refine Or.inr ?_
      intro hmem
      rcases mem_insertCard.mp hmem with h | h
      · exact hd h
      · exact hne_rc h
  have h3 : OccInvE w.hands (mw :: mr :: mc :: wEnvCards w)
      (insertCard (insertCard (insertCard w.dealt mc) mr) mw) := by
    refine OccInvE_add_env_mem h2 ?_ (fun x => List.mem_cons.trans or_comm)
    rcases hmwcase with ⟨he, hd⟩ | hd
    · exact Or.inl ⟨List.mem_cons_of_mem _ (List.mem_cons_of_mem _ he),
        mem_insertCard.mpr (Or.inl (mem_insertCard.mpr (Or.inl hd)))⟩
    · refine Or.inr ?_
      intro hmem
      rcases mem_insertCard.mp hmem with h | h
      · rcases mem_insertCard.mp h with h' | h'
        · exact hd h'
        · exact hne_wc h'
      · exact hne_wr h
  have henvsub : ∀ x ∈ wEnvCards w, x = mc ∨ x = mr ∨ x = mw := by
    intro x hx
    rcases (wEnvCards_mem w x).mp hx with ⟨i, hi, hx⟩ | ⟨j, hj, hx⟩ |
      ⟨k, hk, hx⟩
    · exact Or.inl (by rw [hx]; exact hCdet i hi)
    · exact Or.inr (Or.inl (by rw [hx, ← hRdet j hj]))
    · exact Or.inr (Or.inr (by rw [hx, ← hWdet k hk]))
  have hwe : wEnvCards w' = [mc, mr, mw] := by
    rw [← hw'eq]
    show [charIndex mc, roomIndex mr + NCHARS,
      weapIndex mw + (NCHARS + NROOMS)] = [mc, mr, mw]
    rw [room_recover mr hmrc, weap_recover mw hmwc]
    rfl
  subst hw'eq
  refine ⟨⟨hlen, ?_, ?_, ?_, ⟨charIndex mc, rfl, char_lt mc hmcc⟩,
    ⟨roomIndex mr, rfl, room_lt mr hmrc⟩,
    ⟨weapIndex mw, rfl, weap_lt mw hmwc⟩⟩,
    insertCard_nodup mw (insertCard_nodup mr (insertCard_nodup mc hwnd))⟩
  · refine OccInvE_congr (fun x => ?_) (fun x => Iff.rfl) h3
    rw [hwe]
    constructor
    · intro hx
      rcases List.mem_cons.mp hx with rfl | hx
      · simp
      rcases List.mem_cons.mp hx with rfl | hx
      · simp
      rcases List.mem_cons.mp hx with rfl | hx
      · simp
      rcases henvsub x hx with rfl | rfl | rfl <;> simp
    · intro hx
      simp only [List.mem_cons, List.not_mem_nil, or_false] at hx
      rcases hx with rfl | rfl | rfl
      · exact List.mem_cons_of_mem _ (List.mem_cons_of_mem _
          (List.mem_cons_self _ _))
      · exact List.mem_cons_of_mem _ (List.mem_cons_self _ _)
      · exact List.mem_cons_self _ _
  · intro x hx
    rcases mem_insertCard.mp hx with hx | rfl
    · rcases mem_insertCard.mp hx with hx | rfl
      · rcases mem_insertCard.mp hx with hx | rfl
        · exact hdall x hx
        · exact chars_sub_allowed _ hmcc
      · exact rooms_sub_allowed _ hmrc
    · exact weaps_sub_allowed _ hmwc
  · intro x hx
    rw [hwe] at hx
    simp only [List.mem_cons, List.not_mem_nil, or_false] at hx
    rcases hx with rfl | rfl | rfl
    · exact mem_insertCard.mpr (Or.inl (mem_insertCard.mpr
        (Or.inl (mem_insertCard.mpr (Or.inr rfl)))))
    · exact mem_insertCard.mpr (Or.inl (mem_insertCard.mpr (Or.inr rfl)))
    · exact mem_insertCard.mpr (Or.inr rfl)

theorem dealt_full_of_length {w : WHyp} (hnd : w.dealt.Nodup)
    (hsub : ∀ x ∈ w.dealt, x ∈ ALLOWEDCARDS)
    (hlen : NCARDS ≤ w.dealt.length) : dealtFull w = true := by
  have hsp : w.dealt.Subperm ALLOWEDCARDS :=
    List.subperm_of_subset hnd (fun x hx => hsub x hx)
  have hlA : ALLOWEDCARDS.length = NCARDS := by decide
  have hperm : w.dealt.Perm ALLOWEDCARDS :=
    hsp.perm_of_length_le (by omega)
  unfold dealtFull
  rw [List.all_eq_true]
  intro c hc
  simp only [decide_eq_true_eq]
  exact hperm.mem_iff.mpr hc

theorem dealtFull_length {w : WHyp} (hnd : w.dealt.Nodup)
    (hsub : ∀ x ∈ w.dealt, x ∈ ALLOWEDCARDS)
    (hfull : dealtFull w = true) : w.dealt.length = NCARDS := by
  unfold dealtFull at hfull
  rw [List.all_eq_true] at hfull
  have h1 : w.dealt.Subperm ALLOWEDCARDS :=
    List.subperm_of_subset hnd (fun x hx => hsub x hx)
  have h2 : ALLOWEDCARDS.Subperm w.dealt :=
    List.subperm_of_subset allowed_nodup (fun x hx => by
      have := hfull x hx
      simpa using this)
  have hlA : ALLOWEDCARDS.length = NCARDS := by decide
  rw [← hlA]
  exact (h1.antisymm h2).length_eq

/-- One stage-4 round of the exact rebuild preserves the completed working
invariant, dealing one further card in every incomplete hypothesis. -/
theorem stage4round_out (s : DState) (hn : 1 ≤ s.nPlayers) (f : ℕ)
    (ws : List WHyp)
    (hws : ∀ w ∈ ws, WDone s.nPlayers w ∧ w.dealt.Nodup ∧
      NCARDS ≤ w.dealt.length + (f + 1)) :
    ∀ w' ∈ stage4round s ws, WDone s.nPlayers w' ∧ w'.dealt.Nodup ∧
      NCARDS ≤ w'.dealt.length + f := by
  intro w' hw'
  unfold stage4round at hw'
  rw [List.mem_flatMap] at hw'
  obtain ⟨w, hwmem, hw'⟩ := hw'
  obtain ⟨hdone, hnd, hflen⟩ := hws w hwmem
  by_cases hfull : dealtFull w = true
  · rw [if_pos hfull] at hw'
    rw [List.mem_singleton] at hw'
    subst hw'
    refine ⟨hdone, hnd, ?_⟩
    have := dealtFull_length hnd hdone.2.2.1 hfull
    omega
  · rw [if_neg hfull] at hw'
    rw [List.mem_map] at hw'
    obtain ⟨p, hpmem, hw'eq⟩ := hw'
    rw [List.mem_filter] at hpmem
    obtain ⟨hpr, hpcond⟩ := hpmem
    rw [List.mem_range'_1] at hpr
    have hpn : p < s.nPlayers := by omega
    have hne : ALLOWEDCARDS.filter (fun c => c ∉ w.dealt) ≠ [] := by
      intro hnil
      refine hfull ?_
      unfold dealtFull
      rw [List.all_eq_true]
      intro c hc
      by_contra hcd
      have hcf : c ∈ ALLOWEDCARDS.filter (fun c => c ∉ w.dealt) := by
        rw [List.mem_filter]
        refine ⟨hc, ?_⟩
        simpa using hcd
      rw [hnil] at hcf
      exact absurd hcf (List.not_mem_nil c)
    have hcm := headD_mem 0 hne
    rw [List.mem_filter] at hcm
    obtain ⟨hcall, hcfree⟩ := hcm
    simp only [decide_eq_true_eq] at hcfree
    obtain ⟨hlen, hinv, hsub, hsubenv, hsC, hsR, hsW⟩ := hdone
    subst hw'eq
    refine ⟨⟨by rw [handsAdd_length]; exact hlen,
      OccInvE_add_hand (by omega) hinv hcfree, ?_, ?_, hsC, hsR, hsW⟩,
      insertCard_nodup _ hnd, ?_⟩
    · intro x hx
      rcases mem_insertCard.mp hx with hxo | rfl
      · exact hsub x hxo
      · exact hcall
    · intro x hx
      exact mem_insertCard.mpr (Or.inl (hsubenv x hx))
    · rw [insertCard_length_not_mem hcfree]
      omega

/-- Stage 4 of the exact rebuild: with enough fuel every surviving working
hypothesis is complete and still satisfies the invariant. -/
theorem stage4_out (s : DState) (hn : 1 ≤ s.nPlayers) :
    ∀ (f : ℕ) (ws : List WHyp),
      (∀ w ∈ ws, WDone s.nPlayers w ∧ w.dealt.Nodup ∧
        NCARDS ≤ w.dealt.length + f) →
      ∀ w ∈ stage4 s f ws, WDone s.nPlayers w ∧ w.dealt.Nodup ∧
        dealtFull w = true := by
  intro f
  induction f with
  | zero =>
    intro ws hws w hw
    obtain ⟨hdone, hnd, hlen⟩ := hws w hw
    exact ⟨hdone, hnd, dealt_full_of_length hnd hdone.2.2.1 (by omega)⟩
  | succ f ih =>
    intro ws hws w hw
    rw [stage4] at hw
    by_cases hall : ws.all dealtFull = true
    · rw [if_pos hall] at hw
      obtain ⟨hdone, hnd, _⟩ := hws w hw
      rw [List.all_eq_true] at hall
      exact ⟨hdone, hnd, hall w hw⟩
    · rw [if_neg hall] at hw
      exact ih (stage4round s ws) (stage4round_out s hn f ws hws) w hw

/-- A completed working hypothesis is a partition when read back as a
`Hyp`. -/
theorem wdone_partition (n : ℕ) (w : WHyp) (hd : WDone n w)
    (hnd : w.dealt.Nodup) (hfull : dealtFull w = true) :
    HypPartition n
      ⟨w.hands, (w.envC.getD 0, w.envR.getD 0, w.envW.getD 0)⟩ := by
  obtain ⟨hlen, hinv, hsub, hsubenv, ⟨i, hC, hib⟩, ⟨j, hR, hjb⟩,
    ⟨k, hW, hkb⟩⟩ := hd
  have hC' : w.envC.getD 0 = i := by rw [hC]; rfl
  have hR' : w.envR.getD 0 = j := by rw [hR]; rfl
  have hW' : w.envW.getD 0 = k := by rw [hW]; rfl
  have hwe : wEnvCards w = [i, j + NCHARS, k + (NCHARS + NROOMS)] := by
    unfold wEnvCards
    rw [hC, hR, hW]
    rfl
  have henvl : envCards
      ⟨w.hands, (w.envC.getD 0, w.envR.getD 0, w.envW.getD 0)⟩ =
      wEnvCards w := by
    show [w.envC.getD 0, w.envR.getD 0 + NCHARS,
      w.envW.getD 0 + (NCHARS + NROOMS)] = wEnvCards w
    rw [hC', hR', hW', hwe]
  refine ⟨hlen, ?_, ?_⟩
  · simp only [envInBox, decide_eq_true_eq]
    refine ⟨?_, ?_, ?_⟩
    · show w.envC.getD 0 < NCHARS
      rw [hC']
      exact hib
    · show w.envR.getD 0 < NROOMS
      rw [hR']
      exact hjb
    · show w.envW.getD 0 < NWEAPS
      rw [hW']
      exact hkb
  · intro c
    show handsOcc w.hands c + (if c ∈ envCards
      ⟨w.hands, (w.envC.getD 0, w.envR.getD 0, w.envW.getD 0)⟩
      then 1 else 0) = if c ∈ ALLOWEDCARDS then 1 else 0
    rw [henvl]
    have hiff : c ∈ w.dealt ↔ c ∈ ALLOWEDCARDS := by
      constructor
      · exact hsub c
      · intro hca
        unfold dealtFull at hfull
        rw [List.all_eq_true] at hfull
        simpa using hfull c hca
    rw [← ite_mem_congr c hiff]
    exact hinv c

/-- Every hypothesis enumerated by the exact rebuild is a partition. -/
theorem exactRebuild_partition (G : Hyp) (s : DState)
    (hgm : GroundMatch G s) (hfs : ForbidSound G s) :
    ∀ h ∈ (exactRebuild s).hypotheses, HypPartition s.nPlayers h := by
  intro h hh
  have hh' : h ∈ (stage4 s (NCARDS + 1) (stage3 s [stage1 s])).map
      (fun w =>
        (⟨w.hands, (w.envC.getD 0, w.envR.getD 0, w.envW.getD 0)⟩ :
          Hyp)) := hh
  rw [List.mem_map] at hh'
  obtain ⟨w, hw, rfl⟩ := hh'
  have hstage1 := stage1_winv G s hgm.1 hfs
  have hstage3 := stage3_out G s hgm.1 [stage1 s]
    (fun w' hw' => by
      rw [List.mem_singleton] at hw'
      subst hw'
      exact hstage1)
  have h4 := stage4_out s (by have := hgm.2.1; omega) (NCARDS + 1)
    (stage3 s [stage1 s])
    (fun w' hw' => by
      obtain ⟨hd, hn⟩ := hstage3 w' hw'
      exact ⟨hd, hn, by omega⟩) w hw
  exact wdone_partition s.nPlayers w h4.1 h4.2.1 h4.2.2

/-! ## Invariant preservation by the event functions (claim C1) -/

theorem GroundMatch_of_fields (G : Hyp) (t u : DState)
    (hn : u.nPlayers = t.nPlayers) (hm : u.myCardSet = t.myCardSet)
    (hc : u.nCardsHeld = t.nCardsHeld) (h : GroundMatch G t) :
    GroundMatch G u := by
  unfold GroundMatch at *
  rw [hn, hm, hc]
  exact h

theorem LogsTrue_of_fields (G : Hyp) (t u : DState)
    (hn : u.nPlayers = t.nPlayers)
    (hs : u.logSeenAnswers = t.logSeenAnswers)
    (hu : u.logUnseenAnswers = t.logUnseenAnswers)
    (hp : u.logPasses = t.logPasses) (h : LogsTrue G t) : LogsTrue G u := by
  unfold LogsTrue at *
  rw [hn, hs, hu, hp]
  exact h

theorem forbidden_forbidCard (t : DState) (a c p x : ℕ) :
    (forbidCard t a c).forbidden p x = true ↔
      (p = a ∧ x = c) ∨ t.forbidden p x = true := by
  show (fupd2 t.forbidden a c true) p x = true ↔ _
  unfold fupd2
  by_cases h : p = a ∧ x = c
  · rw [if_pos h]
    simp [h]
  · rw [if_neg h]
    constructor
    · exact Or.inr
    · rintro (hpa | hx)
      · exact absurd hpa h
      · exact hx

theorem ForbidSound_forbidCard (G : Hyp) (t : DState) (a c : ℕ)
    (hfs : ForbidSound G t)
    (hsound : a < t.nPlayers → c ∉ G.hands.getD a []) :
    ForbidSound G (forbidCard t a c) := by
  intro p x hp hpx
  rcases (forbidden_forbidCard t a c p x).mp hpx with ⟨rfl, rfl⟩ | hold
  · exact hsound hp
  · exact hfs p x hp hold

theorem ForbidSound_foldForbid (G : Hyp) (l : List ℕ) :
    ∀ (t : DState), ForbidSound G t →
      ForbidSound G (l.foldl (fun u c => forbidCard u u.nPlayers c) t) := by
  induction l with
  | nil => intro t h; exact h
  | cons c l ih =>
    intro t hfs
    rw [List.foldl_cons]
    exact ih (forbidCard t t.nPlayers c)
      (ForbidSound_forbidCard G t t.nPlayers c hfs
        (fun h => absurd h (lt_irrefl _)))

theorem ForbidSound_passForbidOne (G : Hyp) (t : DState) (a c : ℕ)
    (fam : List ℕ) (hfs : ForbidSound G t)
    (hsound : a < t.nPlayers → c ∉ G.hands.getD a []) :
    ForbidSound G (passForbidOne t a c fam) := by
  simp only [passForbidOne]
  have h1 := ForbidSound_forbidCard G t a c hfs hsound
  split
  · exact ForbidSound_foldForbid G _ _ h1
  · exact h1

theorem foldForbid_keep (l : List ℕ) :
    ∀ (t : DState),
      (l.foldl (fun u c => forbidCard u u.nPlayers c) t).nPlayers =
          t.nPlayers ∧
        (l.foldl (fun u c => forbidCard u u.nPlayers c) t).myCardSet =
          t.myCardSet ∧
        (l.foldl (fun u c => forbidCard u u.nPlayers c) t).nCardsHeld =
          t.nCardsHeld ∧
        (l.foldl (fun u c => forbidCard u u.nPlayers c) t).hypotheses =
          t.hypotheses ∧
        (l.foldl (fun u c => forbidCard u u.nPlayers c) t).logSeenAnswers =
          t.logSeenAnswers ∧
        (l.foldl (fun u c =>
            forbidCard u u.nPlayers c) t).logUnseenAnswers =
          t.logUnseenAnswers ∧
        (l.foldl (fun u c => forbidCard u u.nPlayers c) t).logPasses =
          t.logPasses := by
  induction l with
  | nil => intro t; exact ⟨rfl, rfl, rfl, rfl, rfl, rfl, rfl⟩
  | cons c l ih =>
    intro t
    rw [List.foldl_cons]
    exact ih (forbidCard t t.nPlayers c)

theorem passForbidOne_keep (t : DState) (a c : ℕ) (fam : List ℕ) :
    (passForbidOne t a c fam).nPlayers = t.nPlayers ∧
      (passForbidOne t a c fam).myCardSet = t.myCardSet ∧
      (passForbidOne t a c fam).nCardsHeld = t.nCardsHeld ∧
      (passForbidOne t a c fam).hypotheses = t.hypotheses ∧
      (passForbidOne t a c fam).logSeenAnswers = t.logSeenAnswers ∧
      (passForbidOne t a c fam).logUnseenAnswers = t.logUnseenAnswers ∧
      (passForbidOne t a c fam).logPasses = t.logPasses := by
  simp only [passForbidOne]
  split
  · exact foldForbid_keep (fam.filter (fun x => x ≠ c)) (forbidCard t a c)
  · exact ⟨rfl, rfl, rfl, rfl, rfl, rfl, rfl⟩

set_option maxHeartbeats 1600000 in
/-- `event_pass`'s state mutation preserves the reachability invariant when
the recorded pass is true of the deal `G`. -/
theorem event_pass_apply_inv (G : Hyp) (t : DState) (e : EventPass)
    (hinv : Inv G t) (hea : e.actor < t.nPlayers)
    (hsound : ∀ x ∈ [e.character, e.room, e.weapon],
      x ∉ G.hands.getD e.actor []) :
    Inv G (event_pass_apply t e) := by
  obtain ⟨hgm, hfs, hlt, hpool⟩ := hinv
  have k1 := passForbidOne_keep t e.actor e.character CHARS
  have k2 := passForbidOne_keep (passForbidOne t e.actor e.character CHARS)
    e.actor e.room ROOMS
  have k3 := passForbidOne_keep (passForbidOne (passForbidOne t e.actor
    e.character CHARS) e.actor e.room ROOMS) e.actor e.weapon WEAPS
  have f1 := ForbidSound_passForbidOne G t e.actor e.character CHARS hfs
    (fun _ => hsound e.character (by simp))
  have f2 := ForbidSound_passForbidOne G _ e.actor e.room ROOMS f1
    (fun _ => hsound e.room (by simp))
  have f3 := ForbidSound_passForbidOne G _ e.actor e.weapon WEAPS f2
    (fun _ => hsound e.weapon (by simp))
  refine ⟨?_, ?_, ?_, ?_⟩
  · exact GroundMatch_of_fields G t _
      (k3.1.trans (k2.1.trans k1.1))
      (k3.2.1.trans (k2.2.1.trans k1.2.1))
      (k3.2.2.1.trans (k2.2.2.1.trans k1.2.2.1)) hgm
  · exact f3
  · exact LogsTrue_of_fields G t _
      (k3.1.trans (k2.1.trans k1.1))
      (k3.2.2.2.2.1.trans (k2.2.2.2.2.1.trans k1.2.2.2.2.1))
      (k3.2.2.2.2.2.1.trans (k2.2.2.2.2.2.1.trans k1.2.2.2.2.2.1))
      (k3.2.2.2.2.2.2.trans (k2.2.2.2.2.2.2.trans k1.2.2.2.2.2.2)) hlt
  · intro h hh
    have hh' : h ∈ (passForbidOne (passForbidOne (passForbidOne t e.actor
        e.character CHARS) e.actor e.room ROOMS) e.actor e.weapon
          WEAPS).hypotheses.filter (fun h =>
        (interCards (h.hands.getD e.actor [])
          [e.character, e.room, e.weapon]).isEmpty) := hh
    have hmem := (List.mem_filter.mp hh').1
    rw [k3.2.2.2.1, k2.2.2.2.1, k1.2.2.2.1] at hmem
    have hp := hpool h hmem
    exact (k3.1.trans (k2.1.trans k1.1)).symm ▸ hp

/-- `event_unseenresponse`'s pool filtering preserves the invariant. -/
theorem event_unseen_apply_inv (G : Hyp) (t : DState) (a c r w : ℕ)
    (hinv : Inv G t) : Inv G (event_unseen_apply t a c r w) := by
  obtain ⟨hgm, hfs, hlt, hpool⟩ := hinv
  refine ⟨hgm, hfs, hlt, ?_⟩
  intro h hh
  have hh' : h ∈ t.hypotheses.filter (fun h =>
      !(interCards (h.hands.getD a []) [c, r, w]).isEmpty) := hh
  have hp := hpool h (List.mem_filter.mp hh').1
  show HypPartition t.nPlayers h
  exact hp

theorem ForbidSound_unforbid (G : Hyp) (t : DState) (a c : ℕ)
    (hfs : ForbidSound G t) :
    ForbidSound G
      { t with
        forbidden := fupd2 t.forbidden a c false
        forbiddenSets := fupd t.forbiddenSets a
          ((t.forbiddenSets a).filter (fun x => x ≠ c)) } := by
  intro p x hp hpx
  have hpx' : (fupd2 t.forbidden a c false) p x = true := hpx
  unfold fupd2 at hpx'
  by_cases h : p = a ∧ x = c
  · rw [if_pos h] at hpx'
    exact absurd hpx' (by simp)
  · rw [if_neg h] at hpx'
    exact hfs p x hp hpx'

/-- The forbidden-update loop of `event_seenresponse` preserves soundness
and the invariant-relevant fields, when the seen card is truly held by the
shower. -/
theorem seenFold_inv (G : Hyp) (e : EventSeenAnswer)
    (hdisj : ∀ p q x, x ∈ G.hands.getD p [] → x ∈ G.hands.getD q [] →
      p = q)
    (hcard : e.card ∈ G.hands.getD e.actor []) :
    ∀ (l : List ℕ) (t : DState), ForbidSound G t →
      ForbidSound G (l.foldl (fun u p =>
        if p ≠ e.actor then forbidCard u p e.card
        else
          { u with
            forbidden := fupd2 u.forbidden p e.card false
            forbiddenSets := fupd u.forbiddenSets p
              ((u.forbiddenSets p).filter (fun x => x ≠ e.card)) }) t) ∧
      (l.foldl (fun u p =>
        if p ≠ e.actor then forbidCard u p e.card
        else
          { u with
            forbidden := fupd2 u.forbidden p e.card false
            forbiddenSets := fupd u.forbiddenSets p
              ((u.forbiddenSets p).filter (fun x => x ≠ e.card)) })
          t).nPlayers = t.nPlayers ∧
      (l.foldl (fun u p =>
        if p ≠ e.actor then forbidCard u p e.card
        else
          { u with
            forbidden := fupd2 u.forbidden p e.card false
            forbiddenSets := fupd u.forbiddenSets p
              ((u.forbiddenSets p).filter (fun x => x ≠ e.card)) })
          t).myCardSet = t.myCardSet ∧
      (l.foldl (fun u p =>
        if p ≠ e.actor then forbidCard u p e.card
        else
          { u with
            forbidden := fupd2 u.forbidden p e.card false
            forbiddenSets := fupd u.forbiddenSets p
              ((u.forbiddenSets p).filter (fun x => x ≠ e.card)) })
          t).nCardsHeld = t.nCardsHeld ∧
      (l.foldl (fun u p =>
        if p ≠ e.actor then forbidCard u p e.card
        else
          { u with
            forbidden := fupd2 u.forbidden p e.card false
            forbiddenSets := fupd u.forbiddenSets p
              ((u.forbiddenSets p).filter (fun x => x ≠ e.card)) })
          t).hypotheses = t.hypotheses ∧
      (l.foldl (fun u p =>
        if p ≠ e.actor then forbidCard u p e.card
        else
          { u with
            forbidden := fupd2 u.forbidden p e.card false
            forbiddenSets := fupd u.forbiddenSets p
              ((u.forbiddenSets p).filter (fun x => x ≠ e.card)) })
          t).logSeenAnswers = t.logSeenAnswers ∧
      (l.foldl (fun u p =>
        if p ≠ e.actor then forbidCard u p e.card
        else
          { u with
            forbidden := fupd2 u.forbidden p e.card false
            forbiddenSets := fupd u.forbiddenSets p
              ((u.forbiddenSets p).filter (fun x => x ≠ e.card)) })
          t).logUnseenAnswers = t.logUnseenAnswers ∧
      (l.foldl (fun u p =>
        if p ≠ e.actor then forbidCard u p e.card
        else
          { u with
            forbidden := fupd2 u.forbidden p e.card false
            forbiddenSets := fupd u.forbiddenSets p
              ((u.forbiddenSets p).filter (fun x => x ≠ e.card)) })
          t).logPasses = t.logPasses := by
  intro l
  induction l with
  | nil => intro t h; exact ⟨h, rfl, rfl, rfl, rfl, rfl, rfl, rfl⟩
  | cons p l ih =>
    intro t hfs
    rw [List.foldl_cons]
    by_cases hp : p ≠ e.actor
    · rw [if_pos hp]
      refine ih (forbidCard t p e.card) ?_
      refine ForbidSound_forbidCard G t p e.card hfs ?_
      intro _ hmem
      exact hp (hdisj p e.actor e.card hmem hcard)
    · rw [if_neg hp]
      exact ih _ (ForbidSound_unforbid G t p e.card hfs)

set_option maxHeartbeats 1600000 in
/-- `event_seenresponse`'s state mutation preserves the invariant when the
recorded answer is true of the deal `G`. -/
theorem event_seen_apply_inv (G : Hyp) (t : DState) (e : EventSeenAnswer)
    (hinv : Inv G t)
    (hcard : e.card ∈ G.hands.getD e.actor []) :
    Inv G (event_seen_apply t e) := by
  obtain ⟨hgm, hfs, hlt, hpool⟩ := hinv
  have hdisj : ∀ p q x, x ∈ G.hands.getD p [] → x ∈ G.hands.getD q [] →
      p = q := by
    intro p q x hxp hxq
    have hgf := ground_facts hgm.1
    by_cases hp : p < t.nPlayers
    · by_cases hq : q < t.nPlayers
      · exact hgf.2.1 p q x hp hq hxp hxq
      · exfalso
        have : q < G.hands.length := by
          by_contra hno
          rw [List.getD_eq_default _ _ (by omega)] at hxq
          exact absurd hxq (List.not_mem_nil x)
        rw [hgm.1.1] at this
        exact hq this
    · exfalso
      have : p < G.hands.length := by
        by_contra hno
        rw [List.getD_eq_default _ _ (by omega)] at hxp
        exact absurd hxp (List.not_mem_nil x)
      rw [hgm.1.1] at this
      exact hp this
  obtain ⟨hfs', hk⟩ := seenFold_inv G e hdisj hcard
    (List.range (t.nPlayers + 1)) t hfs
  refine ⟨?_, hfs', ?_, ?_⟩
  · exact GroundMatch_of_fields G t _ hk.1 hk.2.1 hk.2.2.1 hgm
  · exact LogsTrue_of_fields G t _ hk.1 hk.2.2.2.2.1 hk.2.2.2.2.2.1
      hk.2.2.2.2.2.2 hlt
  · intro h hh
    have hmem := (List.mem_filter.mp hh).1
    rw [hk.2.2.2.1] at hmem
    have hp := hpool h hmem
    exact hk.1.symm ▸ hp

/-- `rebuildhypotheses` preserves the reachability invariant: the no-op
branch keeps the pool, the exact branch enumerates partitions only, and the
stochastic branch appends sampler outputs, which are partitions. -/
theorem rebuildF_inv (G : Hyp) (gen : List Hyp) (t u : DState)
    (hinv : Inv G t) (hgen : GenOk gen t)
    (h : rebuildF gen t = .ok u) : Inv G u := by
  obtain ⟨hgm, hfs, hlt, hpool⟩ := hinv
  unfold rebuildF at h
  split at h
  · injection h with h
    subst h
    exact ⟨hgm, hfs, hlt, hpool⟩
  · split at h
    · split at h
      · injection h with h
        subst h
        refine ⟨hgm, hfs, hlt, ?_⟩
        exact fun h hh => exactRebuild_partition G t hgm hfs h hh
      · cases h
    · injection h with h
      subst h
      refine ⟨hgm, hfs, hlt, ?_⟩
      intro h hh
      have hh' : h ∈ t.hypotheses ++ gen := hh
      rcases List.mem_append.mp hh' with hold | hnew
      · exact hpool h hold
      · obtain ⟨o, ho⟩ := hgen h hnew
        exact genOneAttempt_partition o G t h hgm hlt ho

/-- The `rebuildhypotheses(); updatestats()` tail preserves the
invariant. -/
theorem finishEvent_inv (G : Hyp) (gen : List Hyp) (t u : DState)
    (hinv : Inv G t) (hgen : GenOk gen t)
    (h : finishEvent gen t = .ok u) : Inv G u := by
  unfold finishEvent at h
  cases hr : rebuildF gen t with
  | error p =>
    rw [hr] at h
    simp [Except.map] at h
  | ok v =>
    rw [hr] at h
    simp only [Except.map] at h
    injection h with h
    subst h
    obtain ⟨hgm, hfs, hlt, hpool⟩ := rebuildF_inv G gen t v hinv hgen hr
    exact ⟨hgm, hfs, hlt, hpool⟩

/-- Appending a pass event that is true of `G` keeps the logs true. -/
theorem LogsTrue_append_pass (G : Hyp) (s : DState) (e : EventPass)
    (hlt : LogsTrue G s) (hea : e.actor < s.nPlayers)
    (hmem : ∀ x ∈ [e.character, e.room, e.weapon],
      x ∉ G.hands.getD e.actor []) :
    LogsTrue G { s with logPasses := s.logPasses ++ [e] } := by
  obtain ⟨h1, h2, h3⟩ := hlt
  refine ⟨h1, h2, ?_⟩
  intro e' he'
  rcases List.mem_append.mp he' with hold | hnew
  · exact h3 e' hold
  · rw [List.mem_singleton] at hnew
    subst hnew
    exact ⟨hea, hmem⟩

theorem LogsTrue_append_seen (G : Hyp) (s : DState) (e : EventSeenAnswer)
    (hlt : LogsTrue G s) (hea : e.actor < s.nPlayers)
    (hcard : e.card ∈ G.hands.getD e.actor []) :
    LogsTrue G { s with logSeenAnswers := s.logSeenAnswers ++ [e] } := by
  obtain ⟨h1, h2, h3⟩ := hlt
  refine ⟨?_, h2, h3⟩
  intro e' he'
  rcases List.mem_append.mp he' with hold | hnew
  · exact h1 e' hold
  · rw [List.mem_singleton] at hnew
    subst hnew
    exact ⟨hea, hcard⟩

theorem LogsTrue_append_unseen (G : Hyp) (s : DState)
    (e : EventUnseenAnswer) (hlt : LogsTrue G s)
    (hea : e.actor < s.nPlayers) (hc : e.character ∈ CHARS)
    (hr : e.room ∈ ROOMS) (hw : e.weapon ∈ WEAPS) :
    LogsTrue G
      { s with logUnseenAnswers := s.logUnseenAnswers ++ [e] } := by
  obtain ⟨h1, h2, h3⟩ := hlt
  refine ⟨h1, ?_, h3⟩
  intro e' he'
  rcases List.mem_append.mp he' with hold | hnew
  · exact h2 e' hold
  · rw [List.mem_singleton] at hnew
    subst hnew
    exact ⟨hea, hc, hr, hw⟩

/-- The internal-state reset of `initialise` yields a sound, empty-log
state from a truthful setup. -/
theorem initTail_inv (G : Hyp) (sb : DState) (hgm : GroundMatch G sb) :
    Inv G (initTail sb) := by
  obtain ⟨hpart, hn2, hmy, hnch, hhands⟩ := hgm
  have hdisj := (ground_facts hpart).2.1
  refine ⟨⟨hpart, hn2, hmy, hnch, hhands⟩, ?_, ?_, ?_⟩
  · intro p c hp hpc
    have hpc' : (if p = 0 then
        decide (c ∈ ALLOWEDCARDS ∧ c ∉ sb.myCardSet)
      else if 1 ≤ p ∧ p ≤ sb.nPlayers then decide (c ∈ sb.myCardSet)
      else false) = true := hpc
    by_cases hp0 : p = 0
    · rw [if_pos hp0] at hpc'
      rw [decide_eq_true_eq] at hpc'
      subst hp0
      intro hcm
      exact hpc'.2 ((hmy c).mpr hcm)
    · rw [if_neg hp0] at hpc'
      by_cases h1 : 1 ≤ p ∧ p ≤ sb.nPlayers
      · rw [if_pos h1] at hpc'
        rw [decide_eq_true_eq] at hpc'
        intro hcm
        exact hp0 (hdisj p 0 c hp (by omega) hcm ((hmy c).mp hpc'))
      · rw [if_neg h1] at hpc'
        exact absurd hpc' (by simp)
  · exact ⟨fun e he => absurd he (List.not_mem_nil e),
      fun e he => absurd he (List.not_mem_nil e),
      fun e he => absurd he (List.not_mem_nil e)⟩
  · intro h hh
    exact absurd hh (List.not_mem_nil h)

theorem Inv_of_fields (G : Hyp) (t u : DState)
    (hn : u.nPlayers = t.nPlayers) (hm : u.myCardSet = t.myCardSet)
    (hc : u.nCardsHeld = t.nCardsHeld) (hf : u.forbidden = t.forbidden)
    (hh : u.hypotheses = t.hypotheses)
    (hs : u.logSeenAnswers = t.logSeenAnswers)
    (hu : u.logUnseenAnswers = t.logUnseenAnswers)
    (hp : u.logPasses = t.logPasses) (h : Inv G t) : Inv G u := by
  obtain ⟨hgm, hfs, hlt, hpool⟩ := h
  refine ⟨GroundMatch_of_fields G t u hn hm hc hgm, ?_,
    LogsTrue_of_fields G t u hn hs hu hp hlt, ?_⟩
  · intro p c hplt hpc
    rw [hf] at hpc
    exact hfs p c (hn ▸ hplt) hpc
  · intro h2 hh2
    rw [hh] at hh2
    exact hn.symm ▸ hpool h2 hh2

theorem moveApply_keep (s : DState) (e : EventMove) (d : Option ℕ) :
    (moveApply s e d).nPlayers = s.nPlayers ∧
      (moveApply s e d).myCardSet = s.myCardSet ∧
      (moveApply s e d).nCardsHeld = s.nCardsHeld ∧
      (moveApply s e d).forbidden = s.forbidden ∧
      (moveApply s e d).hypotheses = s.hypotheses ∧
      (moveApply s e d).logSeenAnswers = s.logSeenAnswers ∧
      (moveApply s e d).logUnseenAnswers = s.logUnseenAnswers ∧
      (moveApply s e d).logPasses = s.logPasses := by
  simp only [moveApply]
  split
  · exact ⟨rfl, rfl, rfl, rfl, rfl, rfl, rfl, rfl⟩
  · exact ⟨rfl, rfl, rfl, rfl, rfl, rfl, rfl, rfl⟩

theorem suggestApply_keep (s : DState) (e : EventSuggestion) :
    (suggestApply s e).nPlayers = s.nPlayers ∧
      (suggestApply s e).myCardSet = s.myCardSet ∧
      (suggestApply s e).nCardsHeld = s.nCardsHeld ∧
      (suggestApply s e).forbidden = s.forbidden ∧
      (suggestApply s e).hypotheses = s.hypotheses ∧
      (suggestApply s e).logSeenAnswers = s.logSeenAnswers ∧
      (suggestApply s e).logUnseenAnswers = s.logUnseenAnswers ∧
      (suggestApply s e).logPasses = s.logPasses := by
  simp only [suggestApply]
  split
  · exact ⟨rfl, rfl, rfl, rfl, rfl, rfl, rfl, rfl⟩
  · split
    · exact ⟨rfl, rfl, rfl, rfl, rfl, rfl, rfl, rfl⟩
    · exact ⟨rfl, rfl, rfl, rfl, rfl, rfl, rfl, rfl⟩

/-- Every state reachable from a successful `initialise` in a game with
true deal `G` satisfies the full reachability invariant. -/
theorem reachable_inv (G : Hyp) (s : DState) (hr : Reachable G s) :
    Inv G s := by
  induction hr with
  | init gen ui s0 sb s' a hparse hgm hgen hfin =>
    have hinvt := initTail_inv G sb hgm
    unfold initFinish at hfin
    split at hfin
    · cases hfin
    · rename_i t ht
      injection hfin with hfin
      subst hfin
      obtain ⟨hgm', hfs', hlt', hpool'⟩ :=
        rebuildF_inv G gen (initTail sb) t hinvt hgen ht
      exact ⟨hgm', hfs', hlt', hpool'⟩
  | pass_explicit gen s s' c r w p hreach hcC hrR hwW hplt hnotin hgen
      heq ih =>
    obtain ⟨hgm, hfs, hlt, hpool⟩ := ih
    have h' : finishEvent gen (event_pass_apply
      { s with logPasses := s.logPasses ++ [⟨s.ixTurn, p, c, r, w⟩] }
      ⟨s.ixTurn, p, c, r, w⟩) = .ok s' := heq
    have hinv1 : Inv G
        { s with logPasses := s.logPasses ++ [⟨s.ixTurn, p, c, r, w⟩] } :=
      ⟨hgm, hfs,
        LogsTrue_append_pass G s ⟨s.ixTurn, p, c, r, w⟩ hlt hplt hnotin,
        hpool⟩
    have hinv2 := event_pass_apply_inv G _ ⟨s.ixTurn, p, c, r, w⟩ hinv1
      hplt hnotin
    exact finishEvent_inv G gen _ s' hinv2 hgen h'
  | pass_replay gen s s' e hreach hlast hgen hfin ih =>
    obtain ⟨hgm, hfs, hlt, hpool⟩ := ih
    obtain ⟨hea, hnotin⟩ := hlt.2.2 e (List.mem_of_getLast?_eq_some hlast)
    have hinv2 := event_pass_apply_inv G s e ⟨hgm, hfs, hlt, hpool⟩ hea
      hnotin
    exact finishEvent_inv G gen _ s' hinv2 hgen hfin
  | seen_explicit gen s s' card sh vw hreach hsh hcard hgen heq ih =>
    obtain ⟨hgm, hfs, hlt, hpool⟩ := ih
    have h' : finishEvent gen (event_seen_apply
      { s with logSeenAnswers := s.logSeenAnswers ++
          [⟨s.ixTurn, sh, vw, card⟩] }
      ⟨s.ixTurn, sh, vw, card⟩) = .ok s' := heq
    have hinv1 : Inv G { s with logSeenAnswers := s.logSeenAnswers ++
        [⟨s.ixTurn, sh, vw, card⟩] } :=
      ⟨hgm, hfs,
        LogsTrue_append_seen G s ⟨s.ixTurn, sh, vw, card⟩ hlt hsh hcard,
        hpool⟩
    have hinv2 := event_seen_apply_inv G _ ⟨s.ixTurn, sh, vw, card⟩ hinv1
      hcard
    exact finishEvent_inv G gen _ s' hinv2 hgen h'
  | seen_replay gen s s' e hreach hlast hgen hfin ih =>
    obtain ⟨hgm, hfs, hlt, hpool⟩ := ih
    obtain ⟨hea, hcard⟩ := hlt.1 e (List.mem_of_getLast?_eq_some hlast)
    exact finishEvent_inv G gen _ s'
      (event_seen_apply_inv G s e ⟨hgm, hfs, hlt, hpool⟩ hcard) hgen hfin
  | unseen_explicit gen s s' c r w sh vw hreach hsh hcC hrR hwW hgen
      heq ih =>
    obtain ⟨hgm, hfs, hlt, hpool⟩ := ih
    have h' : finishEvent gen (event_unseen_apply
      { s with logUnseenAnswers := s.logUnseenAnswers ++
          [⟨s.ixTurn, sh, vw, c, r, w⟩] } sh c r w) = .ok s' := heq
    have hinv1 : Inv G { s with logUnseenAnswers := s.logUnseenAnswers ++
        [⟨s.ixTurn, sh, vw, c, r, w⟩] } :=
      ⟨hgm, hfs,
        LogsTrue_append_unseen G s ⟨s.ixTurn, sh, vw, c, r, w⟩ hlt hsh
          hcC hrR hwW, hpool⟩
    have hinv2 := event_unseen_apply_inv G _ sh c r w hinv1
    exact finishEvent_inv G gen _ s' hinv2 hgen h'
  | unseen_replay gen s s' e hreach hlast hgen hfin ih =>
    exact finishEvent_inv G gen _ s'
      (event_unseen_apply_inv G s e.actor e.character e.room e.weapon ih)
      hgen hfin
  | move s s' destNode player hreach heq ih =>
    unfold event_move at heq
    split at heq
    · split at heq
      · cases heq
      · injection heq with heq2
        subst heq2
        refine Inv_of_fields G s _ (moveApply_keep _ _ _).1
          (moveApply_keep _ _ _).2.1 (moveApply_keep _ _ _).2.2.1
          (moveApply_keep _ _ _).2.2.2.1 (moveApply_keep _ _ _).2.2.2.2.1
          (moveApply_keep _ _ _).2.2.2.2.2.1
          (moveApply_keep _ _ _).2.2.2.2.2.2.1
          (moveApply_keep _ _ _).2.2.2.2.2.2.2 ih
    · injection heq with heq2
      subst heq2
      refine Inv_of_fields G s _ (moveApply_keep _ _ _).1
        (moveApply_keep _ _ _).2.1 (moveApply_keep _ _ _).2.2.1
        (moveApply_keep _ _ _).2.2.2.1 (moveApply_keep _ _ _).2.2.2.2.1
        (moveApply_keep _ _ _).2.2.2.2.2.1
        (moveApply_keep _ _ _).2.2.2.2.2.2.1
        (moveApply_keep _ _ _).2.2.2.2.2.2.2 ih
  | suggestion s s' character room weapon player hreach heq ih =>
    unfold event_suggestion at heq
    split at heq
    · injection heq with heq2
      subst heq2
      refine Inv_of_fields G s _ (suggestApply_keep _ _).1
        (suggestApply_keep _ _).2.1 (suggestApply_keep _ _).2.2.1
        (suggestApply_keep _ _).2.2.2.1 (suggestApply_keep _ _).2.2.2.2.1
        (suggestApply_keep _ _).2.2.2.2.2.1
        (suggestApply_keep _ _).2.2.2.2.2.2.1
        (suggestApply_keep _ _).2.2.2.2.2.2.2 ih
    · split at heq
      · cases heq
      · injection heq with heq2
        subst heq2
        refine Inv_of_fields G s _ (suggestApply_keep _ _).1
          (suggestApply_keep _ _).2.1 (suggestApply_keep _ _).2.2.1
          (suggestApply_keep _ _).2.2.2.1 (suggestApply_keep _ _).2.2.2.2.1
          (suggestApply_keep _ _).2.2.2.2.2.1
          (suggestApply_keep _ _).2.2.2.2.2.2.1
          (suggestApply_keep _ _).2.2.2.2.2.2.2 ih
  | accusation_correct s hreach ih =>
    obtain ⟨hgm, hfs, hlt, hpool⟩ := ih
    exact ⟨hgm, hfs, hlt, hpool⟩

theorem hypPartition_of_bounded (n : ℕ) (h : Hyp)
    (hlen : h.hands.length = n) (hbox : envInBox h = true)
    (hsub : ∀ hd ∈ h.hands, ∀ x ∈ hd, x ∈ ALLOWEDCARDS)
    (hocc : ∀ c ∈ ALLOWEDCARDS, occCount h c = 1) :
    HypPartition n h := by
  refine ⟨hlen, hbox, ?_⟩
  intro c
  by_cases hc : c ∈ ALLOWEDCARDS
  · rw [if_pos hc]
    exact hocc c hc
  · rw [if_neg hc]
    unfold occCount
    have h0 : h.hands.countP (fun hd => c ∈ hd) = 0 := by
      rw [List.countP_eq_zero]
      intro hd hmem
      simp only [decide_eq_true_eq]
      intro hcm
      exact hc (hsub hd hmem c hcm)
    rw [h0]
    have henv : c ∉ envCards h := by
      intro hmem
      simp only [envInBox, decide_eq_true_eq] at hbox
      unfold envCards at hmem
      simp only [List.mem_cons, List.not_mem_nil, or_false] at hmem
      have hn : NCARDS = 21 := rfl
      have h6 : NCHARS = 6 := rfl
      have h9 : NROOMS = 9 := rfl
      have h6' : NWEAPS = 6 := rfl
      have hca : c < NCARDS := by
        rcases hmem with rfl | rfl | rfl <;> omega
      exact hc (by unfold ALLOWEDCARDS; rw [List.mem_range]; exact hca)
    rw [if_neg henv]

/-- C1. For every hypothesis present in the Detective's pool at any
reachable state (after a successful `initialise` and any sequence of
successfully recorded events of a game with true deal `G`, covering both
the stochastic sampler and the exact enumeration rebuild), the player
hands together with the envelope form a partition of the full card set:
all hands and the envelope are pairwise disjoint, their union is the
complete card set, and the envelope holds exactly one suspect, one room
and one weapon card. -/
theorem reachable_pool_partition (G : Hyp) (s : DState)
    (hr : Reachable G s) : ∀ h ∈ s.hypotheses, HypPartition s.nPlayers h :=
  (reachable_inv G s hr).2.2.2

/-- Witness for C1 at a concrete two-player initialisation whose pool is
built by the exact-enumeration branch: the first enumerated hypothesis is
a partition. -/
theorem reachable_pool_partition_w :
    HypPartition WS.nPlayers (WS.hypotheses.headD ⟨[], (0, 0, 0)⟩) := by
  have hpart : HypPartition Wsb.nPlayers WG :=
    hypPartition_of_bounded 2 WG (by decide) (by decide) (by decide)
      (by decide)
  have hmyeq : Wsb.myCardSet = WG.hands.getD 0 [] := by decide
  have hgm : GroundMatch WG Wsb := by
    refine ⟨hpart, by decide, ?_, by decide, ?_⟩
    · intro c
      rw [hmyeq]
    · intro p hp
      have hp2 : p < 2 := hp
      interval_cases p
      · exact ⟨by decide, by decide⟩
      · exact ⟨by decide, by decide⟩
  have hreb : rebuildF [] (initTail Wsb) =
      .ok (exactRebuild (initTail Wsb)) := by
    unfold rebuildF
    rw [if_neg (by decide), if_pos (by decide), if_pos (by decide)]
  have hfin : initFinish [] Wsb = .ok WS := by
    unfold initFinish
    rw [hreb]
    rfl
  have hne : WS.hypotheses ≠ [] := by decide
  exact reachable_pool_partition WG WS
    (Reachable.init [] (0, 0, [], [], []) blankState Wsb WS WA rfl hgm
      (fun h hh => absurd hh (List.not_mem_nil h)) hfin)
    _ (headD_mem _ hne)

end Velma
